import Mathlib

/-!
# discordpp `PluginRateLimit` : a shallow embedding

Source: `src/discordpp/plugin-ratelimit.hh`.

* `std::map<K, V>` is an association list kept in key order (`Map.put` inserts in order),
  so that iterating the list is iterating the map.
* `std::queue<sptr<Call>>` is a `List Call`, front of the queue = head of the list.
* `size_t` is a `Nat` below `2 ^ 64` with explicit wrap-around, `int` is an `Int`
  in the 32 bit range, `std::time_t` is an `Int` (64 bit).
* A pointer to a bucket (`Bucket*`) is the key of that bucket in `buckets`
  (nodes of a `std::map` never move); `nullptr` is `none`.
* `assert` failures, thrown exceptions and null dereferences are `Except.error`.
* A bucket identity (`std::string`) is a `String`; the path given to `getLimitedRoute` is
  the `List Char` of its bytes, and `std::hash` is a parameter.
* The tasks of the event loop (`call`, a posted `do_some_work`, the two continuations
  given to `BASE::call`, a timer handler) are the `Event`s of `step`; the states of the
  program are the `Reachable` ones.
-/

namespace RateLimit

/-! ## Machine integers -/

/-- The value `std::string::npos`. -/
abbrev npos : Nat := 18446744073709551615

/-- The value `std::numeric_limits<std::time_t>::max()`. -/
abbrev TIME_MAX : Int := 9223372036854775807

/-- Conversion of an `int` to `size_t` (usual arithmetic conversions in `int op size_t`). -/
def toSizeT (i : Int) : Nat := (i % 18446744073709551616).toNat

/-- Conversion `int(x)` of a `size_t` to a 32 bit `int`. -/
def toInt32 (n : Nat) : Int :=
  if n % 4294967296 < 2147483648 then ((n % 4294967296 : Nat) : Int)
  else ((n % 4294967296 : Nat) : Int) - 4294967296

/-- Subtraction of two `size_t`. -/
def subSizeT (a b : Nat) : Nat := (a + 18446744073709551616 - b % 18446744073709551616) % 18446744073709551616

/-- Addition of two `size_t`. -/
def addSizeT (a b : Nat) : Nat := (a + b) % 18446744073709551616

/-- The values an `int` can hold. -/
def IsInt32 (i : Int) : Prop := -2147483648 ≤ i ∧ i < 2147483648

instance (i : Int) : Decidable (IsInt32 i) := by unfold IsInt32; infer_instance

/-! ## `std::map` as an ordered association list -/

/-- Key order of a `std::map` (`std::less`), as a boolean test. -/
class KeyOrd (K : Type) where
  /-- Strict order on keys. -/
  lt : K → K → Bool

instance : KeyOrd Nat := ⟨fun a b => decide (a < b)⟩

/-- Lexicographic comparison of two character sequences (`std::string::operator<`). -/
def lexLt : List Char → List Char → Bool
  | [], [] => false
  | [], _ :: _ => true
  | _ :: _, [] => false
  | a :: as, b :: bs =>
    if a.toNat < b.toNat then true else if b.toNat < a.toNat then false else lexLt as bs

instance : KeyOrd String := ⟨fun a b => lexLt a.data b.data⟩

/-- The type `std::map<K, V>`: entries in iteration order. -/
abbrev Map (K V : Type) := List (K × V)

namespace Map

variable {K V : Type} [DecidableEq K]

/-- The lookup `m.find(k)`: `none` is `m.end()`. -/
def find? (k : K) : Map K V → Option V
  | [] => none
  | (k', v) :: rest => if k = k' then some v else find? k rest

/-- The test `m.count(k)` (0 or 1) as a boolean. -/
def contains (k : K) (m : Map K V) : Bool := (find? k m).isSome

/-- Store `v` under `k`: overwrite the entry of `k`, or insert a new entry before the
first greater key when `k` has no entry. With `v` computed from `m[k]` this is a mutation
through `m[k]`. (In a map in key order a key smaller than the current one has no entry
further on, so the test `contains k rest` is never true there.) -/
def put [KeyOrd K] (k : K) (v : V) : Map K V → Map K V
  | [] => [(k, v)]
  | (k', v') :: rest =>
    if k = k' then (k, v) :: rest
    else if KeyOrd.lt k k' && !contains k rest then (k, v) :: (k', v') :: rest
    else (k', v') :: put k v rest

/-- The call `m.erase(k)`. -/
def erase (k : K) : Map K V → Map K V
  | [] => []
  | (k', v) :: rest => if k = k' then erase k rest else (k', v) :: erase k rest

/-- The keys of the map in iteration order. -/
def keys (m : Map K V) : List K := m.map Prod.fst

end Map

/-! ## Failures -/

/-- The ways the code can stop: the two `throw`s of `CountedSet::erase`, the three
`assert`s of `do_some_work`, and the dereference of a null or past-the-end pointer after
the admission test of `do_some_work`. -/
inductive Err where
  /-- Thrown by `erase`: Erased a key that does not exist. -/
  | eraseMissingKey
  /-- Thrown by `erase`: Erased a key by more than its value. -/
  | eraseTooMany
  /-- Failed `assert`: More messages in transit than remaining in a bucket. -/
  | assertRemaining
  /-- Failed `assert`: Encountered an empty queue in a bucket. -/
  | assertBucketQueue
  /-- Failed `assert`: Encountered an empty global queue. -/
  | assertGlobalQueue
  /-- Use of `next_queues` while it is null, or of `end()` or an empty queue. -/
  | badDereference
deriving DecidableEq, Repr

/-! ## `CountedSet<T>` (lines 214-273) -/

/-- The struct `CountedSet<route_t>`: `sum` and `map` are its two private members. -/
structure CountedSet where
  sum : Nat := 0
  map : Map Nat Nat := []
deriving DecidableEq, Repr

namespace CountedSet

/-- Member `total()`. -/
def total (s : CountedSet) : Nat := s.sum

/-- Member `count(t)`. -/
def count (s : CountedSet) (t : Nat) : Nat :=
  match Map.find? t s.map with
  | some n => n
  | none => 0

/-- Member `empty()`. -/
def empty (s : CountedSet) : Bool := s.sum == 0

/-- Member `insert(t, count)`. -/
def insert (s : CountedSet) (t : Nat) (count : Nat) : CountedSet :=
  if count = 0 then s
  else
    match Map.find? t s.map with
    | some n => { sum := addSizeT s.sum count, map := Map.put t (addSizeT n count) s.map }
    | none => { sum := addSizeT s.sum count, map := Map.put t count s.map }

/-- Member `erase(t, count)`; the two `throw`s are the two errors. -/
def erase (s : CountedSet) (t : Nat) (count : Nat) : Except Err CountedSet :=
  if count = 0 then .ok s
  else
    match Map.find? t s.map with
    | none => .error .eraseMissingKey
    | some n =>
      if count > n then .error .eraseTooMany
      else if n - count = 0 then
        .ok { sum := subSizeT s.sum count, map := Map.erase t s.map }
      else
        .ok { sum := subSizeT s.sum count, map := Map.put t (n - count) s.map }

/-- Member `clear(t)`: the set after the call and the returned number. The member `sum`
is not touched by the source. -/
def clear (s : CountedSet) (t : Nat) : CountedSet × Nat :=
  ({ s with map := Map.erase t s.map }, s.count t)

/-- Member `move(other, t)` for a set `other` distinct from `s`, that is
`other.insert(t, clear(t))`: the two sets after the call, `s` first. -/
def move (s other : CountedSet) (t : Nat) : CountedSet × CountedSet :=
  ((s.clear t).1, other.insert t (s.clear t).2)

/-- Member `copy(other, t)` for a set `other` distinct from `s`, that is
`other.insert(t, count(t))`: the two sets after the call, `s` first. -/
def copy (s other : CountedSet) (t : Nat) : CountedSet × CountedSet :=
  (s, other.insert t (s.count t))

end CountedSet

/-! ## `Call`, `Bucket` and the plugin state (lines 204-212, 275-295) -/

/-- The route key type `route_t = std::size_t`. -/
abbrev route_t := Nat

/-- The struct `Call`. The members `requestType`, `targetURL`, `body`, `onWrite` and
`onRead` are never inspected by the scheduler; `id` stands for them and for the identity
of the shared object. -/
structure Call where
  id : Nat
  route : route_t
  created : Int
deriving DecidableEq, Repr

/-- The type `QueueByRoute = std::map<route_t, std::queue<sptr<Call>>>`. -/
abbrev QueueByRoute := Map route_t (List Call)

/-- The struct `Bucket`. `reset` is `none` for a null timer pointer and `some n` for a
timer armed with `expires_after(n)`. -/
structure Bucket where
  id : String
  queues : QueueByRoute := []
  transit : CountedSet := {}
  limit : Int := 5
  remaining : Int := 4
  reset : Option Int := none
deriving DecidableEq, Repr

/-- The value-initialised `Bucket{}` that `buckets[k]` creates for a missing key. -/
def Bucket.fresh : Bucket := { id := "" }

/-- The data members of `PluginRateLimit`. -/
structure State where
  defaultLimit : Int := 5
  writing : Bool := false
  queues : QueueByRoute := []
  transit : CountedSet := {}
  route_to_bucket : Map route_t String := []
  buckets : Map String Bucket := []
  gateway_route : route_t
deriving DecidableEq, Repr

/-- A scope: `none` is the uncategorized scope (`queues`, `transit`), `some k` the bucket
stored under `k` (a non-null `Bucket*`). -/
abbrev Scope := Option String

namespace State

/-- The object `buckets[k]` (a missing key reads as the bucket `operator[]` creates). -/
def bucketAt (s : State) (k : String) : Bucket :=
  match Map.find? k s.buckets with
  | some b => b
  | none => Bucket.fresh

/-- Assignment through the reference `buckets[k]`. -/
def setBucket (s : State) (k : String) (b : Bucket) : State :=
  { s with buckets := Map.put k b s.buckets }

/-- The queue map a scope pointer designates. -/
def queuesOf (s : State) : Scope → QueueByRoute
  | none => s.queues
  | some k => (s.bucketAt k).queues

/-- Assignment to the queue map a scope pointer designates. -/
def setQueues (s : State) (sc : Scope) (q : QueueByRoute) : State :=
  match sc with
  | none => { s with queues := q }
  | some k => s.setBucket k { s.bucketAt k with queues := q }

/-- The in-flight set a scope pointer designates. -/
def transitOf (s : State) : Scope → CountedSet
  | none => s.transit
  | some k => (s.bucketAt k).transit

/-- Assignment to the in-flight set a scope pointer designates. -/
def setTransit (s : State) (sc : Scope) (t : CountedSet) : State :=
  match sc with
  | none => { s with transit := t }
  | some k => s.setBucket k { s.bucketAt k with transit := t }

/-- The pointer `route_to_bucket.count(route) ? &buckets[route_to_bucket[route]] : nullptr`. -/
def scopeOf (s : State) (route : route_t) : Scope := Map.find? route s.route_to_bucket

/-- Assignment to `writing`. -/
def setWriting (s : State) (w : Bool) : State := { s with writing := w }

/-- The assignment `route_to_bucket[route] = id`. -/
def mapRoute (s : State) (route : route_t) (id : String) : State :=
  { s with route_to_bucket := Map.put route id s.route_to_bucket }

/-- The call `buckets.emplace(id, Bucket{id})`: nothing happens when the key exists. -/
def emplaceBucket (s : State) (id : String) : State :=
  if Map.contains id s.buckets then s else s.setBucket id { id := id }

/-- The side effect of evaluating `buckets[k]`: a missing key gets a `Bucket{}`. -/
def touchBucket (s : State) (k : String) : State :=
  if Map.contains k s.buckets then s else s.setBucket k Bucket.fresh

end State

/-! ## `call` (lines 22-54) -/

/-- Lines 47-50 of `call`: push `the_call` on the queue of its route, in the bucket the
route is mapped to or else in the uncategorized `queues`. `the_call` is the object built
at lines 36-43, whose `route` is `getLimitedRoute(*targetURL)`. The `post` of line 53
only schedules a later `do_some_work`. -/
def call (s : State) (the_call : Call) : State :=
  let sc := s.scopeOf the_call.route
  let qs := s.queuesOf sc
  let q := match Map.find? the_call.route qs with
    | some q => q
    | none => []
  s.setQueues sc (Map.put the_call.route (q ++ [the_call]) qs)

/-! ## `do_some_work` (lines 57-202) -/

/-- The local variables of the selection loops (lines 62-67). `next_transit` is written
together with `next_queues` and never read, so it is not kept. -/
structure Scan where
  next_bucket : Option String := none
  next_queues : Option Scope := none
  next_route : route_t := 0
  min_remaining : Int
  min : Int := TIME_MAX
deriving DecidableEq, Repr

/-- The loop over one queue map (lines 73-83 with `owner = some k`, lines 87-97 with
`owner = none`): the head of each queue is compared with the oldest seen so far. -/
def scanQueues (owner : Scope) (e : Err) : QueueByRoute → Scan → Except Err Scan
  | [], sc => .ok sc
  | (_, []) :: _, _ => .error e
  | (r, c :: _) :: rest, sc =>
    if c.created < sc.min then
      scanQueues owner e rest
        { sc with min := c.created, next_bucket := owner, next_queues := some owner,
                  next_route := r }
    else scanQueues owner e rest sc

/-- The test of line 69: the bucket is the one the gateway route is mapped to. -/
def ownsGateway (s : State) (b : Bucket) : Bool :=
  match Map.find? s.gateway_route s.route_to_bucket with
  | some k => decide (k = b.id)
  | none => false

/-- The loop over `buckets` (lines 68-84). -/
def scanBuckets (s : State) : Map String Bucket → Scan → Except Err Scan
  | [], sc => .ok sc
  | (k, b) :: rest, sc =>
    if ownsGateway s b then scanBuckets s rest sc
    else if ¬ (toSizeT b.remaining ≥ b.transit.total) then .error .assertRemaining
    else
      let cap := toInt32 (subSizeT (toSizeT b.remaining) b.transit.total)
      let sc1 := { sc with min_remaining := min sc.min_remaining cap }
      if toSizeT b.remaining ≤ b.transit.total then scanBuckets s rest sc1
      else
        match scanQueues (some k) .assertBucketQueue b.queues sc1 with
        | .error e => .error e
        | .ok sc2 => scanBuckets s rest sc2

/-- Lines 62-97: both selection loops. -/
def scan (s : State) : Except Err Scan :=
  match scanBuckets s s.buckets { min_remaining := s.defaultLimit } with
  | .error e => .error e
  | .ok sc => scanQueues none .assertGlobalQueue s.queues sc

/-- What `do_some_work` hands to `BASE::call`: the call and the `route` captured by the
two continuations. -/
structure Dispatch where
  route : route_t
  call : Call
deriving DecidableEq, Repr

/-- The member `do_some_work`, up to the invocation of `BASE::call` (line 124); the two
continuations are `onWrite` and `onRead` below. Returns the new state and what was
handed to the transport, if anything. -/
def do_some_work (s : State) : Except Err (State × Option Dispatch) :=
  if s.writing then .ok (s, none)
  else
    let s1 := s.setWriting true
    match scan s1 with
    | .error e => .error e
    | .ok sc =>
      if sc.next_bucket = none ∧
          (s1.queues = [] ∨ toSizeT sc.min_remaining ≤ s1.transit.total) then
        .ok (s1.setWriting false, none)
      else
        match sc.next_queues with
        | none => .error .badDereference
        | some scope =>
          match Map.find? sc.next_route (s1.queuesOf scope) with
          | none => .error .badDereference
          | some [] => .error .badDereference
          | some (c :: rest) =>
            let qs := if rest = [] then Map.erase sc.next_route (s1.queuesOf scope)
                      else Map.put sc.next_route rest (s1.queuesOf scope)
            .ok (s1.setQueues scope qs, some { route := sc.next_route, call := c })

/-- The write continuation (lines 127-141) of a call dispatched with `route`. -/
def onWrite (s : State) (route : route_t) : State :=
  let sc := s.scopeOf route
  let s1 := s.setTransit sc ((s.transitOf sc).insert route 1)
  s1.setWriting false

/-- The reply metadata read from `msg["header"]`: `X-RateLimit-Bucket`, and the results
of `std::stoi` on `X-RateLimit-Limit`, `X-RateLimit-Remaining`, `X-RateLimit-Reset-After`. -/
structure Reply where
  bucket : String
  limit : Int
  remaining : Int
  resetAfter : Int
deriving DecidableEq, Repr

/-- Line 166: `bucket->queues.insert(old.extract(route))`, `src` and `dst` being the two
scopes. An empty node handle inserts nothing; a node whose key is already present in
the destination is not inserted and dies with the returned temporary. -/
def migrateQueue (s : State) (src : Scope) (dst : String) (route : route_t) : State :=
  match Map.find? route (s.queuesOf src) with
  | none => s
  | some q =>
    let s1 := s.setQueues src (Map.erase route (s.queuesOf src))
    match Map.find? route (s1.queuesOf (some dst)) with
    | some _ => s1
    | none => s1.setQueues (some dst) (Map.put route q (s1.queuesOf (some dst)))

/-- Line 167: `old.move(bucket->transit, route)`, that is
`bucket->transit.insert(route, old.clear(route))`, written on the state so that the case
of `old` and `bucket` being one object is covered too. -/
def migrateTransit (s : State) (src : Scope) (dst : String) (route : route_t) : State :=
  let r := (s.transitOf src).clear route
  let s1 := s.setTransit src r.1
  s1.setTransit (some dst) ((s1.transitOf (some dst)).insert route r.2)

/-- Lines 155-170: the migration of `route` to the bucket `new_id`. -/
def migrate (s : State) (old : Scope) (new_id : String) (route : route_t) : State :=
  let s1 := s.mapRoute route new_id
  let s2 := s1.emplaceBucket new_id
  let s3 := migrateQueue s2 old new_id route
  migrateTransit s3 old new_id route

/-- Lines 173-180: `limit`, `remaining` and the reset timer of `*bucket` are set from
the reply. -/
def refresh (s : State) (bucket : String) (msg : Reply) : State :=
  let b := s.bucketAt bucket
  s.setBucket bucket
    { b with limit := msg.limit, remaining := min b.remaining msg.remaining,
             reset := some msg.resetAfter }

/-- The read continuation (lines 144-199) of a call dispatched with `route`. -/
def onRead (s : State) (route : route_t) (msg : Reply) : Except Err State :=
  let bucket := s.scopeOf route
  -- line 147: `buckets[...]` creates a missing bucket
  let s0 := match bucket with
    | some k => s.touchBucket k
    | none => s
  match (s0.transitOf bucket).erase route 1 with
  | .error e => .error e
  | .ok t =>
    let s1 := s0.setTransit bucket t
    let migrating : Bool := match bucket with
      | none => true
      | some k => decide ((s1.bucketAt k).id ≠ msg.bucket)
    let s2 := if migrating then migrate s1 bucket msg.bucket route else s1
    let target : String := if migrating then msg.bucket else
      match bucket with
      | some k => k
      | none => msg.bucket
    .ok (refresh s2 target msg)

/-- The handler of the reset timer of the bucket `owner` (lines 182-192); `failed` is
`e.failed()`. -/
def onTimer (s : State) (owner : String) (failed : Bool) : State :=
  if failed then s
  else
    let b := s.bucketAt owner
    s.setBucket owner { b with remaining := b.limit }

/-! ## `getLimitedRoute` (lines 296-313) -/

/-- The index of the first occurrence of `c` in a character sequence, if any. -/
def firstIndex (c : Char) : List Char → Option Nat
  | [] => none
  | x :: xs => if x = c then some 0 else (firstIndex c xs).map (· + 1)

/-- The call `s.find(c, pos)` of `std::string`: the first index at or after `pos` holding
`c`, or `npos`. -/
def findFrom (s : List Char) (c : Char) (pos : Nat) : Nat :=
  match firstIndex c (s.drop pos) with
  | some i => pos + i
  | none => npos

/-- The call `s.substr(pos, count)` of `std::string`, for `pos <= s.size()` (in
`getLimitedRoute` the position is one past a found index, so it never throws). -/
def substr (s : List Char) (pos count : Nat) : List Char := (s.drop pos).take count

/-- The test `std::isalpha(c)` in the C locale: an ASCII letter. -/
def isalpha (c : Char) : Bool :=
  decide ((65 ≤ c.toNat ∧ c.toNat ≤ 90) ∨ (97 ≤ c.toNat ∧ c.toNat ≤ 122))

/-- The test `std::all_of(item.begin(), item.end(), isalpha)`. -/
def allAlpha (item : List Char) : Bool := item.all isalpha

/-- The test `lastItem == "channels" || lastItem == "guilds" || lastItem == "webhooks"`. -/
def isReserved (lastItem : List Char) : Bool :=
  decide (lastItem = "channels".data) || decide (lastItem = "guilds".data) ||
    decide (lastItem = "webhooks".data)

/-- The `while` loop of lines 301-311, started with the given values of `last`, `next`,
`lastItem` and of the text written to `out`. Each round moves `last` to a later slash,
so `fuel` rounds are enough when `fuel` exceeds the length of `route`; `none` is
returned when the fuel runs out first. -/
def classifyLoop (route : List Char) : Nat → Nat → Nat → List Char → List Char →
    Option (List Char)
  | fuel, last, next, lastItem, out =>
    if last = npos then some out
    else
      match fuel with
      | 0 => none
      | fuel + 1 =>
        let item := substr route (last + 1) (next - 1)
        let out1 := out ++ ['|']
        let out2 := if allAlpha item || isReserved lastItem then out1 ++ item else out1
        classifyLoop route fuel next (findFrom route '/' (addSizeT next 1))
          item out2

/-- The string `out.str()` that `getLimitedRoute(route)` hashes (lines 297-311). -/
def canonical (route : List Char) : Option (List Char) :=
  let last := findFrom route '/' 0
  let next := findFrom route '/' (addSizeT last 1)
  classifyLoop route (route.length + 1) last next [] []

/-- The member `getLimitedRoute`; `hash` is `std::hash<std::string>`, which the
repository does not define. -/
def getLimitedRoute (hash : List Char → route_t) (route : List Char) : Option route_t :=
  (canonical route).map hash

/-! ## Executions

The event loop runs one task at a time: a submission (`call`), a posted `do_some_work`,
a write continuation, a read continuation or a timer handler. `Sys` adds to the plugin
state the history the claims speak about; these extra fields are never read by the code. -/

/-- The plugin state together with the history of the execution. -/
structure Sys where
  /-- Data members of the plugin. -/
  st : State
  /-- Calls submitted so far, oldest first. -/
  submitted : List Call := []
  /-- Calls handed to the transport so far, oldest first. -/
  sent : List Call := []
  /-- Dispatches whose write continuation the transport has not run yet. -/
  awaitingWrite : List Dispatch := []
  /-- Dispatches written whose read continuation the transport has not run yet. -/
  awaitingRead : List Dispatch := []
deriving DecidableEq, Repr

/-- The tasks the event loop can run. -/
inductive Event where
  /-- A submission: `call` builds the fresh object `the_call`. -/
  | submit (the_call : Call)
  /-- One run of `do_some_work`. -/
  | pass
  /-- The transport runs the write continuation of a dispatch. -/
  | write (d : Dispatch)
  /-- The transport runs the read continuation of a dispatch with a reply. -/
  | read (d : Dispatch) (msg : Reply)
  /-- The reset timer of a bucket runs its handler; `failed` tells a cancelled wait. -/
  | expiry (owner : String) (failed : Bool)
deriving DecidableEq, Repr

/-- The state a plugin object starts in (the default member initialisers), for a given
`defaultLimit` and a given value of `getLimitedRoute("/gateway/bot")`. -/
def Sys.init (defaultLimit : Int) (gateway_route : route_t) : Sys :=
  { st := { defaultLimit := defaultLimit, gateway_route := gateway_route } }

/-- One task of the event loop; `none` when the task cannot occur in the state or the
code stops with an error.
* `submit`: the object is new, and its `created` is a reading of `std::time`, which is
  below `TIME_MAX`.
* `write`, `read`: the transport runs the write continuation of a dispatch once, and its
  read continuation at most once and after the write continuation. The reply carries a
  `remaining` that is not negative, and `std::stoi` returned 32 bit values.
* `expiry`: the bucket exists and has a timer. -/
def step (y : Sys) : Event → Option Sys
  | .submit c =>
    if c ∉ y.submitted ∧ c.created < TIME_MAX then
      some { y with st := call y.st c, submitted := y.submitted ++ [c] }
    else none
  | .pass =>
    match do_some_work y.st with
    | .error _ => none
    | .ok (s, none) => some { y with st := s }
    | .ok (s, some d) =>
      some { y with st := s, sent := y.sent ++ [d.call],
                    awaitingWrite := y.awaitingWrite ++ [d] }
  | .write d =>
    if d ∈ y.awaitingWrite then
      some { y with st := onWrite y.st d.route, awaitingWrite := y.awaitingWrite.erase d,
                    awaitingRead := y.awaitingRead ++ [d] }
    else none
  | .read d msg =>
    if d ∈ y.awaitingRead ∧ 0 ≤ msg.remaining ∧ IsInt32 msg.remaining ∧ IsInt32 msg.limit then
      match onRead y.st d.route msg with
      | .error _ => none
      | .ok s => some { y with st := s, awaitingRead := y.awaitingRead.erase d }
    else none
  | .expiry owner failed =>
    match Map.find? owner y.st.buckets with
    | none => none
    | some b =>
      if b.reset.isSome then some { y with st := onTimer y.st owner failed } else none

/-- Run a list of tasks in order. -/
def run (y : Sys) : List Event → Option Sys
  | [] => some y
  | e :: es =>
    match step y e with
    | none => none
    | some y1 => run y1 es

/-- The states of the executions of a plugin object: those `run` reaches from an initial
state. -/
def Reachable (y : Sys) : Prop :=
  ∃ (defaultLimit : Int) (gateway_route : route_t) (es : List Event),
    IsInt32 defaultLimit ∧ run (Sys.init defaultLimit gateway_route) es = some y


/-! ## Predicates used to state the properties -/

/-- All calls held in the queues of one queue map, in iteration order. -/
def queued : QueueByRoute → List Call
  | [] => []
  | (_, q) :: rest => q ++ queued rest

/-- All calls held in the queues of the buckets. -/
def queuedInBuckets : Map String Bucket → List Call
  | [] => []
  | (_, b) :: rest => queued b.queues ++ queuedInBuckets rest

/-- All calls held in some queue: the uncategorized queues, then each bucket. -/
def State.allQueued (s : State) : List Call := queued s.queues ++ queuedInBuckets s.buckets

/-- The queue that holds the calls of `route`: the one stored under `route` in the scope
the route is mapped to now (empty when there is no such entry). -/
def State.queueOf (s : State) (route : route_t) : List Call :=
  (Map.find? route (s.queuesOf (s.scopeOf route))).getD []

/-- The calls of a list whose route key is `route`, in the same order. -/
def onRoute (route : route_t) (l : List Call) : List Call :=
  l.filter (fun c => decide (c.route = route))

/-- In `l`, the element `a` occurs and `b` occurs somewhere after it. -/
def Before (a b : Call) (l : List Call) : Prop :=
  ∃ l1 l2, l = l1 ++ a :: l2 ∧ b ∈ l2

/-- What holds of the queue map `qs` of the scope `sc`: no key twice, no empty queue,
every key is a route mapped to `sc`, and a queue holds calls of its own route key whose
time stamp is a reading of the clock. -/
def GoodMap (rtb : Map route_t String) (sc : Scope) (qs : QueueByRoute) : Prop :=
  (Map.keys qs).Nodup ∧
  ∀ r q, Map.find? r qs = some q →
    q ≠ [] ∧ Map.find? r rtb = sc ∧ ∀ c ∈ q, c.route = r ∧ c.created < TIME_MAX

/-- What holds of the map `buckets`: no key twice, the bucket stored under `k` has the
identity `k`, and the `int` members hold 32 bit values. -/
structure BInv (s : State) : Prop where
  nodupB : (Map.keys s.buckets).Nodup
  idKey : ∀ k, Map.contains k s.buckets = true → (s.bucketAt k).id = k
  int32 : IsInt32 s.defaultLimit ∧
    ∀ k, IsInt32 (s.bucketAt k).remaining ∧ IsInt32 (s.bucketAt k).limit

/-- The part of the invariant that speaks of the plugin state alone: `BInv`, every queue
map is good for its scope, and a route is only mapped to a bucket that exists. -/
structure StInv (s : State) extends BInv s : Prop where
  good : ∀ sc, GoodMap s.route_to_bucket sc (s.queuesOf sc)
  rtbKey : ∀ r k, Map.find? r s.route_to_bucket = some k → Map.contains k s.buckets = true

/-- The invariant of the executions. -/
structure Inv (y : Sys) : Prop where
  st : StInv y.st
  perm : List.Perm (y.st.allQueued ++ y.sent) y.submitted
  nodupSub : y.submitted.Nodup
  fifo : ∀ r, onRoute r y.sent ++ y.st.queueOf r = onRoute r y.submitted

/-- The capacity `int(remaining - transit.total())` of a bucket, as line 71 computes it. -/
def capacity (b : Bucket) : Int := toInt32 (subSizeT (toSizeT b.remaining) b.transit.total)

/-- The bucket passes the tests of lines 69 and 72: it does not own the gateway route and
its `remaining` exceeds its in-flight total, so its queues are scanned. -/
def Eligible (s : State) (b : Bucket) : Prop :=
  ownsGateway s b = false ∧ toSizeT b.remaining > b.transit.total

/-- What holds of the selection variables during the loops: either nothing was selected
yet (`min` still has its initial value and both pointers are null), or `next_queues` is the
queue map of the scope `next_bucket` and `next_route` has there a queue whose head was
created at `min`. -/
def Picked (s : State) (sc : Scan) : Prop :=
  (sc.min = TIME_MAX ∧ sc.next_bucket = none ∧ sc.next_queues = none) ∨
  (sc.min < TIME_MAX ∧ sc.next_queues = some sc.next_bucket ∧
    ∃ c rest, Map.find? sc.next_route (s.queuesOf sc.next_bucket) = some (c :: rest) ∧
      c.created = sc.min)

/-- A selected bucket exists and is eligible. -/
def PickedEligible (s : State) (sc : Scan) : Prop :=
  ∀ k, sc.next_bucket = some k →
    Map.contains k s.buckets = true ∧ Eligible s (s.bucketAt k)

/-- A decimal digit, `0` to `9`. -/
def IsDigit (c : Char) : Prop := 48 ≤ c.toNat ∧ c.toNat ≤ 57

/-- The path `/channels/<id>/messages`. -/
def channelMessages (id : List Char) : List Char :=
  "/channels/".data ++ id ++ "/messages".data

/-- The path `/users/<id>/profile`. -/
def userProfile (id : List Char) : List Char :=
  "/users/".data ++ id ++ "/profile".data

/-! ## Example executions -/

/-- A first call on route 7. -/
def callA : Call := { id := 0, route := 7, created := 100 }

/-- A second call on route 7, submitted after `callA`. -/
def callB : Call := { id := 1, route := 7, created := 101 }

/-- A call on another route, 8. -/
def callC : Call := { id := 2, route := 8, created := 102 }

/-- A reply naming the bucket `X` with limit 1 and nothing remaining. -/
def replyX : Reply := { bucket := "X", limit := 1, remaining := 0, resetAfter := 1 }

/-- Two calls on route 7 are submitted and written one after the other. -/
def twoWritten : List Event :=
  [.submit callA, .submit callB, .pass, .write ⟨7, callA⟩, .pass, .write ⟨7, callB⟩]

/-- The state after `twoWritten`: both calls are in flight in the uncategorized scope. -/
def twoInFlight : Sys :=
  { st := { transit := { sum := 2, map := [(7, 2)] }, gateway_route := 99 }
    submitted := [callA, callB]
    sent := [callA, callB]
    awaitingRead := [⟨7, callA⟩, ⟨7, callB⟩] }

/-- The state after `twoWritten` and the reply `replyX` to `callA`. -/
def firstReplied : Sys :=
  { st := {
      transit := { sum := 1, map := [] }
      route_to_bucket := [(7, "X")]
      buckets := [("X", { id := "X", transit := { sum := 1, map := [(7, 1)] }, limit := 1,
                          remaining := 0, reset := some 1 })]
      gateway_route := 99 }
    submitted := [callA, callB]
    sent := [callA, callB]
    awaitingRead := [⟨7, callB⟩] }

/-- One call on route 7 is sent and answered by `replyX`, then `callC` is submitted. -/
def oneRepliedOnePending : List Event :=
  [.submit callA, .pass, .write ⟨7, callA⟩, .read ⟨7, callA⟩ replyX, .submit callC]

/-- The state after `oneRepliedOnePending` for a given `defaultLimit`: the bucket `X` is
exhausted with nothing in flight, and `callC` waits in the uncategorized queues. -/
def exhaustedAndPending (defaultLimit : Int) : Sys :=
  { st := {
      defaultLimit := defaultLimit
      queues := [(8, [callC])]
      route_to_bucket := [(7, "X")]
      buckets := [("X", { id := "X", limit := 1, remaining := 0, reset := some 1 })]
      gateway_route := 99 }
    submitted := [callA, callC]
    sent := [callA] }

/-- The state of a plugin with `defaultLimit = 1` after `callA` was written and a second
pass found no room for `callB`: one call in flight and one queued, both uncategorized. -/
def oneInFlightOneQueued : Sys :=
  { st := {
      defaultLimit := 1
      queues := [(7, [callB])]
      transit := { sum := 1, map := [(7, 1)] }
      gateway_route := 99 }
    submitted := [callA, callB]
    sent := [callA]
    awaitingRead := [⟨7, callA⟩] }

/-- A call on the gateway route (99 in the examples). -/
def callG : Call := { id := 3, route := 99, created := 50 }

/-- A reply naming the bucket `G` with limit 1 and nothing remaining. -/
def replyG : Reply := { bucket := "G", limit := 1, remaining := 0, resetAfter := 1 }

/-- The state after the gateway call was sent and answered by `replyG` and `callC` was
submitted: the bucket owning the gateway route is exhausted, `callC` is uncategorized. -/
def gatewayExhausted : Sys :=
  { st := {
      queues := [(8, [callC])]
      route_to_bucket := [(99, "G")]
      buckets := [("G", { id := "G", limit := 1, remaining := 0, reset := some 1 })]
      gateway_route := 99 }
    submitted := [callG, callC]
    sent := [callG] }

/-! ## Predicates for the claims on `CountedSet`, on the pass and on the classifier -/

/-- The sum of `count(k)` over all keys `k` of the set. -/
def CountedSet.sumCounts (s : CountedSet) : Nat := (s.map.map Prod.snd).sum

/-- The minimum of `m` and of `remaining - in-flight total` over the buckets of a list
that do not own the gateway route. -/
def minRemainingOver (s : State) : Map String Bucket → Int → Int
  | [], m => m
  | (_, b) :: rest, m =>
    minRemainingOver s rest
      (if ownsGateway s b then m else min m (b.remaining - b.transit.total))

/-- In the words of the spec (4.3, step 2): `minRemaining`, the minimum of the default
limit and of `remaining - in-flight total` over all buckets not owning the gateway
route. -/
def minRemaining (s : State) : Int := minRemainingOver s s.buckets s.defaultLimit

/-- In the words of the spec: step 2 found a bucket candidate, that is, some bucket not
owning the gateway route has `remaining` above its in-flight total and a queued call. -/
def BucketCandidate (s : State) : Prop :=
  ∃ k b, (k, b) ∈ s.buckets ∧ ownsGateway s b = false ∧
    (b.transit.total : Int) < b.remaining ∧ b.queues ≠ []

/-- A bucket candidate survives the override of lines 87-97: some bucket not owning
the gateway route with `remaining` above its in-flight total has a queue whose head is
not younger than the head of any uncategorized queue. -/
def BucketCandidateWins (s : State) : Prop :=
  ∃ k b r c rest, (k, b) ∈ s.buckets ∧ ownsGateway s b = false ∧
    (b.transit.total : Int) < b.remaining ∧ (r, c :: rest) ∈ b.queues ∧
    ∀ r' u rest', (r', u :: rest') ∈ s.queues → c.created ≤ u.created

/-- Split a character sequence on the separator `sep`. -/
def splitOn (sep : Char) : List Char → List (List Char)
  | [] => [[]]
  | x :: xs =>
    if x = sep then [] :: splitOn sep xs
    else
      match splitOn sep xs with
      | [] => [[x]]
      | seg :: segs => (x :: seg) :: segs

/-- In the words of the spec (4.1): for each segment in order, the separator `|`, followed
by the segment itself when it is purely alphabetic or the segment before it is one of
the three reserved names. `previous` is the segment before the first one of the list. -/
def emitSegments : List Char → List (List Char) → List Char
  | _, [] => []
  | previous, seg :: segs =>
    ('|' :: (if allAlpha seg || isReserved previous then seg else [])) ++
      emitSegments seg segs

/-- In the words of the spec (4.1): the canonical string of the segment-wise algorithm,
for a path that begins with `/`. -/
def segmentwise (path : List Char) : List Char :=
  emitSegments [] (splitOn '/' (path.drop 1))

/-- The number of dispatches in a list whose continuations captured `route`. -/
def inFlight (route : route_t) (l : List Dispatch) : Nat :=
  (l.filter (fun d => decide (d.route = route))).length

/-- The in-flight counts follow the read continuations that are still to run: the scope a
route is mapped to counts, for that route, the dispatches written and not yet answered
(as a `size_t`), and every other scope counts 0 for it. -/
def TransitInv (y : Sys) : Prop :=
  ∀ r sc, (y.st.transitOf sc).count r =
    if sc = y.st.scopeOf r then inFlight r y.awaitingRead % 18446744073709551616 else 0

/-- The number of dispatches awaiting their write continuation whose route is not mapped
to a bucket. -/
def pendingUncategorized (y : Sys) : Nat :=
  (y.awaitingWrite.filter (fun d => (y.st.scopeOf d.route).isNone)).length

/-- No reply of the run reports a negative limit. -/
def LimitsNonNeg (es : List Event) : Prop :=
  ∀ d msg, Event.read d msg ∈ es → 0 ≤ msg.limit

/-- The invariant behind the bound on the uncategorized in-flight total, for runs whose
replies report no negative limit and a `defaultLimit` that is not negative. -/
structure UInv (y : Sys) : Prop where
  nonneg : 0 ≤ y.st.defaultLimit ∧
    ∀ k, 0 ≤ (y.st.bucketAt k).remaining ∧ 0 ≤ (y.st.bucketAt k).limit
  guard : y.awaitingWrite.length ≤ 1 ∧ (y.st.writing = false → y.awaitingWrite = [])
  nodupT : (Map.keys y.st.transit.map).Nodup
  counts : y.st.transit.sumCounts ≤ y.st.transit.sum
  bound : ((y.st.transit.sum + pendingUncategorized y : Nat) : Int) ≤ y.st.defaultLimit

/-! ## Further example executions -/

/-- A second call on the gateway route, submitted after `callG`. -/
def callG2 : Call := { id := 4, route := 99, created := 60 }

/-- A reply naming the bucket `G` with limit 5 and 3 calls remaining. -/
def replyG3 : Reply := { bucket := "G", limit := 5, remaining := 3, resetAfter := 1 }

/-- The state after `callG` was sent and answered by `replyG3` and `callG2` was
submitted: the bucket `G` owns the gateway route, has 3 calls remaining, nothing in
flight, and `callG2` in its queue. -/
def gatewayIdle : Sys :=
  { st := {
      route_to_bucket := [(99, "G")]
      buckets := [("G", { id := "G", queues := [(99, [callG2])], limit := 5, remaining := 3,
                          reset := some 1 })]
      gateway_route := 99 }
    submitted := [callG, callG2]
    sent := [callG] }

/-- A call on route 9. -/
def callY : Call := { id := 5, route := 9, created := 101 }

/-- A call on route 7 submitted after `callC`. -/
def callD : Call := { id := 6, route := 7, created := 103 }

/-- A reply naming the bucket `X` with limit 5 and 3 calls remaining. -/
def replyX3 : Reply := { bucket := "X", limit := 5, remaining := 3, resetAfter := 1 }

/-- A reply naming the bucket `Y` with limit 5 and nothing remaining. -/
def replyY : Reply := { bucket := "Y", limit := 5, remaining := 0, resetAfter := 1 }

/-- The run that leads to `olderUncategorized`. -/
def olderUncategorizedRun : List Event :=
  [.submit callA, .pass, .write ⟨7, callA⟩, .read ⟨7, callA⟩ replyX3,
   .submit callY, .pass, .write ⟨9, callY⟩, .read ⟨9, callY⟩ replyY,
   .submit callC, .submit callD]

/-- The state in which bucket `X` has 3 calls remaining, nothing in flight and `callD`
queued, bucket `Y` is exhausted, and the uncategorized `callC` is older than `callD`. -/
def olderUncategorized : Sys :=
  { st := {
      queues := [(8, [callC])]
      route_to_bucket := [(7, "X"), (9, "Y")]
      buckets := [("X", { id := "X", queues := [(7, [callD])], limit := 5, remaining := 3,
                          reset := some 1 }),
                  ("Y", { id := "Y", limit := 5, remaining := 0, reset := some 1 })]
      gateway_route := 99 }
    submitted := [callA, callY, callC, callD]
    sent := [callA, callY] }

/-- The state of a plugin with `defaultLimit = -1` after `callC` was submitted: no bucket
is known and `callC` waits in the uncategorized queues. -/
def negativeDefaultPending : Sys :=
  { st := { defaultLimit := -1, queues := [(8, [callC])], gateway_route := 99 }
    submitted := [callC] }

/-- A reply naming the bucket `Y` that reports the limit -1 and nothing remaining. -/
def replyNegative : Reply := { bucket := "Y", limit := -1, remaining := 0, resetAfter := 1 }

/-- The `i`-th call of a burst on route 7. -/
def burst (i : Nat) : Call := { id := 10 + i, route := 7, created := 200 + i }

/-- The `i`-th call of the burst is submitted, selected by a pass and written. -/
def burstEvents (i : Nat) : List Event :=
  [.submit (burst i), .pass, .write ⟨7, burst i⟩]

/-- The run that leads to `overfilled`: `callY` is answered by `replyNegative`, the reset
timer of `Y` expires, and six calls on the unmapped route 7 are submitted and written. -/
def negativeLimitRun : List Event :=
  [.submit callY, .pass, .write ⟨9, callY⟩, .read ⟨9, callY⟩ replyNegative,
   .expiry "Y" false] ++
  burstEvents 0 ++ burstEvents 1 ++ burstEvents 2 ++ burstEvents 3 ++ burstEvents 4 ++
  burstEvents 5

/-- The state after `negativeLimitRun` with `defaultLimit` 5: six calls are in flight in
the uncategorized scope. -/
def overfilled : Sys :=
  { st := {
      defaultLimit := 5
      transit := { sum := 6, map := [(7, 6)] }
      route_to_bucket := [(9, "Y")]
      buckets := [("Y", { id := "Y", limit := -1, remaining := -1, reset := some 1 })]
      gateway_route := 99 }
    submitted := [callY, burst 0, burst 1, burst 2, burst 3, burst 4, burst 5]
    sent := [callY, burst 0, burst 1, burst 2, burst 3, burst 4, burst 5]
    awaitingRead := [⟨7, burst 0⟩, ⟨7, burst 1⟩, ⟨7, burst 2⟩, ⟨7, burst 3⟩, ⟨7, burst 4⟩,
                     ⟨7, burst 5⟩] }

/-- A run in which no reply reports a negative limit: `callA` is sent and answered by
`replyX3`, then `callC` on the unmapped route 8 is submitted, selected and written. -/
def plainRun : List Event :=
  [.submit callA, .pass, .write ⟨7, callA⟩, .read ⟨7, callA⟩ replyX3,
   .submit callC, .pass, .write ⟨8, callC⟩]

/-- The state after `plainRun` with `defaultLimit` 5. -/
def plainState : Sys :=
  { st := {
      defaultLimit := 5
      transit := { sum := 1, map := [(8, 1)] }
      route_to_bucket := [(7, "X")]
      buckets := [("X", { id := "X", limit := 5, remaining := 3, reset := some 1 })]
      gateway_route := 99 }
    submitted := [callA, callC]
    sent := [callA, callC]
    awaitingRead := [⟨8, callC⟩] }

/-! ## Lemmas on `Map` -/

namespace Map

variable {K V : Type} [DecidableEq K]

theorem find?_put [KeyOrd K] (k k' : K) (v : V) (m : Map K V) :
    find? k' (put k v m) = if k' = k then some v else find? k' m := by
  induction m with
  | nil => simp [put, find?]
  | cons x rest ih =>
    obtain ⟨k0, v0⟩ := x
    by_cases h1 : k = k0
    · subst h1
      by_cases h3 : k' = k <;> simp [put, find?, h3]
    · by_cases h2 : (KeyOrd.lt k k0 && !contains k rest) = true
      · simp only [put, h1, h2, if_false, if_true, find?]
      · simp only [put, h1, h2, if_false, find?, ih]
        by_cases h3 : k' = k0
        · subst h3
          have : ¬ k' = k := fun h => h1 h.symm
          simp [this]
        · simp [h3]

theorem find?_erase (k k' : K) (m : Map K V) :
    find? k' (erase k m) = if k' = k then none else find? k' m := by
  induction m with
  | nil => simp [erase, find?]
  | cons x rest ih =>
    obtain ⟨k0, v0⟩ := x
    by_cases h1 : k = k0
    · subst h1
      simp only [erase, if_true, ih, find?]
      by_cases h3 : k' = k
      · simp [h3]
      · simp [h3]
    · simp only [erase, h1, if_false, find?, ih]
      by_cases h3 : k' = k0
      · subst h3
        have : ¬ k' = k := fun h => h1 h.symm
        simp [this]
      · simp [h3]

theorem mem_of_find? {k : K} {v : V} {m : Map K V} (h : find? k m = some v) : (k, v) ∈ m := by
  induction m with
  | nil => simp [find?] at h
  | cons x rest ih =>
    obtain ⟨k0, v0⟩ := x
    by_cases h1 : k = k0
    · subst h1
      simp [find?] at h
      simp [h]
    · simp [find?, h1] at h
      exact List.mem_cons_of_mem _ (ih h)

theorem find?_eq_none {k : K} {m : Map K V} : find? k m = none ↔ k ∉ keys m := by
  induction m with
  | nil => simp [find?, keys]
  | cons x rest ih =>
    obtain ⟨k0, v0⟩ := x
    by_cases h1 : k = k0
    · subst h1
      simp [find?, keys]
    · simp only [find?, h1, if_false, ih, keys, List.map_cons, List.mem_cons, not_or]
      simp [h1]

theorem contains_iff {k : K} {m : Map K V} : contains k m = true ↔ k ∈ keys m := by
  unfold contains
  rw [← not_iff_not, ← find?_eq_none]
  cases find? k m <;> simp

theorem find?_of_mem {k : K} {v : V} {m : Map K V} (hn : (keys m).Nodup) (h : (k, v) ∈ m) :
    find? k m = some v := by
  induction m with
  | nil => simp at h
  | cons x rest ih =>
    obtain ⟨k0, v0⟩ := x
    simp only [keys, List.map_cons, List.nodup_cons] at hn
    rcases List.mem_cons.1 h with h | h
    · cases h
      simp [find?]
    · have hk : k ∈ keys rest := List.mem_map.2 ⟨(k, v), h, rfl⟩
      have h1 : ¬ k = k0 := fun e => hn.1 (e ▸ hk)
      simp only [find?, h1, if_false]
      exact ih hn.2 h

theorem keys_erase (k : K) (m : Map K V) : keys (erase k m) = (keys m).filter (fun x => x ≠ k) := by
  induction m with
  | nil => simp [erase, keys]
  | cons x rest ih =>
    obtain ⟨k0, v0⟩ := x
    simp only [keys] at ih
    by_cases h1 : k = k0
    · subst h1
      simp [erase, keys, ih]
    · have : ¬ k0 = k := fun h => h1 h.symm
      simp [erase, keys, h1, ih, this]

theorem nodup_erase (k : K) {m : Map K V} (hn : (keys m).Nodup) : (keys (erase k m)).Nodup := by
  rw [keys_erase]
  exact hn.filter _

theorem mem_keys_put [KeyOrd K] (k k' : K) (v : V) (m : Map K V) :
    k' ∈ keys (put k v m) ↔ k' = k ∨ k' ∈ keys m := by
  have h := find?_put k k' v m
  by_cases h1 : k' = k
  · subst h1
    simp only [if_true] at h
    have : ¬ find? k' (put k' v m) = none := by simp [h]
    rw [find?_eq_none] at this
    simpa using this
  · simp only [h1, if_false] at h
    have h2 : find? k' (put k v m) = none ↔ find? k' m = none := by rw [h]
    rw [find?_eq_none, find?_eq_none] at h2
    simp only [h1, false_or]
    exact not_iff_not.1 h2

theorem nodup_put [KeyOrd K] (k : K) (v : V) {m : Map K V} (hn : (keys m).Nodup) :
    (keys (put k v m)).Nodup := by
  induction m with
  | nil => simp [put, keys]
  | cons x rest ih =>
    obtain ⟨k0, v0⟩ := x
    have hn' := hn
    simp only [keys, List.map_cons, List.nodup_cons] at hn
    by_cases h1 : k = k0
    · subst h1
      simpa [put, keys] using hn
    · by_cases h2 : (KeyOrd.lt k k0 && !contains k rest) = true
      · simp only [put, h1, h2, if_false, if_true]
        simp only [Bool.and_eq_true, Bool.not_eq_true', ← Bool.not_eq_true, contains_iff] at h2
        simp only [keys, List.map_cons, List.nodup_cons, List.mem_cons, not_or]
        exact ⟨⟨h1, h2.2⟩, hn.1, hn.2⟩
      · simp only [put, h1, h2, if_false, Bool.false_eq_true]
        simp only [keys, List.map_cons, List.nodup_cons]
        refine ⟨?_, ih hn.2⟩
        intro hk
        have := (mem_keys_put k k0 v rest).1 hk
        rcases this with h | h
        · exact h1 h.symm
        · exact hn.1 h

end Map

/-! ## Reading a state after an assignment -/

namespace State

@[simp] theorem bucketAt_setBucket (s : State) (k k' : String) (b : Bucket) :
    (s.setBucket k b).bucketAt k' = if k' = k then b else s.bucketAt k' := by
  simp only [bucketAt, setBucket, Map.find?_put]
  by_cases h : k' = k <;> simp [h]

@[simp] theorem queues_setBucket (s : State) (k : String) (b : Bucket) :
    (s.setBucket k b).queues = s.queues := rfl

@[simp] theorem transit_setBucket (s : State) (k : String) (b : Bucket) :
    (s.setBucket k b).transit = s.transit := rfl

@[simp] theorem rtb_setBucket (s : State) (k : String) (b : Bucket) :
    (s.setBucket k b).route_to_bucket = s.route_to_bucket := rfl

@[simp] theorem defaultLimit_setBucket (s : State) (k : String) (b : Bucket) :
    (s.setBucket k b).defaultLimit = s.defaultLimit := rfl

@[simp] theorem writing_setBucket (s : State) (k : String) (b : Bucket) :
    (s.setBucket k b).writing = s.writing := rfl

@[simp] theorem gateway_setBucket (s : State) (k : String) (b : Bucket) :
    (s.setBucket k b).gateway_route = s.gateway_route := rfl

@[simp] theorem buckets_setBucket (s : State) (k : String) (b : Bucket) :
    (s.setBucket k b).buckets = Map.put k b s.buckets := rfl

theorem contains_setBucket (s : State) (k k' : String) (b : Bucket) :
    Map.contains k' (s.setBucket k b).buckets = true ↔
      k' = k ∨ Map.contains k' s.buckets = true := by
  simp only [buckets_setBucket, Map.contains_iff, Map.mem_keys_put]

theorem queuesOf_setBucket (s : State) (k : String) (b : Bucket) (sc : Scope) :
    (s.setBucket k b).queuesOf sc = if sc = some k then b.queues else s.queuesOf sc := by
  cases sc with
  | none => simp [queuesOf]
  | some k' =>
    simp only [queuesOf, bucketAt_setBucket, Option.some.injEq]
    by_cases h : k' = k <;> simp [h]

theorem queuesOf_setQueues (s : State) (sc sc' : Scope) (qs : QueueByRoute) :
    (s.setQueues sc qs).queuesOf sc' = if sc' = sc then qs else s.queuesOf sc' := by
  cases sc with
  | none =>
    cases sc' with
    | none => simp [queuesOf, setQueues]
    | some k' => simp [queuesOf, setQueues, bucketAt]
  | some k =>
    simp only [setQueues, queuesOf_setBucket]

theorem queuesOf_setTransit (s : State) (sc sc' : Scope) (t : CountedSet) :
    (s.setTransit sc t).queuesOf sc' = s.queuesOf sc' := by
  cases sc with
  | none =>
    cases sc' with
    | none => simp [queuesOf, setTransit]
    | some k' => simp [queuesOf, setTransit, bucketAt]
  | some k =>
    simp only [setTransit, queuesOf_setBucket]
    by_cases h : sc' = some k
    · subst h
      simp [queuesOf]
    · simp [h]

end State

namespace State

@[simp] theorem queuesOf_setWriting (s : State) (w : Bool) (sc : Scope) :
    (s.setWriting w).queuesOf sc = s.queuesOf sc := by
  cases sc <;> rfl

@[simp] theorem bucketAt_setWriting (s : State) (w : Bool) (k : String) :
    (s.setWriting w).bucketAt k = s.bucketAt k := rfl

@[simp] theorem buckets_setWriting (s : State) (w : Bool) :
    (s.setWriting w).buckets = s.buckets := rfl

@[simp] theorem queues_setWriting (s : State) (w : Bool) :
    (s.setWriting w).queues = s.queues := rfl

@[simp] theorem transit_setWriting (s : State) (w : Bool) :
    (s.setWriting w).transit = s.transit := rfl

@[simp] theorem rtb_setWriting (s : State) (w : Bool) :
    (s.setWriting w).route_to_bucket = s.route_to_bucket := rfl

@[simp] theorem defaultLimit_setWriting (s : State) (w : Bool) :
    (s.setWriting w).defaultLimit = s.defaultLimit := rfl

@[simp] theorem gateway_setWriting (s : State) (w : Bool) :
    (s.setWriting w).gateway_route = s.gateway_route := rfl

@[simp] theorem writing_setWriting (s : State) (w : Bool) :
    (s.setWriting w).writing = w := rfl

theorem setWriting_self (s : State) : s.setWriting s.writing = s := rfl

@[simp] theorem setWriting_setWriting (s : State) (w w' : Bool) :
    (s.setWriting w).setWriting w' = s.setWriting w' := rfl

@[simp] theorem queuesOf_mapRoute (s : State) (r : route_t) (id : String) (sc : Scope) :
    (s.mapRoute r id).queuesOf sc = s.queuesOf sc := by
  cases sc <;> rfl

@[simp] theorem bucketAt_mapRoute (s : State) (r : route_t) (id k : String) :
    (s.mapRoute r id).bucketAt k = s.bucketAt k := rfl

@[simp] theorem buckets_mapRoute (s : State) (r : route_t) (id : String) :
    (s.mapRoute r id).buckets = s.buckets := rfl

@[simp] theorem queues_mapRoute (s : State) (r : route_t) (id : String) :
    (s.mapRoute r id).queues = s.queues := rfl

@[simp] theorem transit_mapRoute (s : State) (r : route_t) (id : String) :
    (s.mapRoute r id).transit = s.transit := rfl

@[simp] theorem rtb_mapRoute (s : State) (r : route_t) (id : String) :
    (s.mapRoute r id).route_to_bucket = Map.put r id s.route_to_bucket := rfl

@[simp] theorem defaultLimit_mapRoute (s : State) (r : route_t) (id : String) :
    (s.mapRoute r id).defaultLimit = s.defaultLimit := rfl

@[simp] theorem writing_mapRoute (s : State) (r : route_t) (id : String) :
    (s.mapRoute r id).writing = s.writing := rfl

@[simp] theorem gateway_mapRoute (s : State) (r : route_t) (id : String) :
    (s.mapRoute r id).gateway_route = s.gateway_route := rfl

theorem bucketAt_of_not_contains (s : State) (k : String)
    (h : Map.contains k s.buckets = false) : s.bucketAt k = Bucket.fresh := by
  unfold Map.contains at h
  unfold bucketAt
  cases hf : Map.find? k s.buckets <;> simp_all

theorem touchBucket_of_contains (s : State) (k : String)
    (h : Map.contains k s.buckets = true) : s.touchBucket k = s := by
  simp [touchBucket, h]

theorem transitOf_setBucket (s : State) (k : String) (b : Bucket) (sc : Scope) :
    (s.setBucket k b).transitOf sc = if sc = some k then b.transit else s.transitOf sc := by
  cases sc with
  | none => simp [transitOf]
  | some k' =>
    simp only [transitOf, bucketAt_setBucket, Option.some.injEq]
    by_cases h : k' = k <;> simp [h]

/-- Every data member of a state after `setQueues`, in terms of the state before. -/
theorem bucketAt_setQueues (s : State) (sc : Scope) (qs : QueueByRoute) (k : String) :
    (s.setQueues sc qs).bucketAt k =
      if sc = some k then { s.bucketAt k with queues := qs } else s.bucketAt k := by
  cases sc with
  | none => simp [setQueues, bucketAt]
  | some k' =>
    simp only [setQueues, bucketAt_setBucket, Option.some.injEq]
    by_cases h : k = k'
    · subst h; simp
    · have : ¬ k' = k := fun e => h e.symm
      simp [h, this]

theorem bucketAt_setTransit (s : State) (sc : Scope) (t : CountedSet) (k : String) :
    (s.setTransit sc t).bucketAt k =
      if sc = some k then { s.bucketAt k with transit := t } else s.bucketAt k := by
  cases sc with
  | none => simp [setTransit, bucketAt]
  | some k' =>
    simp only [setTransit, bucketAt_setBucket, Option.some.injEq]
    by_cases h : k = k'
    · subst h; simp
    · have : ¬ k' = k := fun e => h e.symm
      simp [h, this]

@[simp] theorem rtb_setQueues (s : State) (sc : Scope) (qs : QueueByRoute) :
    (s.setQueues sc qs).route_to_bucket = s.route_to_bucket := by
  cases sc <;> rfl

@[simp] theorem rtb_setTransit (s : State) (sc : Scope) (t : CountedSet) :
    (s.setTransit sc t).route_to_bucket = s.route_to_bucket := by
  cases sc <;> rfl

@[simp] theorem defaultLimit_setQueues (s : State) (sc : Scope) (qs : QueueByRoute) :
    (s.setQueues sc qs).defaultLimit = s.defaultLimit := by
  cases sc <;> rfl

@[simp] theorem defaultLimit_setTransit (s : State) (sc : Scope) (t : CountedSet) :
    (s.setTransit sc t).defaultLimit = s.defaultLimit := by
  cases sc <;> rfl

@[simp] theorem writing_setQueues (s : State) (sc : Scope) (qs : QueueByRoute) :
    (s.setQueues sc qs).writing = s.writing := by
  cases sc <;> rfl

@[simp] theorem writing_setTransit (s : State) (sc : Scope) (t : CountedSet) :
    (s.setTransit sc t).writing = s.writing := by
  cases sc <;> rfl

@[simp] theorem gateway_setQueues (s : State) (sc : Scope) (qs : QueueByRoute) :
    (s.setQueues sc qs).gateway_route = s.gateway_route := by
  cases sc <;> rfl

@[simp] theorem gateway_setTransit (s : State) (sc : Scope) (t : CountedSet) :
    (s.setTransit sc t).gateway_route = s.gateway_route := by
  cases sc <;> rfl

theorem contains_setQueues (s : State) (sc : Scope) (qs : QueueByRoute) (k : String) :
    Map.contains k (s.setQueues sc qs).buckets = true ↔
      sc = some k ∨ Map.contains k s.buckets = true := by
  cases sc with
  | none => simp [setQueues]
  | some k' =>
    simp only [setQueues, contains_setBucket, Option.some.injEq]
    constructor
    · rintro (h | h)
      · exact Or.inl h.symm
      · exact Or.inr h
    · rintro (h | h)
      · exact Or.inl h.symm
      · exact Or.inr h

theorem contains_setTransit (s : State) (sc : Scope) (t : CountedSet) (k : String) :
    Map.contains k (s.setTransit sc t).buckets = true ↔
      sc = some k ∨ Map.contains k s.buckets = true := by
  cases sc with
  | none => simp [setTransit]
  | some k' =>
    simp only [setTransit, contains_setBucket, Option.some.injEq]
    constructor
    · rintro (h | h)
      · exact Or.inl h.symm
      · exact Or.inr h
    · rintro (h | h)
      · exact Or.inl h.symm
      · exact Or.inr h

theorem nodup_setQueues (s : State) (sc : Scope) (qs : QueueByRoute)
    (h : (Map.keys s.buckets).Nodup) : (Map.keys (s.setQueues sc qs).buckets).Nodup := by
  cases sc with
  | none => exact h
  | some k => exact Map.nodup_put _ _ h

theorem nodup_setTransit (s : State) (sc : Scope) (t : CountedSet)
    (h : (Map.keys s.buckets).Nodup) : (Map.keys (s.setTransit sc t).buckets).Nodup := by
  cases sc with
  | none => exact h
  | some k => exact Map.nodup_put _ _ h

end State

/-! ## Assignments that keep the state invariant -/

theorem stInv_setBucket {s : State} (h : StInv s) (k : String) (b : Bucket) (hid : b.id = k)
    (hq : GoodMap s.route_to_bucket (some k) b.queues)
    (hr : IsInt32 b.remaining) (hl : IsInt32 b.limit) : StInv (s.setBucket k b) where
  nodupB := Map.nodup_put _ _ h.nodupB
  good := by
    intro sc
    rw [State.queuesOf_setBucket]
    by_cases e : sc = some k
    · subst e
      simpa using hq
    · simpa [e] using h.good sc
  idKey := by
    intro k' hk'
    rw [State.bucketAt_setBucket]
    by_cases e : k' = k
    · subst e
      simpa using hid
    · simp only [e, if_false]
      rcases (State.contains_setBucket s k k' b).1 hk' with h1 | h1
      · exact absurd h1 e
      · exact h.idKey k' h1
  rtbKey := by
    intro r k' hr'
    exact (State.contains_setBucket s k k' b).2 (Or.inr (h.rtbKey r k' hr'))
  int32 := by
    refine ⟨h.int32.1, ?_⟩
    intro k'
    rw [State.bucketAt_setBucket]
    by_cases e : k' = k
    · subst e
      simpa using ⟨hr, hl⟩
    · simpa [e] using h.int32.2 k'

theorem stInv_setQueues {s : State} (h : StInv s) (sc : Scope) (qs : QueueByRoute)
    (hg : GoodMap s.route_to_bucket sc qs)
    (hk : ∀ k, sc = some k → Map.contains k s.buckets = true) : StInv (s.setQueues sc qs) := by
  cases sc with
  | none =>
    exact {
      nodupB := h.nodupB
      good := by
        intro sc
        cases sc with
        | none => exact hg
        | some k => exact h.good (some k)
      idKey := h.idKey
      rtbKey := h.rtbKey
      int32 := h.int32 }
  | some k =>
    exact stInv_setBucket h k _ (h.idKey k (hk k rfl)) hg (h.int32.2 k).1 (h.int32.2 k).2

theorem stInv_setTransit {s : State} (h : StInv s) (sc : Scope) (t : CountedSet)
    (hk : ∀ k, sc = some k → Map.contains k s.buckets = true) : StInv (s.setTransit sc t) := by
  cases sc with
  | none =>
    exact {
      nodupB := h.nodupB
      good := by
        intro sc
        cases sc with
        | none => exact h.good none
        | some k => exact h.good (some k)
      idKey := h.idKey
      rtbKey := h.rtbKey
      int32 := h.int32 }
  | some k =>
    exact stInv_setBucket h k _ (h.idKey k (hk k rfl)) (h.good (some k))
      (h.int32.2 k).1 (h.int32.2 k).2

theorem stInv_setWriting {s : State} (h : StInv s) (w : Bool) : StInv (s.setWriting w) where
  nodupB := h.nodupB
  good := by
    intro sc
    simpa using h.good sc
  idKey := h.idKey
  rtbKey := h.rtbKey
  int32 := h.int32

theorem scopeOf_contains {s : State} (h : StInv s) (r : route_t) :
    ∀ k, s.scopeOf r = some k → Map.contains k s.buckets = true :=
  fun k hk => h.rtbKey r k hk

theorem goodMap_put {rtb : Map route_t String} {sc : Scope} {qs : QueueByRoute}
    (h : GoodMap rtb sc qs) (r : route_t) (q : List Call) (hne : q ≠ [])
    (hsc : Map.find? r rtb = sc) (hc : ∀ c ∈ q, c.route = r ∧ c.created < TIME_MAX) :
    GoodMap rtb sc (Map.put r q qs) := by
  refine ⟨Map.nodup_put _ _ h.1, ?_⟩
  intro r' q' hf
  rw [Map.find?_put] at hf
  by_cases e : r' = r
  · subst e
    simp only [if_true, Option.some.injEq] at hf
    subst hf
    exact ⟨hne, hsc, hc⟩
  · simp only [e, if_false] at hf
    exact h.2 r' q' hf

theorem goodMap_erase {rtb : Map route_t String} {sc : Scope} {qs : QueueByRoute}
    (h : GoodMap rtb sc qs) (r : route_t) : GoodMap rtb sc (Map.erase r qs) := by
  refine ⟨Map.nodup_erase _ h.1, ?_⟩
  intro r' q' hf
  rw [Map.find?_erase] at hf
  by_cases e : r' = r
  · simp [e] at hf
  · simp only [e, if_false] at hf
    exact h.2 r' q' hf

theorem stInv_call {s : State} (h : StInv s) (c : Call) (hc : c.created < TIME_MAX) :
    StInv (call s c) := by
  unfold call
  refine stInv_setQueues h _ _ ?_ (scopeOf_contains h c.route)
  refine goodMap_put (h.good _) _ _ (by simp) rfl ?_
  intro c' hc'
  rcases List.mem_append.1 hc' with h1 | h1
  · cases hf : Map.find? c.route (s.queuesOf (s.scopeOf c.route)) with
    | none => simp [hf] at h1
    | some q =>
      simp only [hf] at h1
      exact ((h.good _).2 _ _ hf).2.2 c' h1
  · simp only [List.mem_singleton] at h1
    subst h1
    exact ⟨rfl, hc⟩

/-- What a run of `do_some_work` that dispatches does to the state. -/
theorem do_some_work_some {s s' : State} {d : Dispatch}
    (h : do_some_work s = .ok (s', some d)) :
    s.writing = false ∧ ∃ scope rest,
      Map.find? d.route (s.queuesOf scope) = some (d.call :: rest) ∧
      s' = (s.setWriting true).setQueues scope
        (if rest = [] then Map.erase d.route (s.queuesOf scope)
         else Map.put d.route rest (s.queuesOf scope)) := by
  unfold do_some_work at h
  by_cases hw : s.writing = true
  · simp [hw] at h
  · simp only [hw, Bool.false_eq_true, if_false] at h
    cases hs : scan (s.setWriting true) with
    | error e => simp [hs] at h
    | ok sc =>
      simp only [hs] at h
      split at h
      · simp at h
      · cases hq : sc.next_queues with
        | none => simp [hq] at h
        | some scope =>
          simp only [hq, State.queuesOf_setWriting] at h
          cases hf : Map.find? sc.next_route (s.queuesOf scope) with
          | none => simp [hf] at h
          | some q =>
            cases q with
            | nil => simp [hf] at h
            | cons c rest =>
              simp only [hf, Except.ok.injEq, Prod.mk.injEq, Option.some.injEq] at h
              obtain ⟨h1, h2⟩ := h
              subst h2
              refine ⟨by simpa using hw, scope, rest, hf, h1.symm⟩

/-- What a run of `do_some_work` that dispatches nothing does to the state. -/
theorem do_some_work_none {s s' : State} (h : do_some_work s = .ok (s', none)) : s' = s := by
  unfold do_some_work at h
  by_cases hw : s.writing = true
  · simp only [hw, if_true, Except.ok.injEq, Prod.mk.injEq, and_true] at h
    exact h.symm
  · simp only [hw, Bool.false_eq_true, if_false] at h
    cases hs : scan (s.setWriting true) with
    | error e => simp [hs] at h
    | ok sc =>
      simp only [hs] at h
      split at h
      · simp only [State.setWriting_setWriting, Except.ok.injEq, Prod.mk.injEq, and_true] at h
        have hw' : s.writing = false := by simpa using hw
        rw [← h, ← hw']
        rfl
      · cases hq : sc.next_queues with
        | none => simp [hq] at h
        | some scope =>
          simp only [hq, State.queuesOf_setWriting] at h
          cases hf : Map.find? sc.next_route (s.queuesOf scope) with
          | none => simp [hf] at h
          | some q =>
            cases q with
            | nil => simp [hf] at h
            | cons c rest => simp [hf] at h

/-- Where `do_some_work` takes a call from, the route of the call is mapped to that scope
and the call has that route. -/
theorem dispatch_scope {s : State} (h : StInv s) {scope : Scope} {r : route_t} {c : Call}
    {rest : List Call} (hf : Map.find? r (s.queuesOf scope) = some (c :: rest)) :
    s.scopeOf r = scope ∧ c.route = r ∧ c.created < TIME_MAX ∧
      ∀ k, scope = some k → Map.contains k s.buckets = true := by
  have hg := (h.good scope).2 r _ hf
  refine ⟨hg.2.1, (hg.2.2 c (by simp)).1, (hg.2.2 c (by simp)).2, ?_⟩
  intro k hk
  subst hk
  exact h.rtbKey r k hg.2.1

theorem stInv_dequeue {s : State} (h : StInv s) {scope : Scope} {r : route_t} {c : Call}
    {rest : List Call} (hf : Map.find? r (s.queuesOf scope) = some (c :: rest)) :
    StInv (s.setQueues scope
      (if rest = [] then Map.erase r (s.queuesOf scope)
       else Map.put r rest (s.queuesOf scope))) := by
  have hd := dispatch_scope h hf
  have hg := (h.good scope).2 r _ hf
  refine stInv_setQueues h _ _ ?_ hd.2.2.2
  by_cases e : rest = []
  · simp only [e, if_true]
    exact goodMap_erase (h.good scope) r
  · simp only [e, if_false]
    refine goodMap_put (h.good scope) r rest e hg.2.1 ?_
    intro c' hc'
    exact hg.2.2 c' (List.mem_cons_of_mem _ hc')

theorem stInv_do_some_work {s s' : State} {out : Option Dispatch} (h : StInv s)
    (hw : do_some_work s = .ok (s', out)) : StInv s' := by
  cases out with
  | none =>
    rw [do_some_work_none hw]
    exact h
  | some d =>
    obtain ⟨_, scope, rest, hf, hs⟩ := do_some_work_some hw
    subst hs
    have h1 : StInv (s.setWriting true) := stInv_setWriting h true
    have hf1 : Map.find? d.route ((s.setWriting true).queuesOf scope) = some (d.call :: rest) := by
      simpa using hf
    have := stInv_dequeue h1 hf1
    simpa using this

theorem stInv_onWrite {s : State} (h : StInv s) (r : route_t) : StInv (onWrite s r) := by
  unfold onWrite
  exact stInv_setWriting (stInv_setTransit h _ _ (scopeOf_contains h r)) false

theorem stInv_onTimer {s : State} (h : StInv s) (owner : String) (failed : Bool)
    (hc : Map.contains owner s.buckets = true) : StInv (onTimer s owner failed) := by
  unfold onTimer
  by_cases hf : failed = true
  · simp only [hf, if_true]
    exact h
  · simp only [hf, Bool.false_eq_true, if_false]
    exact stInv_setBucket h owner _ (h.idKey owner hc) (h.good (some owner))
      (h.int32.2 owner).2 (h.int32.2 owner).2

/-! ## The migration of a route keeps the state invariant -/

theorem bInv_setBucket {s : State} (h : BInv s) (k : String) (b : Bucket) (hid : b.id = k)
    (hr : IsInt32 b.remaining) (hl : IsInt32 b.limit) : BInv (s.setBucket k b) where
  nodupB := Map.nodup_put _ _ h.nodupB
  idKey := by
    intro k' hk'
    rw [State.bucketAt_setBucket]
    by_cases e : k' = k
    · subst e
      simpa using hid
    · simp only [e, if_false]
      rcases (State.contains_setBucket s k k' b).1 hk' with h1 | h1
      · exact absurd h1 e
      · exact h.idKey k' h1
  int32 := by
    refine ⟨h.int32.1, ?_⟩
    intro k'
    rw [State.bucketAt_setBucket]
    by_cases e : k' = k
    · subst e
      simpa using ⟨hr, hl⟩
    · simpa [e] using h.int32.2 k'

theorem bInv_setQueues {s : State} (h : BInv s) (sc : Scope) (qs : QueueByRoute)
    (hk : ∀ k, sc = some k → Map.contains k s.buckets = true) : BInv (s.setQueues sc qs) := by
  cases sc with
  | none => exact { nodupB := h.nodupB, idKey := h.idKey, int32 := h.int32 }
  | some k => exact bInv_setBucket h k _ (h.idKey k (hk k rfl)) (h.int32.2 k).1 (h.int32.2 k).2

theorem bInv_setTransit {s : State} (h : BInv s) (sc : Scope) (t : CountedSet)
    (hk : ∀ k, sc = some k → Map.contains k s.buckets = true) : BInv (s.setTransit sc t) := by
  cases sc with
  | none => exact { nodupB := h.nodupB, idKey := h.idKey, int32 := h.int32 }
  | some k => exact bInv_setBucket h k _ (h.idKey k (hk k rfl)) (h.int32.2 k).1 (h.int32.2 k).2

theorem bInv_mapRoute {s : State} (h : BInv s) (r : route_t) (id : String) :
    BInv (s.mapRoute r id) :=
  { nodupB := h.nodupB, idKey := h.idKey, int32 := h.int32 }

theorem bInv_emplaceBucket {s : State} (h : BInv s) (id : String) :
    BInv (s.emplaceBucket id) := by
  unfold State.emplaceBucket
  by_cases hc : Map.contains id s.buckets = true
  · simpa [hc] using h
  · simp only [hc, Bool.false_eq_true, if_false]
    exact bInv_setBucket h id _ rfl (by simp [IsInt32]) (by simp [IsInt32])

namespace State

theorem contains_emplaceBucket (s : State) (id k : String) :
    Map.contains k (s.emplaceBucket id).buckets = true ↔
      k = id ∨ Map.contains k s.buckets = true := by
  unfold emplaceBucket
  by_cases hc : Map.contains id s.buckets = true
  · simp only [hc, if_true]
    constructor
    · exact Or.inr
    · rintro (h | h)
      · rw [h]; exact hc
      · exact h
  · simp only [hc, Bool.false_eq_true, if_false]
    exact contains_setBucket s id k _

theorem queuesOf_emplaceBucket (s : State) (id : String) (sc : Scope) :
    (s.emplaceBucket id).queuesOf sc = s.queuesOf sc := by
  unfold emplaceBucket
  by_cases hc : Map.contains id s.buckets = true
  · simp [hc]
  · simp only [hc, Bool.false_eq_true, if_false, queuesOf_setBucket]
    by_cases e : sc = some id
    · subst e
      have : s.bucketAt id = Bucket.fresh :=
        bucketAt_of_not_contains s id (by simpa using hc)
      simp [queuesOf, this, Bucket.fresh]
    · simp [e]

@[simp] theorem rtb_emplaceBucket (s : State) (id : String) :
    (s.emplaceBucket id).route_to_bucket = s.route_to_bucket := by
  unfold emplaceBucket
  split <;> rfl

end State

theorem erase_of_find?_none {K V : Type} [DecidableEq K] {k : K} {m : Map K V}
    (h : Map.find? k m = none) : Map.erase k m = m := by
  induction m with
  | nil => rfl
  | cons x rest ih =>
    obtain ⟨k0, v0⟩ := x
    by_cases h1 : k = k0
    · subst h1
      simp [Map.find?] at h
    · simp only [Map.find?, h1, if_false] at h
      simp [Map.erase, h1, ih h]

@[simp] theorem rtb_migrateQueue (s : State) (src : Scope) (dst : String) (r : route_t) :
    (migrateQueue s src dst r).route_to_bucket = s.route_to_bucket := by
  unfold migrateQueue
  split
  · rfl
  · simp only
    split <;> simp

@[simp] theorem rtb_migrateTransit (s : State) (src : Scope) (dst : String) (r : route_t) :
    (migrateTransit s src dst r).route_to_bucket = s.route_to_bucket := by
  simp [migrateTransit]

@[simp] theorem rtb_migrate (s : State) (old : Scope) (new_id : String) (r : route_t) :
    (migrate s old new_id r).route_to_bucket = Map.put r new_id s.route_to_bucket := by
  simp [migrate]

/-- The queue maps after a migration, when the old scope is not the new bucket and the
new bucket holds no queue for the route. -/
theorem queuesOf_migrate (s : State) (old : Scope) (new_id : String) (r : route_t)
    (hold : old ≠ some new_id) (hnew : Map.find? r (s.queuesOf (some new_id)) = none)
    (sc : Scope) :
    (migrate s old new_id r).queuesOf sc =
      if sc = some new_id then
        match Map.find? r (s.queuesOf old) with
        | some q => Map.put r q (s.queuesOf (some new_id))
        | none => s.queuesOf (some new_id)
      else if sc = old then Map.erase r (s.queuesOf old)
      else s.queuesOf sc := by
  have hne : ¬ some new_id = old := fun e => hold e.symm
  simp only [migrate, migrateTransit, migrateQueue, State.queuesOf_setTransit,
    State.queuesOf_emplaceBucket, State.queuesOf_mapRoute]
  cases hf : Map.find? r (s.queuesOf old) with
  | none =>
    simp only [State.queuesOf_emplaceBucket, State.queuesOf_mapRoute]
    by_cases e1 : sc = some new_id
    · simp [e1]
    · by_cases e2 : sc = old
      · subst e2
        simp [e1, erase_of_find?_none hf]
      · simp [e1, e2]
  | some q =>
    simp only [State.queuesOf_setQueues, State.queuesOf_emplaceBucket, State.queuesOf_mapRoute,
      hne, if_false, hnew]

theorem contains_migrateQueue {s : State} (src : Scope) (dst : String) (r : route_t)
    {k : String} (h : Map.contains k s.buckets = true) :
    Map.contains k (migrateQueue s src dst r).buckets = true := by
  unfold migrateQueue
  split
  · exact h
  · simp only
    have h1 := (State.contains_setQueues s src (Map.erase r (s.queuesOf src)) k).2 (Or.inr h)
    split
    · exact h1
    · exact (State.contains_setQueues _ _ _ k).2 (Or.inr h1)

theorem contains_migrateTransit {s : State} (src : Scope) (dst : String) (r : route_t)
    {k : String} (h : Map.contains k s.buckets = true) :
    Map.contains k (migrateTransit s src dst r).buckets = true := by
  unfold migrateTransit
  exact (State.contains_setTransit _ _ _ k).2
    (Or.inr ((State.contains_setTransit _ _ _ k).2 (Or.inr h)))

theorem contains_migrate {s : State} (old : Scope) (new_id : String) (r : route_t)
    {k : String} (h : k = new_id ∨ Map.contains k s.buckets = true) :
    Map.contains k (migrate s old new_id r).buckets = true := by
  unfold migrate
  apply contains_migrateTransit
  apply contains_migrateQueue
  exact (State.contains_emplaceBucket _ _ _).2 h

theorem bInv_migrateQueue {s : State} (h : BInv s) (src : Scope) (dst : String) (r : route_t)
    (hsrc : ∀ k, src = some k → Map.contains k s.buckets = true)
    (hdst : Map.contains dst s.buckets = true) : BInv (migrateQueue s src dst r) := by
  unfold migrateQueue
  split
  · exact h
  · simp only
    have h1 := bInv_setQueues h src (Map.erase r (s.queuesOf src)) hsrc
    split
    · exact h1
    · refine bInv_setQueues h1 _ _ ?_
      intro k hk
      cases hk
      exact (State.contains_setQueues _ _ _ _).2 (Or.inr hdst)

theorem bInv_migrateTransit {s : State} (h : BInv s) (src : Scope) (dst : String)
    (r : route_t) (hsrc : ∀ k, src = some k → Map.contains k s.buckets = true)
    (hdst : Map.contains dst s.buckets = true) : BInv (migrateTransit s src dst r) := by
  unfold migrateTransit
  have h1 := bInv_setTransit h src ((s.transitOf src).clear r).1 hsrc
  refine bInv_setTransit h1 _ _ ?_
  intro k hk
  cases hk
  exact (State.contains_setTransit _ _ _ _).2 (Or.inr hdst)

theorem bInv_migrate {s : State} (h : BInv s) (old : Scope) (new_id : String) (r : route_t)
    (hold : ∀ k, old = some k → Map.contains k s.buckets = true) :
    BInv (migrate s old new_id r) := by
  unfold migrate
  have h2 : BInv ((s.mapRoute r new_id).emplaceBucket new_id) :=
    bInv_emplaceBucket (bInv_mapRoute h r new_id) new_id
  have hc2 : ∀ k, k = new_id ∨ Map.contains k s.buckets = true →
      Map.contains k ((s.mapRoute r new_id).emplaceBucket new_id).buckets = true :=
    fun k hk => (State.contains_emplaceBucket _ _ _).2 hk
  have h3 := bInv_migrateQueue h2 old new_id r
    (fun k hk => hc2 k (Or.inr (hold k hk))) (hc2 new_id (Or.inl rfl))
  exact bInv_migrateTransit h3 old new_id r
    (fun k hk => contains_migrateQueue _ _ _ (hc2 k (Or.inr (hold k hk))))
    (contains_migrateQueue _ _ _ (hc2 new_id (Or.inl rfl)))

theorem goodMap_rtb_put {rtb : Map route_t String} {sc : Scope} {qs : QueueByRoute}
    (h : GoodMap rtb sc qs) (r : route_t) (id : String) (hr : Map.find? r qs = none) :
    GoodMap (Map.put r id rtb) sc qs := by
  refine ⟨h.1, ?_⟩
  intro r' q' hf
  have hne : ¬ r' = r := by
    intro e
    subst e
    simp [hr] at hf
  have := h.2 r' q' hf
  refine ⟨this.1, ?_, this.2.2⟩
  rw [Map.find?_put]
  simpa [hne] using this.2.1

/-- The new bucket of a migration holds no queue for the migrating route. -/
theorem migrate_target_free {s : State} (h : StInv s) (new_id : String) (r : route_t)
    (hold : s.scopeOf r ≠ some new_id) : Map.find? r (s.queuesOf (some new_id)) = none := by
  cases hf : Map.find? r (s.queuesOf (some new_id)) with
  | none => rfl
  | some q => exact absurd ((h.good (some new_id)).2 r q hf).2.1 hold

theorem stInv_migrate {s : State} (h : StInv s) (new_id : String) (r : route_t)
    (hold : s.scopeOf r ≠ some new_id) : StInv (migrate s (s.scopeOf r) new_id r) := by
  have hnew := migrate_target_free h new_id r hold
  have hb := bInv_migrate h.toBInv (s.scopeOf r) new_id r (scopeOf_contains h r)
  refine { toBInv := hb, good := ?_, rtbKey := ?_ }
  · intro sc
    rw [queuesOf_migrate s _ new_id r hold hnew, rtb_migrate]
    by_cases e1 : sc = some new_id
    · subst e1
      simp only [if_true]
      cases hf : Map.find? r (s.queuesOf (s.scopeOf r)) with
      | none => exact goodMap_rtb_put (h.good _) r new_id hnew
      | some q =>
        have hq := (h.good _).2 r q hf
        exact goodMap_put (goodMap_rtb_put (h.good _) r new_id hnew) r q hq.1
          (by rw [Map.find?_put]; simp) hq.2.2
    · simp only [e1, if_false]
      by_cases e2 : sc = s.scopeOf r
      · simp only [e2, if_true]
        have := goodMap_erase (h.good (s.scopeOf r)) r
        have hsc : GoodMap (Map.put r new_id s.route_to_bucket) (s.scopeOf r)
            (Map.erase r (s.queuesOf (s.scopeOf r))) :=
          goodMap_rtb_put this r new_id (by rw [Map.find?_erase]; simp)
        exact hsc
      · simp only [e2, if_false]
        refine goodMap_rtb_put (h.good sc) r new_id ?_
        cases hf : Map.find? r (s.queuesOf sc) with
        | none => rfl
        | some q => exact absurd ((h.good sc).2 r q hf).2.1.symm e2
  · intro r' k hr'
    rw [rtb_migrate, Map.find?_put] at hr'
    apply contains_migrate
    by_cases e : r' = r
    · simp only [e, if_true, Option.some.injEq] at hr'
      exact Or.inl hr'.symm
    · simp only [e, if_false] at hr'
      exact Or.inr (h.rtbKey r' k hr')

/-! ## The read continuation keeps the state invariant -/

/-- On a state that satisfies the invariant, `onRead` migrates exactly when the route is
not mapped to the bucket the reply names. -/
theorem onRead_eq {s : State} (h : StInv s) (r : route_t) (msg : Reply) :
    onRead s r msg =
      match (s.transitOf (s.scopeOf r)).erase r 1 with
      | .error e => .error e
      | .ok t =>
        .ok (refresh (if s.scopeOf r = some msg.bucket then s.setTransit (s.scopeOf r) t
              else migrate (s.setTransit (s.scopeOf r) t) (s.scopeOf r) msg.bucket r)
          msg.bucket msg) := by
  unfold onRead
  cases hsc : s.scopeOf r with
  | none =>
    simp only
    cases (s.transitOf none).erase r 1 with
    | error e => rfl
    | ok t => simp
  | some k =>
    have hc : Map.contains k s.buckets = true := h.rtbKey r k hsc
    simp only [State.touchBucket_of_contains s k hc]
    cases (s.transitOf (some k)).erase r 1 with
    | error e => rfl
    | ok t =>
      have hid : ((s.setTransit (some k) t).bucketAt k).id = k := by
        rw [State.bucketAt_setTransit]
        simpa using h.idKey k hc
      simp only [hid, Option.some.injEq]
      by_cases e : k = msg.bucket
      · subst e
        simp
      · simp [e]

theorem stInv_refresh {s : State} (h : StInv s) (k : String)
    (hc : Map.contains k s.buckets = true) (msg : Reply)
    (hl : IsInt32 msg.limit) (hr : IsInt32 msg.remaining) : StInv (refresh s k msg) := by
  unfold refresh
  refine stInv_setBucket h _ _ (h.idKey _ hc) (h.good _) ?_ hl
  have := (h.int32.2 k).1
  unfold IsInt32 at *
  simp only [min_def]
  split <;> omega

@[simp] theorem rtb_refresh (s : State) (k : String) (msg : Reply) :
    (refresh s k msg).route_to_bucket = s.route_to_bucket := rfl

@[simp] theorem queues_refresh (s : State) (k : String) (msg : Reply) :
    (refresh s k msg).queues = s.queues := rfl

@[simp] theorem queuesOf_refresh (s : State) (k : String) (msg : Reply) (sc : Scope) :
    (refresh s k msg).queuesOf sc = s.queuesOf sc := by
  unfold refresh
  simp only [State.queuesOf_setBucket]
  by_cases e : sc = some k
  · subst e
    simp [State.queuesOf]
  · simp [e]

theorem stInv_onRead {s s' : State} (h : StInv s) (r : route_t) (msg : Reply)
    (hl : IsInt32 msg.limit) (hr : IsInt32 msg.remaining)
    (ho : onRead s r msg = .ok s') : StInv s' := by
  rw [onRead_eq h] at ho
  cases ht : (s.transitOf (s.scopeOf r)).erase r 1 with
  | error e => simp [ht] at ho
  | ok t =>
    simp only [ht, Except.ok.injEq] at ho
    have h1 : StInv (s.setTransit (s.scopeOf r) t) :=
      stInv_setTransit h _ _ (scopeOf_contains h r)
    have h2 : StInv (if s.scopeOf r = some msg.bucket then s.setTransit (s.scopeOf r) t
        else migrate (s.setTransit (s.scopeOf r) t) (s.scopeOf r) msg.bucket r) ∧
        Map.contains msg.bucket (if s.scopeOf r = some msg.bucket then
          s.setTransit (s.scopeOf r) t
        else migrate (s.setTransit (s.scopeOf r) t) (s.scopeOf r) msg.bucket r).buckets
          = true := by
      by_cases e : s.scopeOf r = some msg.bucket
      · simp only [e, if_true]
        refine ⟨by simpa [e] using h1, ?_⟩
        exact (State.contains_setTransit _ _ _ _).2 (Or.inl rfl)
      · simp only [e, if_false]
        have hs : (s.setTransit (s.scopeOf r) t).scopeOf r = s.scopeOf r := by
          simp [State.scopeOf]
        have := stInv_migrate h1 msg.bucket r (by rw [hs]; exact e)
        rw [hs] at this
        exact ⟨this, contains_migrate _ _ _ (Or.inl rfl)⟩
    rw [← ho]
    exact stInv_refresh h2.1 msg.bucket h2.2 msg hl hr

/-! ## Counting the queued calls -/

/-- For a function `f` on maps that adds up a weight `w` over the entries: storing under
a key trades the weight of the old value for that of the new one. -/
theorem weight_put {K V : Type} [DecidableEq K] [KeyOrd K] (f : Map K V → Nat) (w : V → Nat)
    (hnil : f [] = 0) (hcons : ∀ k v rest, f ((k, v) :: rest) = w v + f rest)
    (k : K) (v : V) (m : Map K V) :
    f (Map.put k v m) + (Map.find? k m).elim 0 w =
      w v + f m := by
  induction m with
  | nil => simp [Map.put, Map.find?, hnil, hcons]
  | cons x rest ih =>
    obtain ⟨k0, v0⟩ := x
    by_cases h1 : k = k0
    · subst h1
      simp only [Map.put, Map.find?, if_true, hcons, Option.elim]
      omega
    · by_cases h2 : (KeyOrd.lt k k0 && !Map.contains k rest) = true
      · simp only [Map.put, h1, h2, if_false, if_true, Map.find?, hcons]
        simp only [Bool.and_eq_true, Bool.not_eq_eq_eq_not, Bool.not_true] at h2
        have h3 : Map.find? k rest = none := by
          have := h2.2
          unfold Map.contains at this
          cases hf : Map.find? k rest <;> simp_all
        simp [h3]
      · simp only [Map.put, h1, h2, if_false, Bool.false_eq_true, Map.find?, hcons]
        omega

theorem weight_erase {K V : Type} [DecidableEq K] (f : Map K V → Nat) (w : V → Nat)
    (hcons : ∀ k v rest, f ((k, v) :: rest) = w v + f rest)
    (k : K) (m : Map K V) (hn : (Map.keys m).Nodup) :
    f (Map.erase k m) + (Map.find? k m).elim 0 w = f m := by
  induction m with
  | nil => simp [Map.erase, Map.find?]
  | cons x rest ih =>
    obtain ⟨k0, v0⟩ := x
    simp only [Map.keys, List.map_cons, List.nodup_cons] at hn
    by_cases h1 : k = k0
    · subst h1
      have h3 : Map.find? k rest = none := Map.find?_eq_none.2 hn.1
      simp only [Map.erase, Map.find?, if_true, hcons, erase_of_find?_none h3, Option.elim]
      omega
    · simp only [Map.erase, h1, if_false, Map.find?, hcons]
      have := ih hn.2
      omega

theorem count_queued_put (c : Call) (r : route_t) (q : List Call) (m : QueueByRoute) :
    (queued (Map.put r q m)).count c +
        (Map.find? r m).elim 0 (fun q0 => q0.count c) =
      q.count c + (queued m).count c :=
  weight_put (fun m => (queued m).count c) (fun q => q.count c) rfl
    (fun _ _ _ => by simp [queued]) r q m

theorem count_queued_erase (c : Call) (r : route_t) (m : QueueByRoute)
    (hn : (Map.keys m).Nodup) :
    (queued (Map.erase r m)).count c +
        (Map.find? r m).elim 0 (fun q0 => q0.count c) =
      (queued m).count c :=
  weight_erase (fun m => (queued m).count c) (fun q => q.count c)
    (fun _ _ _ => by simp [queued]) r m hn

theorem count_allQueued_setBucket (c : Call) (s : State) (k : String) (b : Bucket) :
    (s.setBucket k b).allQueued.count c + (queued (s.bucketAt k).queues).count c =
      s.allQueued.count c + (queued b.queues).count c := by
  have := weight_put (fun m => (queuedInBuckets m).count c)
    (fun b => (queued b.queues).count c) rfl (fun _ _ _ => by simp [queuedInBuckets])
    k b s.buckets
  simp only [State.allQueued, State.buckets_setBucket, State.queues_setBucket,
    List.count_append, State.bucketAt]
  cases hf : Map.find? k s.buckets with
  | none =>
    simp only [hf, Option.elim] at this
    simp only [Bucket.fresh, queued, List.count_nil]
    omega
  | some b0 =>
    simp only [hf, Option.elim] at this
    simp only
    omega

theorem count_allQueued_setQueues (c : Call) (s : State) (sc : Scope) (qs : QueueByRoute) :
    (s.setQueues sc qs).allQueued.count c + (queued (s.queuesOf sc)).count c =
      s.allQueued.count c + (queued qs).count c := by
  cases sc with
  | none =>
    simp only [State.setQueues, State.allQueued, State.queuesOf, List.count_append]
    omega
  | some k =>
    have := count_allQueued_setBucket c s k { s.bucketAt k with queues := qs }
    simpa [State.setQueues, State.queuesOf] using this

theorem count_allQueued_setTransit (c : Call) (s : State) (sc : Scope) (t : CountedSet) :
    (s.setTransit sc t).allQueued.count c = s.allQueued.count c := by
  cases sc with
  | none => rfl
  | some k =>
    have := count_allQueued_setBucket c s k { s.bucketAt k with transit := t }
    simp only [State.setTransit]
    simp only at this
    omega

theorem count_allQueued_emplaceBucket (c : Call) (s : State) (id : String) :
    (s.emplaceBucket id).allQueued.count c = s.allQueued.count c := by
  unfold State.emplaceBucket
  by_cases hc : Map.contains id s.buckets = true
  · simp [hc]
  · simp only [hc, Bool.false_eq_true, if_false]
    have := count_allQueued_setBucket c s id { id := id }
    have hb : s.bucketAt id = Bucket.fresh :=
      State.bucketAt_of_not_contains s id (by simpa using hc)
    simp only [hb, Bucket.fresh, queued, List.count_nil] at this
    omega

/-! ## Effect of each operation on the queued calls -/

theorem count_allQueued_call (c' : Call) (s : State) (c : Call) :
    (call s c).allQueued.count c' = s.allQueued.count c' + [c].count c' := by
  unfold call
  have h1 := count_allQueued_setQueues c' s (s.scopeOf c.route)
    (Map.put c.route ((match Map.find? c.route (s.queuesOf (s.scopeOf c.route)) with
      | some q => q
      | none => []) ++ [c]) (s.queuesOf (s.scopeOf c.route)))
  have h2 := count_queued_put c' c.route
    ((match Map.find? c.route (s.queuesOf (s.scopeOf c.route)) with
      | some q => q
      | none => []) ++ [c]) (s.queuesOf (s.scopeOf c.route))
  simp only at h1 h2 ⊢
  cases hf : Map.find? c.route (s.queuesOf (s.scopeOf c.route)) with
  | none =>
    simp only [hf, Option.elim, List.nil_append] at h1 h2 ⊢
    omega
  | some q =>
    simp only [hf, Option.elim, List.count_append] at h1 h2 ⊢
    omega

theorem count_allQueued_dequeue (c' : Call) {s : State} {scope : Scope} {r : route_t}
    {c : Call} {rest : List Call} (hn : (Map.keys (s.queuesOf scope)).Nodup)
    (hf : Map.find? r (s.queuesOf scope) = some (c :: rest)) :
    (s.setQueues scope
      (if rest = [] then Map.erase r (s.queuesOf scope)
       else Map.put r rest (s.queuesOf scope))).allQueued.count c' + [c].count c' =
      s.allQueued.count c' := by
  have h1 := count_allQueued_setQueues c' s scope
    (if rest = [] then Map.erase r (s.queuesOf scope) else Map.put r rest (s.queuesOf scope))
  by_cases e : rest = []
  · have h2 := count_queued_erase c' r (s.queuesOf scope) hn
    simp only [e, if_true, hf, Option.elim] at h1 h2 ⊢
    omega
  · have h2 := count_queued_put c' r rest (s.queuesOf scope)
    simp only [e, if_false, hf, Option.elim] at h1 h2 ⊢
    have h3 : (c :: rest).count c' = [c].count c' + rest.count c' := by
      rw [← List.count_append]
      rfl
    omega

theorem count_allQueued_migrateQueue (c' : Call) (s : State) (old : Scope) (new_id : String)
    (r : route_t) (hn : (Map.keys (s.queuesOf old)).Nodup) (hold : old ≠ some new_id)
    (hnew : Map.find? r (s.queuesOf (some new_id)) = none) :
    (migrateQueue s old new_id r).allQueued.count c' = s.allQueued.count c' := by
  unfold migrateQueue
  have hne : ¬ some new_id = old := fun e => hold e.symm
  cases hf : Map.find? r (s.queuesOf old) with
  | none => rfl
  | some q =>
    simp only [State.queuesOf_setQueues, hne, if_false, hnew]
    have h1 := count_allQueued_setQueues c' s old (Map.erase r (s.queuesOf old))
    have h2 := count_queued_erase c' r (s.queuesOf old) hn
    have h3 := count_allQueued_setQueues c' (s.setQueues old (Map.erase r (s.queuesOf old)))
      (some new_id) (Map.put r q (s.queuesOf (some new_id)))
    have h4 := count_queued_put c' r q (s.queuesOf (some new_id))
    simp only [State.queuesOf_setQueues, hne, if_false, hnew, hf, Option.elim] at h1 h2 h3 h4
    omega

theorem count_allQueued_migrate (c' : Call) (s : State) (old : Scope) (new_id : String)
    (r : route_t) (hn : (Map.keys (s.queuesOf old)).Nodup) (hold : old ≠ some new_id)
    (hnew : Map.find? r (s.queuesOf (some new_id)) = none) :
    (migrate s old new_id r).allQueued.count c' = s.allQueued.count c' := by
  unfold migrate migrateTransit
  rw [count_allQueued_setTransit, count_allQueued_setTransit,
    count_allQueued_migrateQueue c' _ old new_id r
      (by simpa [State.queuesOf_emplaceBucket] using hn) hold
      (by simpa [State.queuesOf_emplaceBucket] using hnew),
    count_allQueued_emplaceBucket]
  rfl

theorem count_allQueued_refresh (c' : Call) (s : State) (k : String) (msg : Reply) :
    (refresh s k msg).allQueued.count c' = s.allQueued.count c' := by
  unfold refresh
  have := count_allQueued_setBucket c' s k
    { s.bucketAt k with limit := msg.limit,
                        remaining := min (s.bucketAt k).remaining msg.remaining,
                        reset := some msg.resetAfter }
  simp only at this ⊢
  omega

theorem count_allQueued_onRead (c' : Call) {s s' : State} (h : StInv s) (r : route_t)
    (msg : Reply) (ho : onRead s r msg = .ok s') :
    s'.allQueued.count c' = s.allQueued.count c' := by
  rw [onRead_eq h] at ho
  cases ht : (s.transitOf (s.scopeOf r)).erase r 1 with
  | error e => simp [ht] at ho
  | ok t =>
    simp only [ht, Except.ok.injEq] at ho
    rw [← ho, count_allQueued_refresh]
    have h1 : StInv (s.setTransit (s.scopeOf r) t) :=
      stInv_setTransit h _ _ (scopeOf_contains h r)
    have hs : (s.setTransit (s.scopeOf r) t).scopeOf r = s.scopeOf r := by
      simp [State.scopeOf]
    by_cases e : s.scopeOf r = some msg.bucket
    · simp only [e, if_true]
      exact count_allQueued_setTransit _ _ _ _
    · simp only [e, if_false]
      rw [count_allQueued_migrate c' _ _ _ _ (h1.good _).1 e
        (migrate_target_free h1 msg.bucket r (by rw [hs]; exact e)),
        count_allQueued_setTransit]

theorem count_allQueued_onWrite (c' : Call) (s : State) (r : route_t) :
    (onWrite s r).allQueued.count c' = s.allQueued.count c' := by
  unfold onWrite
  exact count_allQueued_setTransit _ _ _ _

theorem count_allQueued_onTimer (c' : Call) (s : State) (owner : String) (failed : Bool) :
    (onTimer s owner failed).allQueued.count c' = s.allQueued.count c' := by
  unfold onTimer
  by_cases hf : failed = true
  · simp [hf]
  · simp only [hf, Bool.false_eq_true, if_false]
    have := count_allQueued_setBucket c' s owner
      { s.bucketAt owner with remaining := (s.bucketAt owner).limit }
    simp only at this
    omega

theorem queueOf_call (s : State) (c : Call) (r : route_t) :
    (call s c).queueOf r = if r = c.route then s.queueOf r ++ [c] else s.queueOf r := by
  unfold call State.queueOf
  simp only [State.scopeOf, State.rtb_setQueues, State.queuesOf_setQueues]
  by_cases e : r = c.route
  · subst e
    simp only [if_true, Map.find?_put, Option.getD_some]
    cases hf : Map.find? c.route (s.queuesOf (Map.find? c.route s.route_to_bucket)) <;> simp
  · simp only [e, if_false]
    by_cases e2 : Map.find? r s.route_to_bucket = Map.find? c.route s.route_to_bucket
    · simp only [e2, if_true, Map.find?_put, e, if_false]
    · simp only [e2, if_false]

theorem queueOf_dequeue {s : State} (h : StInv s) {scope : Scope} {r : route_t} {c : Call}
    {rest : List Call} (hf : Map.find? r (s.queuesOf scope) = some (c :: rest))
    (r' : route_t) :
    (s.setQueues scope
      (if rest = [] then Map.erase r (s.queuesOf scope)
       else Map.put r rest (s.queuesOf scope))).queueOf r' =
      if r' = r then rest else s.queueOf r' := by
  have hd := (dispatch_scope h hf).1
  unfold State.queueOf
  simp only [State.scopeOf] at hd ⊢
  simp only [State.rtb_setQueues, State.queuesOf_setQueues]
  by_cases e : r' = r
  · subst e
    simp only [hd, if_true]
    by_cases e3 : rest = []
    · simp [e3, Map.find?_erase]
    · simp [e3, Map.find?_put]
  · simp only [e, if_false]
    by_cases e2 : Map.find? r' s.route_to_bucket = scope
    · simp only [e2, if_true]
      by_cases e3 : rest = []
      · simp [e3, Map.find?_erase, e]
      · simp [e3, Map.find?_put, e]
    · simp only [e2, if_false]

theorem queueOf_setTransit (s : State) (sc : Scope) (t : CountedSet) (r : route_t) :
    (s.setTransit sc t).queueOf r = s.queueOf r := by
  simp [State.queueOf, State.scopeOf, State.queuesOf_setTransit]

theorem queueOf_onWrite (s : State) (r r' : route_t) :
    (onWrite s r).queueOf r' = s.queueOf r' := by
  unfold onWrite
  simp [State.queueOf, State.scopeOf, State.queuesOf_setTransit]

theorem queuesOf_setBucket_same (s : State) (k : String) (b : Bucket)
    (hq : b.queues = (s.bucketAt k).queues) (sc : Scope) :
    (s.setBucket k b).queuesOf sc = s.queuesOf sc := by
  rw [State.queuesOf_setBucket]
  by_cases e : sc = some k
  · subst e
    simp [State.queuesOf, hq]
  · simp [e]

theorem queueOf_onTimer (s : State) (owner : String) (failed : Bool) (r : route_t) :
    (onTimer s owner failed).queueOf r = s.queueOf r := by
  unfold onTimer
  by_cases hf : failed = true
  · simp [hf]
  · simp only [hf, Bool.false_eq_true, if_false]
    simp [State.queueOf, State.scopeOf, queuesOf_setBucket_same]

theorem queueOf_migrate {s : State} (h : StInv s) (new_id : String) (r : route_t)
    (hold : s.scopeOf r ≠ some new_id) (r' : route_t) :
    (migrate s (s.scopeOf r) new_id r).queueOf r' = s.queueOf r' := by
  have hnew := migrate_target_free h new_id r hold
  unfold State.queueOf
  rw [queuesOf_migrate s _ new_id r hold hnew]
  simp only [State.scopeOf, rtb_migrate, Map.find?_put] at hold ⊢
  by_cases e : r' = r
  · subst e
    simp only [if_true]
    cases hf : Map.find? r' (s.queuesOf (Map.find? r' s.route_to_bucket)) with
    | none => simp [hnew]
    | some q => simp [Map.find?_put]
  · simp only [e, if_false]
    by_cases e1 : Map.find? r' s.route_to_bucket = some new_id
    · simp only [e1, if_true]
      cases hf : Map.find? r (s.queuesOf (Map.find? r s.route_to_bucket)) with
      | none => rfl
      | some q => simp [Map.find?_put, e]
    · simp only [e1, if_false]
      by_cases e2 : Map.find? r' s.route_to_bucket = Map.find? r s.route_to_bucket
      · simp [e2, Map.find?_erase, e]
      · simp [e2]

theorem queueOf_onRead {s s' : State} (h : StInv s) (r : route_t) (msg : Reply)
    (ho : onRead s r msg = .ok s') (r' : route_t) : s'.queueOf r' = s.queueOf r' := by
  rw [onRead_eq h] at ho
  cases ht : (s.transitOf (s.scopeOf r)).erase r 1 with
  | error e => simp [ht] at ho
  | ok t =>
    simp only [ht, Except.ok.injEq] at ho
    rw [← ho]
    have h1 : StInv (s.setTransit (s.scopeOf r) t) :=
      stInv_setTransit h _ _ (scopeOf_contains h r)
    have hs : (s.setTransit (s.scopeOf r) t).scopeOf r = s.scopeOf r := by
      simp [State.scopeOf]
    have hq : ∀ s2 : State, (refresh s2 msg.bucket msg).queueOf r' = s2.queueOf r' := by
      intro s2
      simp [State.queueOf, State.scopeOf]
    rw [hq]
    by_cases e : s.scopeOf r = some msg.bucket
    · simp only [e, if_true]
      exact queueOf_setTransit _ _ _ _
    · simp only [e, if_false]
      have := queueOf_migrate h1 msg.bucket r (by rw [hs]; exact e) r'
      rw [hs] at this
      rw [this, queueOf_setTransit]

/-! ## The invariant holds in every reachable state -/

theorem onRoute_append (r : route_t) (l1 l2 : List Call) :
    onRoute r (l1 ++ l2) = onRoute r l1 ++ onRoute r l2 := by
  simp [onRoute]

theorem onRoute_singleton (r : route_t) (c : Call) :
    onRoute r [c] = if c.route = r then [c] else [] := by
  by_cases e : c.route = r <;> simp [onRoute, e]

theorem inv_init (dl : Int) (gw : route_t) (h : IsInt32 dl) : Inv (Sys.init dl gw) where
  st := {
    nodupB := by simp [Sys.init, Map.keys]
    idKey := by
      intro k hk
      simp [Sys.init, Map.contains, Map.find?] at hk
    int32 := by
      refine ⟨h, ?_⟩
      intro k
      simp [Sys.init, State.bucketAt, Map.find?, Bucket.fresh, IsInt32]
    good := by
      intro sc
      cases sc with
      | none => simp [Sys.init, State.queuesOf, GoodMap, Map.keys, Map.find?]
      | some k =>
        simp [Sys.init, State.queuesOf, State.bucketAt, GoodMap, Map.keys, Map.find?,
          Bucket.fresh]
    rtbKey := by
      intro r k hr
      simp [Sys.init, Map.find?] at hr }
  perm := by simp [Sys.init, State.allQueued, queued, queuedInBuckets]
  nodupSub := by simp [Sys.init]
  fifo := by
    intro r
    simp [Sys.init, onRoute, State.queueOf, State.queuesOf, State.scopeOf, Map.find?]

theorem inv_submit {y : Sys} (h : Inv y) (c : Call) (hc : c ∉ y.submitted)
    (ht : c.created < TIME_MAX) :
    Inv { y with st := call y.st c, submitted := y.submitted ++ [c] } where
  st := stInv_call h.st c ht
  perm := by
    rw [List.perm_iff_count]
    intro c'
    have := (List.perm_iff_count.1 h.perm) c'
    simp only [List.count_append, count_allQueued_call] at this ⊢
    omega
  nodupSub := by
    simp only
    rw [List.nodup_append]
    refine ⟨h.nodupSub, by simp, ?_⟩
    intro a ha hb
    simp only [List.mem_singleton] at hb
    subst hb
    exact hc ha
  fifo := by
    intro r
    simp only [onRoute_append, onRoute_singleton, queueOf_call, ← h.fifo r]
    by_cases e : r = c.route
    · subst e
      simp
    · have : ¬ c.route = r := fun e' => e e'.symm
      simp [e, this]

theorem inv_pass {y : Sys} (h : Inv y) {s' : State} {d : Dispatch}
    (hw : do_some_work y.st = .ok (s', some d)) :
    Inv { y with st := s', sent := y.sent ++ [d.call],
                 awaitingWrite := y.awaitingWrite ++ [d] } := by
  have hst := stInv_do_some_work h.st hw
  obtain ⟨_, scope, rest, hf, hs⟩ := do_some_work_some hw
  have h1 : StInv (y.st.setWriting true) := stInv_setWriting h.st true
  have hf1 : Map.find? d.route ((y.st.setWriting true).queuesOf scope) =
      some (d.call :: rest) := by simpa using hf
  have hs1 : s' = (y.st.setWriting true).setQueues scope
      (if rest = [] then Map.erase d.route ((y.st.setWriting true).queuesOf scope)
       else Map.put d.route rest ((y.st.setWriting true).queuesOf scope)) := by
    simpa using hs
  have hd := dispatch_scope h1 hf1
  refine { st := hst, perm := ?_, nodupSub := h.nodupSub, fifo := ?_ }
  · rw [List.perm_iff_count]
    intro c'
    have h2 := (List.perm_iff_count.1 h.perm) c'
    have h3 := count_allQueued_dequeue c' (h1.good scope).1 hf1
    rw [← hs1] at h3
    have h4 : (y.st.setWriting true).allQueued = y.st.allQueued := rfl
    simp only [List.count_append, h4] at h2 h3 ⊢
    omega
  · intro r
    have h2 := h.fifo r
    have h3 := queueOf_dequeue h1 hf1 r
    rw [← hs1] at h3
    have h4 : (y.st.setWriting true).queueOf r = y.st.queueOf r := rfl
    simp only [onRoute_append, onRoute_singleton, h3, h4, hd.2.1]
    rw [← h2]
    by_cases e : r = d.route
    · subst e
      have hsc : y.st.scopeOf d.route = scope := hd.1
      have : y.st.queueOf d.route = d.call :: rest := by
        simp [State.queueOf, hsc, hf]
      simp [this]
    · have : ¬ d.route = r := fun e' => e e'.symm
      simp [e, this]

theorem inv_step {y y' : Sys} (h : Inv y) (e : Event) (hs : step y e = some y') : Inv y' := by
  cases e with
  | submit c =>
    simp only [step] at hs
    split at hs
    · rename_i hc
      simp only [Option.some.injEq] at hs
      subst hs
      exact inv_submit h c hc.1 hc.2
    · simp at hs
  | pass =>
    simp only [step] at hs
    split at hs
    · simp at hs
    · rename_i s hw
      simp only [Option.some.injEq] at hs
      subst hs
      have := do_some_work_none hw
      subst this
      exact h
    · rename_i s d hw
      simp only [Option.some.injEq] at hs
      subst hs
      exact inv_pass h hw
  | write d =>
    simp only [step] at hs
    split at hs
    · simp only [Option.some.injEq] at hs
      subst hs
      refine { st := stInv_onWrite h.st d.route, perm := ?_, nodupSub := h.nodupSub,
               fifo := ?_ }
      · rw [List.perm_iff_count]
        intro c'
        have := (List.perm_iff_count.1 h.perm) c'
        simp only [List.count_append, count_allQueued_onWrite] at this ⊢
        exact this
      · intro r
        simp only [queueOf_onWrite]
        exact h.fifo r
    · simp at hs
  | read d msg =>
    simp only [step] at hs
    split at hs
    · rename_i hc
      split at hs
      · simp at hs
      · rename_i s ho
        simp only [Option.some.injEq] at hs
        subst hs
        refine { st := stInv_onRead h.st d.route msg hc.2.2.2 hc.2.2.1 ho, perm := ?_,
                 nodupSub := h.nodupSub, fifo := ?_ }
        · rw [List.perm_iff_count]
          intro c'
          have := (List.perm_iff_count.1 h.perm) c'
          simp only [List.count_append, count_allQueued_onRead c' h.st d.route msg ho]
            at this ⊢
          exact this
        · intro r
          simp only [queueOf_onRead h.st d.route msg ho]
          exact h.fifo r
    · simp at hs
  | expiry owner failed =>
    simp only [step] at hs
    split at hs
    · simp at hs
    · rename_i b hb
      split at hs
      · simp only [Option.some.injEq] at hs
        subst hs
        have hc : Map.contains owner y.st.buckets = true := by simp [Map.contains, hb]
        refine { st := stInv_onTimer h.st owner failed hc, perm := ?_,
                 nodupSub := h.nodupSub, fifo := ?_ }
        · rw [List.perm_iff_count]
          intro c'
          have := (List.perm_iff_count.1 h.perm) c'
          simp only [List.count_append, count_allQueued_onTimer] at this ⊢
          exact this
        · intro r
          simp only [queueOf_onTimer]
          exact h.fifo r
      · simp at hs

theorem inv_run {y y' : Sys} (es : List Event) (h : Inv y) (hr : run y es = some y') :
    Inv y' := by
  induction es generalizing y with
  | nil =>
    simp only [run, Option.some.injEq] at hr
    subst hr
    exact h
  | cons e es ih =>
    simp only [run] at hr
    cases hs : step y e with
    | none => simp [hs] at hr
    | some y1 =>
      simp only [hs] at hr
      exact ih (inv_step h e hs) hr

theorem inv_of_reachable {y : Sys} (h : Reachable y) : Inv y := by
  obtain ⟨dl, gw, es, hdl, hr⟩ := h
  exact inv_run es (inv_init dl gw hdl) hr

/-! ## Order of occurrence in a list -/

theorem before_cons {a b x : Call} {l : List Call} (h : Before a b l) : Before a b (x :: l) := by
  obtain ⟨l1, l2, hl, hb⟩ := h
  exact ⟨x :: l1, l2, by simp [hl], hb⟩

theorem before_filter {a b : Call} {l : List Call} (p : Call → Bool) (h : Before a b l)
    (ha : p a = true) (hb : p b = true) : Before a b (l.filter p) := by
  obtain ⟨l1, l2, hl, hb2⟩ := h
  refine ⟨l1.filter p, l2.filter p, ?_, ?_⟩
  · simp [hl, List.filter_cons, ha]
  · exact List.mem_filter.2 ⟨hb2, hb⟩

theorem before_of_filter {a b : Call} {l : List Call} (p : Call → Bool)
    (h : Before a b (l.filter p)) : Before a b l := by
  induction l with
  | nil =>
    obtain ⟨l1, l2, hl, _⟩ := h
    simp at hl
  | cons x rest ih =>
    by_cases hx : p x = true
    · simp only [List.filter_cons, hx, if_true] at h
      obtain ⟨l1, l2, hl, hb⟩ := h
      cases l1 with
      | nil =>
        simp only [List.nil_append, List.cons.injEq] at hl
        obtain ⟨h1, h2⟩ := hl
        subst h1
        refine ⟨[], rest, rfl, ?_⟩
        have : b ∈ rest.filter p := by rw [h2]; exact hb
        exact (List.mem_filter.1 this).1
      | cons z l1 =>
        simp only [List.cons_append, List.cons.injEq] at hl
        exact before_cons (ih ⟨l1, l2, hl.2, hb⟩)
    · simp only [List.filter_cons, hx, Bool.false_eq_true, if_false] at h
      exact before_cons (ih h)

theorem before_initial {a b : Call} {s q : List Call} (hn : (s ++ q).Nodup)
    (h : Before a b (s ++ q)) (hb : b ∈ s) : Before a b s := by
  obtain ⟨l1, l2, hl, hb2⟩ := h
  have hdis : ∀ x, x ∈ s → x ∉ q := fun x hx hq =>
    (List.nodup_append.1 hn).2.2 hx hq
  rcases List.append_eq_append_iff.1 hl with ⟨m, h1, h2⟩ | ⟨m, h1, h2⟩
  · -- `l1 = s ++ m`: the occurrence of `a` lies in `q`, and `b` after it
    have : b ∈ q := by
      rw [h2]
      exact List.mem_append_right _ (List.mem_cons_of_mem _ hb2)
    exact absurd this (hdis b hb)
  · cases m with
    | nil =>
      simp only [List.nil_append] at h2
      have : b ∈ q := by
        rw [← h2]
        exact List.mem_cons_of_mem _ hb2
      exact absurd this (hdis b hb)
    | cons z m =>
      simp only [List.cons_append, List.cons.injEq] at h2
      obtain ⟨hz, h3⟩ := h2
      subst hz
      refine ⟨l1, m, h1, ?_⟩
      rw [h3] at hb2
      rcases List.mem_append.1 hb2 with h4 | h4
      · exact h4
      · exact absurd h4 (hdis b hb)

/-! ## The selection loops -/

theorem scanQueues_error {owner : Scope} {e e' : Err} {qs : QueueByRoute} {sc : Scan}
    (h : scanQueues owner e qs sc = .error e') : e' = e ∧ ∃ r, (r, []) ∈ qs := by
  induction qs generalizing sc with
  | nil => simp [scanQueues] at h
  | cons x rest ih =>
    obtain ⟨r, q⟩ := x
    cases q with
    | nil =>
      simp only [scanQueues, Except.error.injEq] at h
      exact ⟨h.symm, r, by simp⟩
    | cons c q =>
      simp only [scanQueues] at h
      split at h
      · obtain ⟨h1, r', hr'⟩ := ih h
        exact ⟨h1, r', List.mem_cons_of_mem _ hr'⟩
      · obtain ⟨h1, r', hr'⟩ := ih h
        exact ⟨h1, r', List.mem_cons_of_mem _ hr'⟩

theorem scanQueues_spec {s : State} {owner : Scope} {e : Err} {qs : QueueByRoute}
    {sc sc' : Scan}
    (hq : ∀ r q, (r, q) ∈ qs → Map.find? r (s.queuesOf owner) = some q)
    (hp : Picked s sc) (h : scanQueues owner e qs sc = .ok sc') :
    Picked s sc' ∧ sc'.min_remaining = sc.min_remaining ∧ sc'.min ≤ sc.min ∧
      (sc'.next_bucket = sc.next_bucket ∨ sc'.next_bucket = owner) ∧
      (sc'.next_bucket = sc.next_bucket ∨ sc'.min < sc.min) ∧
      ∀ r c rest, (r, c :: rest) ∈ qs → sc'.min ≤ c.created := by
  induction qs generalizing sc with
  | nil =>
    simp only [scanQueues, Except.ok.injEq] at h
    subst h
    exact ⟨hp, rfl, le_refl _, Or.inl rfl, Or.inl rfl, by simp⟩
  | cons x rest ih =>
    obtain ⟨r, q⟩ := x
    have hq' : ∀ r q, (r, q) ∈ rest → Map.find? r (s.queuesOf owner) = some q :=
      fun r q hm => hq r q (List.mem_cons_of_mem _ hm)
    cases q with
    | nil => simp [scanQueues] at h
    | cons c q =>
      simp only [scanQueues] at h
      have hle : sc.min ≤ TIME_MAX := by
        rcases hp with hp | hp
        · exact le_of_eq hp.1
        · exact le_of_lt hp.1
      by_cases hc : c.created < sc.min
      · simp only [hc, if_true] at h
        have hp1 : Picked s ⟨owner, some owner, r, sc.min_remaining, c.created⟩ := by
          refine Or.inr ⟨lt_of_lt_of_le hc hle, rfl, c, q, ?_, rfl⟩
          exact hq r (c :: q) (by simp)
        obtain ⟨h1, h2, h3, h4, h5, h6⟩ := ih hq' hp1 h
        simp only at h2 h3 h4 h5
        refine ⟨h1, h2, le_trans h3 (le_of_lt hc), ?_, ?_, ?_⟩
        · rcases h4 with h4 | h4
          · exact Or.inr h4
          · exact Or.inr h4
        · exact Or.inr (lt_of_le_of_lt h3 hc)
        · intro r' c' rest' hm
          rcases List.mem_cons.1 hm with hm | hm
          · simp only [Prod.mk.injEq, List.cons.injEq] at hm
            rw [hm.2.1]
            exact h3
          · exact h6 r' c' rest' hm
      · simp only [hc, if_false] at h
        obtain ⟨h1, h2, h3, h4, h5, h6⟩ := ih hq' hp h
        refine ⟨h1, h2, h3, h4, h5, ?_⟩
        intro r' c' rest' hm
        rcases List.mem_cons.1 hm with hm | hm
        · simp only [Prod.mk.injEq, List.cons.injEq] at hm
          rw [hm.2.1]
          exact le_trans h3 (not_lt.1 hc)
        · exact h6 r' c' rest' hm

theorem scanBuckets_error {s : State} {bs : Map String Bucket} {sc : Scan} {e : Err}
    (h : scanBuckets s bs sc = .error e) :
    (e = .assertRemaining ∧ ∃ k b, (k, b) ∈ bs ∧ ownsGateway s b = false ∧
        ¬ toSizeT b.remaining ≥ b.transit.total) ∨
    (e = .assertBucketQueue ∧ ∃ k b, (k, b) ∈ bs ∧ ∃ r, (r, []) ∈ b.queues) := by
  induction bs generalizing sc with
  | nil => simp [scanBuckets] at h
  | cons x rest ih =>
    obtain ⟨k, b⟩ := x
    have lift : ∀ sc0, scanBuckets s rest sc0 = .error e →
        (e = .assertRemaining ∧ ∃ k' b', (k', b') ∈ (k, b) :: rest ∧
          ownsGateway s b' = false ∧ ¬ toSizeT b'.remaining ≥ b'.transit.total) ∨
        (e = .assertBucketQueue ∧ ∃ k' b', (k', b') ∈ (k, b) :: rest ∧
          ∃ r, (r, []) ∈ b'.queues) := by
      intro sc0 h0
      rcases ih h0 with ⟨h1, k', b', hm, h2⟩ | ⟨h1, k', b', hm, h2⟩
      · exact Or.inl ⟨h1, k', b', List.mem_cons_of_mem _ hm, h2⟩
      · exact Or.inr ⟨h1, k', b', List.mem_cons_of_mem _ hm, h2⟩
    simp only [scanBuckets] at h
    by_cases hg : ownsGateway s b = true
    · simp only [hg, if_true] at h
      exact lift _ h
    · simp only [hg, Bool.false_eq_true, if_false] at h
      by_cases ha : toSizeT b.remaining ≥ b.transit.total
      · simp only [ha, not_true_eq_false, if_false] at h
        by_cases hs : toSizeT b.remaining ≤ b.transit.total
        · simp only [hs, if_true] at h
          exact lift _ h
        · simp only [hs, if_false] at h
          split at h
          · rename_i e0 he0
            simp only [Except.error.injEq] at h
            subst h
            obtain ⟨h1, r, hr⟩ := scanQueues_error he0
            exact Or.inr ⟨h1, k, b, by simp, r, hr⟩
          · exact lift _ h
      · simp only [ha, not_false_eq_true, if_true, Except.error.injEq] at h
        exact Or.inl ⟨h.symm, k, b, by simp, by simpa using hg, ha⟩

theorem bucketAt_of_find? {s : State} {k : String} {b : Bucket}
    (h : Map.find? k s.buckets = some b) : s.bucketAt k = b := by
  simp [State.bucketAt, h]

theorem picked_min_remaining {s : State} {sc : Scan} (m : Int) (h : Picked s sc) :
    Picked s { sc with min_remaining := m } := h

theorem scanBuckets_spec {s : State} {bs : Map String Bucket} {sc sc' : Scan}
    (hb : ∀ k b, (k, b) ∈ bs → Map.find? k s.buckets = some b)
    (hn : ∀ k b, (k, b) ∈ bs → (Map.keys b.queues).Nodup)
    (hp : Picked s sc) (he : PickedEligible s sc) (h : scanBuckets s bs sc = .ok sc') :
    Picked s sc' ∧ PickedEligible s sc' ∧ sc'.min ≤ sc.min ∧
      sc'.min_remaining ≤ sc.min_remaining ∧
      (∀ k b, (k, b) ∈ bs → ownsGateway s b = false →
        toSizeT b.remaining ≥ b.transit.total ∧ sc'.min_remaining ≤ capacity b) ∧
      (∀ L, L ≤ sc.min_remaining →
        (∀ k b, (k, b) ∈ bs → ownsGateway s b = false → L ≤ capacity b) →
        L ≤ sc'.min_remaining) ∧
      (∀ k b, (k, b) ∈ bs → Eligible s b →
        ∀ r c rest, (r, c :: rest) ∈ b.queues → sc'.min ≤ c.created) := by
  induction bs generalizing sc with
  | nil =>
    simp only [scanBuckets, Except.ok.injEq] at h
    subst h
    exact ⟨hp, he, le_refl _, le_refl _, by simp, fun L hL _ => hL, by simp⟩
  | cons x rest ih =>
    obtain ⟨k, b⟩ := x
    have hb' : ∀ k b, (k, b) ∈ rest → Map.find? k s.buckets = some b :=
      fun k b hm => hb k b (List.mem_cons_of_mem _ hm)
    have hn' : ∀ k b, (k, b) ∈ rest → (Map.keys b.queues).Nodup :=
      fun k b hm => hn k b (List.mem_cons_of_mem _ hm)
    simp only [scanBuckets] at h
    by_cases hg : ownsGateway s b = true
    · -- line 69: the bucket of the gateway route is skipped
      simp only [hg, if_true] at h
      obtain ⟨h1, h2, h3, h4, h5, h6, h7⟩ := ih hb' hn' hp he h
      refine ⟨h1, h2, h3, h4, ?_, ?_, ?_⟩
      · intro k' b' hm hg'
        rcases List.mem_cons.1 hm with hm | hm
        · cases hm
          rw [hg] at hg'
          cases hg'
        · exact h5 k' b' hm hg'
      · intro L hL hcap
        exact h6 L hL (fun k' b' hm => hcap k' b' (List.mem_cons_of_mem _ hm))
      · intro k' b' hm hel
        rcases List.mem_cons.1 hm with hm | hm
        · cases hm
          have hel1 := hel.1
          rw [hg] at hel1
          cases hel1
        · exact h7 k' b' hm hel
    · simp only [hg, Bool.false_eq_true, if_false] at h
      have hg0 : ownsGateway s b = false := by simpa using hg
      by_cases ha : toSizeT b.remaining ≥ b.transit.total
      · simp only [ha, not_true_eq_false, if_false] at h
        have hp1 : Picked s ⟨sc.next_bucket, sc.next_queues, sc.next_route,
            min sc.min_remaining (capacity b), sc.min⟩ := hp
        have he1 : PickedEligible s ⟨sc.next_bucket, sc.next_queues, sc.next_route,
            min sc.min_remaining (capacity b), sc.min⟩ := he
        by_cases hs : toSizeT b.remaining ≤ b.transit.total
        · -- line 72: no capacity, the queues are not scanned
          simp only [hs, if_true] at h
          obtain ⟨h1, h2, h3, h4, h5, h6, h7⟩ := ih hb' hn' hp1 he1 h
          simp only at h3 h4 h6
          refine ⟨h1, h2, h3, le_trans h4 (min_le_left _ _), ?_, ?_, ?_⟩
          · intro k' b' hm hg'
            rcases List.mem_cons.1 hm with hm | hm
            · cases hm
              exact ⟨ha, le_trans h4 (min_le_right _ _)⟩
            · exact h5 k' b' hm hg'
          · intro L hL hcap
            exact h6 L (le_min hL (hcap k b (by simp) hg0))
              (fun k' b' hm => hcap k' b' (List.mem_cons_of_mem _ hm))
          · intro k' b' hm hel
            rcases List.mem_cons.1 hm with hm | hm
            · cases hm
              exact absurd hs (not_le.2 hel.2)
            · exact h7 k' b' hm hel
        · simp only [hs, if_false] at h
          split at h
          · simp at h
          · rename_i sc2 hsc2
            have hfk : Map.find? k s.buckets = some b := hb k b (by simp)
            have hqk : ∀ r q, (r, q) ∈ b.queues →
                Map.find? r (s.queuesOf (some k)) = some q := by
              intro r q hm
              simp only [State.queuesOf, bucketAt_of_find? hfk]
              exact Map.find?_of_mem (hn k b (by simp)) hm
            obtain ⟨g1, g2, g3, g4, g5, g6⟩ := scanQueues_spec hqk hp1 hsc2
            simp only at g2 g3 g4 g5
            have he2 : PickedEligible s sc2 := by
              intro k' hk'
              rcases g4 with g4 | g4
              · exact he k' (by rw [← g4]; exact hk')
              · rw [g4] at hk'
                cases hk'
                refine ⟨by simp [Map.contains, hfk], ?_⟩
                rw [bucketAt_of_find? hfk]
                exact ⟨hg0, not_le.1 hs⟩
            obtain ⟨h1, h2, h3, h4, h5, h6, h7⟩ := ih hb' hn' g1 he2 h
            rw [g2] at h4 h6
            refine ⟨h1, h2, le_trans h3 g3, le_trans h4 (min_le_left _ _), ?_, ?_, ?_⟩
            · intro k' b' hm hg'
              rcases List.mem_cons.1 hm with hm | hm
              · cases hm
                exact ⟨ha, le_trans h4 (min_le_right _ _)⟩
              · exact h5 k' b' hm hg'
            · intro L hL hcap
              exact h6 L (le_min hL (hcap k b (by simp) hg0))
                (fun k' b' hm => hcap k' b' (List.mem_cons_of_mem _ hm))
            · intro k' b' hm hel
              rcases List.mem_cons.1 hm with hm | hm
              · cases hm
                intro r c rest' hm'
                exact le_trans h3 (g6 r c rest' hm')
              · exact h7 k' b' hm hel
      · simp [ha] at h

/-- The initial values of the selection variables (lines 62-67). -/
theorem picked_init (s : State) : Picked s { min_remaining := s.defaultLimit } :=
  Or.inl ⟨rfl, rfl, rfl⟩

theorem pickedEligible_init (s : State) : PickedEligible s { min_remaining := s.defaultLimit } := by
  intro k hk
  cases hk

/-- What the two loops have computed when they end without a failed assertion, in a
state that satisfies the invariant. -/
theorem scan_spec {s : State} (hi : StInv s) {sc : Scan} (h : scan s = .ok sc) :
    Picked s sc ∧ PickedEligible s sc ∧
      sc.min_remaining ≤ s.defaultLimit ∧
      (∀ k b, (k, b) ∈ s.buckets → ownsGateway s b = false →
        toSizeT b.remaining ≥ b.transit.total ∧ sc.min_remaining ≤ capacity b) ∧
      (∀ L, L ≤ s.defaultLimit →
        (∀ k b, (k, b) ∈ s.buckets → ownsGateway s b = false → L ≤ capacity b) →
        L ≤ sc.min_remaining) ∧
      (∀ k b, (k, b) ∈ s.buckets → Eligible s b →
        ∀ r c rest, (r, c :: rest) ∈ b.queues → sc.min ≤ c.created) ∧
      (∀ r c rest, (r, c :: rest) ∈ s.queues → sc.min ≤ c.created) := by
  unfold scan at h
  split at h
  · simp at h
  · rename_i sc1 hsc1
    have hb : ∀ k b, (k, b) ∈ s.buckets → Map.find? k s.buckets = some b :=
      fun k b hm => Map.find?_of_mem hi.nodupB hm
    have hn : ∀ k b, (k, b) ∈ s.buckets → (Map.keys b.queues).Nodup := by
      intro k b hm
      have := (hi.good (some k)).1
      simpa [State.queuesOf, bucketAt_of_find? (hb k b hm)] using this
    obtain ⟨h1, h2, h3, h4, h5, h6, h7⟩ :=
      scanBuckets_spec hb hn (picked_init s) (pickedEligible_init s) hsc1
    have hq : ∀ r q, (r, q) ∈ s.queues → Map.find? r (s.queuesOf none) = some q :=
      fun r q hm => Map.find?_of_mem (hi.good none).1 hm
    obtain ⟨g1, g2, g3, g4, g5, g6⟩ := scanQueues_spec hq h1 h
    simp only at h4 h6
    refine ⟨g1, ?_, by rw [g2]; exact h4, ?_, ?_, ?_, g6⟩
    · intro k hk
      rcases g4 with g4 | g4
      · exact h2 k (by rw [← g4]; exact hk)
      · rw [g4] at hk
        cases hk
    · intro k b hm hg
      rw [g2]
      exact h5 k b hm hg
    · intro L hL hcap
      rw [g2]
      exact h6 L hL hcap
    · intro k b hm hel r c rest hm'
      exact le_trans g3 (h7 k b hm hel r c rest hm')

/-! ## `do_some_work` in terms of the selection loops -/

theorem scanBuckets_setWriting (s : State) (w : Bool) (bs : Map String Bucket) (sc : Scan) :
    scanBuckets (s.setWriting w) bs sc = scanBuckets s bs sc := by
  induction bs generalizing sc with
  | nil => rfl
  | cons x rest ih =>
    obtain ⟨k, b⟩ := x
    have hg : ownsGateway (s.setWriting w) b = ownsGateway s b := rfl
    simp only [scanBuckets, hg, ih]

theorem scan_setWriting (s : State) (w : Bool) : scan (s.setWriting w) = scan s := by
  unfold scan
  simp only [scanBuckets_setWriting, State.buckets_setWriting, State.defaultLimit_setWriting,
    State.queues_setWriting]

/-- A pass that finds the guard inactive and whose loops fail, fails. -/
theorem do_some_work_error {s : State} {e : Err} (hw : s.writing = false)
    (h : scan s = .error e) : do_some_work s = .error e := by
  unfold do_some_work
  simp [hw, scan_setWriting, h]

/-- A pass that finds the guard inactive aborts when the admission test of line 102
holds: nothing is sent and the state is the one before the pass. -/
theorem do_some_work_abort {s : State} {sc : Scan} (hw : s.writing = false)
    (h : scan s = .ok sc)
    (ha : sc.next_bucket = none ∧ (s.queues = [] ∨ toSizeT sc.min_remaining ≤ s.transit.total)) :
    do_some_work s = .ok (s, none) := by
  unfold do_some_work
  simp only [hw, Bool.false_eq_true, if_false, scan_setWriting, h, State.queues_setWriting,
    State.transit_setWriting, ha, true_or, and_self, if_true, State.setWriting_setWriting]
  have : s.setWriting false = s := by
    rw [← hw]
    rfl
  simp [ha.2, this]

/-- A pass that finds the guard inactive and does not abort dequeues the head of the
selected queue and hands it to the transport. -/
theorem do_some_work_send {s : State} (hi : StInv s) {sc : Scan} (hw : s.writing = false)
    (h : scan s = .ok sc)
    (ha : ¬ (sc.next_bucket = none ∧
      (s.queues = [] ∨ toSizeT sc.min_remaining ≤ s.transit.total))) :
    ∃ c rest, Map.find? sc.next_route (s.queuesOf sc.next_bucket) = some (c :: rest) ∧
      c.created = sc.min ∧
      do_some_work s = .ok ((s.setWriting true).setQueues sc.next_bucket
        (if rest = [] then Map.erase sc.next_route (s.queuesOf sc.next_bucket)
         else Map.put sc.next_route rest (s.queuesOf sc.next_bucket)),
        some { route := sc.next_route, call := c }) := by
  obtain ⟨hp, _, _, _, _, _, hu⟩ := scan_spec hi h
  rcases hp with ⟨hmin, hnb, _⟩ | ⟨_, hnq, c, rest, hf, hc⟩
  · -- nothing selected: then the uncategorized queues are empty and the pass aborts
    exfalso
    apply ha
    refine ⟨hnb, Or.inl ?_⟩
    cases hq : s.queues with
    | nil => rfl
    | cons x xs =>
      obtain ⟨r, q⟩ := x
      have hm : (r, q) ∈ s.queues := by simp [hq]
      have hfq : Map.find? r (s.queuesOf none) = some q :=
        Map.find?_of_mem (hi.good none).1 hm
      have hg := (hi.good none).2 r q hfq
      cases q with
      | nil => exact absurd rfl hg.1
      | cons c q =>
        have h1 := hu r c q hm
        have h2 := (hg.2.2 c (by simp)).2
        rw [hmin] at h1
        exact absurd h2 (not_lt.2 h1)
  · refine ⟨c, rest, hf, hc, ?_⟩
    unfold do_some_work
    simp only [hw, Bool.false_eq_true, if_false, scan_setWriting, h, State.queues_setWriting,
      State.transit_setWriting, ha, hnq, State.queuesOf_setWriting, hf]

/-- Every outcome of a pass that finds the guard inactive, in a state that satisfies the
invariant: a failed assertion of the loops, an abort, or a dispatch. A null or dangling
pointer is never used. -/
theorem do_some_work_cases {s : State} (hi : StInv s) (hw : s.writing = false) :
    (∃ e, scan s = .error e ∧ do_some_work s = .error e) ∨
    (∃ sc, scan s = .ok sc ∧
      (sc.next_bucket = none ∧ (s.queues = [] ∨ toSizeT sc.min_remaining ≤ s.transit.total)) ∧
      do_some_work s = .ok (s, none)) ∨
    (∃ sc c rest, scan s = .ok sc ∧
      ¬ (sc.next_bucket = none ∧
        (s.queues = [] ∨ toSizeT sc.min_remaining ≤ s.transit.total)) ∧
      Map.find? sc.next_route (s.queuesOf sc.next_bucket) = some (c :: rest) ∧
      c.created = sc.min ∧
      do_some_work s = .ok ((s.setWriting true).setQueues sc.next_bucket
        (if rest = [] then Map.erase sc.next_route (s.queuesOf sc.next_bucket)
         else Map.put sc.next_route rest (s.queuesOf sc.next_bucket)),
        some { route := sc.next_route, call := c })) := by
  cases h : scan s with
  | error e => exact Or.inl ⟨e, rfl, do_some_work_error hw h⟩
  | ok sc =>
    by_cases ha : sc.next_bucket = none ∧
        (s.queues = [] ∨ toSizeT sc.min_remaining ≤ s.transit.total)
    · exact Or.inr (Or.inl ⟨sc, rfl, ha, do_some_work_abort hw h ha⟩)
    · obtain ⟨c, rest, hf, hc, hd⟩ := do_some_work_send hi hw h ha
      exact Or.inr (Or.inr ⟨sc, c, rest, rfl, ha, hf, hc, hd⟩)

/-- The loops fail only on a failed assertion, and then the asserted fact is false. -/
theorem scan_error {s : State} {e : Err} (h : scan s = .error e) :
    (e = .assertRemaining ∧ ∃ k b, (k, b) ∈ s.buckets ∧ ownsGateway s b = false ∧
        ¬ toSizeT b.remaining ≥ b.transit.total) ∨
    (e = .assertBucketQueue ∧ ∃ k b, (k, b) ∈ s.buckets ∧ ∃ r, (r, []) ∈ b.queues) ∨
    (e = .assertGlobalQueue ∧ ∃ r, (r, []) ∈ s.queues) := by
  unfold scan at h
  split at h
  · rename_i e0 he0
    simp only [Except.error.injEq] at h
    subst h
    rcases scanBuckets_error he0 with h1 | h1
    · exact Or.inl h1
    · exact Or.inr (Or.inl h1)
  · exact Or.inr (Or.inr (scanQueues_error h))

theorem no_empty_queue {s : State} (hi : StInv s) {r : route_t} (h : (r, []) ∈ s.queues) :
    False :=
  ((hi.good none).2 r [] (Map.find?_of_mem (hi.good none).1 h)).1 rfl

theorem no_empty_bucket_queue {s : State} (hi : StInv s) {k : String} {b : Bucket}
    {r : route_t} (hm : (k, b) ∈ s.buckets) (h : (r, []) ∈ b.queues) : False := by
  have hb := bucketAt_of_find? (Map.find?_of_mem hi.nodupB hm)
  have hg := hi.good (some k)
  simp only [State.queuesOf, hb] at hg
  exact (hg.2 r [] (Map.find?_of_mem hg.1 h)).1 rfl

/-! ## The mixed `int` / `size_t` arithmetic of the pass -/

theorem toSizeT_of_nonneg {i : Int} (h0 : 0 ≤ i) (h1 : IsInt32 i) : (toSizeT i : Int) = i := by
  unfold toSizeT
  unfold IsInt32 at h1
  omega

theorem capacity_exact {b : Bucket} (h0 : 0 ≤ b.remaining) (h1 : IsInt32 b.remaining)
    (ha : toSizeT b.remaining ≥ b.transit.total) :
    capacity b = b.remaining - b.transit.total := by
  have h2 := toSizeT_of_nonneg h0 h1
  unfold capacity toInt32 subSizeT
  unfold IsInt32 at h1
  generalize toSizeT b.remaining = n at *
  generalize b.transit.total = t at *
  split <;> omega

theorem toSizeT_zero_le (n : Nat) : toSizeT 0 ≤ n := by
  unfold toSizeT
  simp

/-! ## The member `remaining` of a bucket through the operations -/

theorem remaining_setQueues (s : State) (sc : Scope) (qs : QueueByRoute) (k : String) :
    ((s.setQueues sc qs).bucketAt k).remaining = (s.bucketAt k).remaining := by
  rw [State.bucketAt_setQueues]
  split <;> rfl

theorem remaining_setTransit (s : State) (sc : Scope) (t : CountedSet) (k : String) :
    ((s.setTransit sc t).bucketAt k).remaining = (s.bucketAt k).remaining := by
  rw [State.bucketAt_setTransit]
  split <;> rfl

theorem remaining_emplaceBucket (s : State) (id k : String) :
    ((s.emplaceBucket id).bucketAt k).remaining = (s.bucketAt k).remaining := by
  unfold State.emplaceBucket
  by_cases hc : Map.contains id s.buckets = true
  · simp [hc]
  · simp only [hc, Bool.false_eq_true, if_false, State.bucketAt_setBucket]
    by_cases e : k = id
    · subst e
      rw [State.bucketAt_of_not_contains s k (by simpa using hc)]
      simp [Bucket.fresh]
    · simp [e]

theorem remaining_migrate (s : State) (old : Scope) (new_id : String) (r : route_t)
    (k : String) :
    ((migrate s old new_id r).bucketAt k).remaining = (s.bucketAt k).remaining := by
  unfold migrate migrateTransit
  rw [remaining_setTransit, remaining_setTransit]
  unfold migrateQueue
  split
  · rw [remaining_emplaceBucket]
    rfl
  · simp only
    split
    · rw [remaining_setQueues, remaining_emplaceBucket]
      rfl
    · rw [remaining_setQueues, remaining_setQueues, remaining_emplaceBucket]
      rfl

theorem remaining_call (s : State) (c : Call) (k : String) :
    ((call s c).bucketAt k).remaining = (s.bucketAt k).remaining := by
  unfold call
  exact remaining_setQueues _ _ _ _

theorem remaining_onWrite (s : State) (r : route_t) (k : String) :
    ((onWrite s r).bucketAt k).remaining = (s.bucketAt k).remaining := by
  unfold onWrite
  rw [State.bucketAt_setWriting]
  exact remaining_setTransit _ _ _ _

theorem remaining_refresh (s : State) (id : String) (msg : Reply) (k : String) :
    ((refresh s id msg).bucketAt k).remaining =
      if k = id then min (s.bucketAt k).remaining msg.remaining
      else (s.bucketAt k).remaining := by
  unfold refresh
  simp only [State.bucketAt_setBucket]
  by_cases e : k = id
  · subst e
    simp
  · simp [e]

theorem remaining_onRead {s s' : State} (hi : StInv s) (r : route_t) (msg : Reply)
    (ho : onRead s r msg = .ok s') (k : String) :
    (s'.bucketAt k).remaining =
      if k = msg.bucket then min (s.bucketAt k).remaining msg.remaining
      else (s.bucketAt k).remaining := by
  rw [onRead_eq hi] at ho
  cases ht : (s.transitOf (s.scopeOf r)).erase r 1 with
  | error e => simp [ht] at ho
  | ok t =>
    simp only [ht, Except.ok.injEq] at ho
    rw [← ho, remaining_refresh]
    by_cases e : s.scopeOf r = some msg.bucket
    · simp only [e, if_true, remaining_setTransit]
    · simp only [e, if_false, remaining_migrate, remaining_setTransit]

theorem remaining_do_some_work {s s' : State} {out : Option Dispatch}
    (h : do_some_work s = .ok (s', out)) (k : String) :
    (s'.bucketAt k).remaining = (s.bucketAt k).remaining := by
  cases out with
  | none => rw [do_some_work_none h]
  | some d =>
    obtain ⟨_, scope, rest, _, hs⟩ := do_some_work_some h
    rw [hs, remaining_setQueues]
    rfl

/-- A pass takes nothing from the queues of a bucket whose `remaining` is 0. -/
theorem do_some_work_exhausted {s s' : State} {out : Option Dispatch} (hi : StInv s)
    (k : String) (h0 : (s.bucketAt k).remaining = 0)
    (h : do_some_work s = .ok (s', out)) : s'.queuesOf (some k) = s.queuesOf (some k) := by
  cases out with
  | none => rw [do_some_work_none h]
  | some d =>
    have hw := (do_some_work_some h).1
    rcases do_some_work_cases hi hw with ⟨e, _, he⟩ | ⟨sc, _, _, he⟩ |
      ⟨sc, c, rest, hs, _, _, _, he⟩
    · rw [he] at h
      cases h
    · rw [he] at h
      cases h
    · rw [he] at h
      simp only [Except.ok.injEq, Prod.mk.injEq] at h
      rw [← h.1, State.queuesOf_setQueues]
      have hne : ¬ some k = sc.next_bucket := by
        intro e
        have := ((scan_spec hi hs).2.1 k e.symm).2.2
        rw [h0] at this
        have h1 := toSizeT_zero_le (s.bucketAt k).transit.total
        omega
      simp [hne]

theorem remaining_step {y y' : Sys} (hi : Inv y) (e : Event) (k : String)
    (hs : step y e = some y') (he : e ≠ .expiry k false)
    (h0 : (y.st.bucketAt k).remaining = 0) : (y'.st.bucketAt k).remaining = 0 := by
  cases e with
  | submit c =>
    simp only [step] at hs
    split at hs
    · simp only [Option.some.injEq] at hs
      subst hs
      simpa [remaining_call] using h0
    · simp at hs
  | pass =>
    simp only [step] at hs
    split at hs
    · simp at hs
    · rename_i s hw
      simp only [Option.some.injEq] at hs
      subst hs
      simpa [remaining_do_some_work hw] using h0
    · rename_i s d hw
      simp only [Option.some.injEq] at hs
      subst hs
      simpa [remaining_do_some_work hw] using h0
  | write d =>
    simp only [step] at hs
    split at hs
    · simp only [Option.some.injEq] at hs
      subst hs
      simpa [remaining_onWrite] using h0
    · simp at hs
  | read d msg =>
    simp only [step] at hs
    split at hs
    · rename_i hc
      split at hs
      · simp at hs
      · rename_i s ho
        simp only [Option.some.injEq] at hs
        subst hs
        simp only [remaining_onRead hi.st d.route msg ho, h0]
        have := hc.2.1
        split
        · exact min_eq_left this
        · rfl
    · simp at hs
  | expiry owner failed =>
    simp only [step] at hs
    split at hs
    · simp at hs
    · split at hs
      · simp only [Option.some.injEq] at hs
        subst hs
        unfold onTimer
        by_cases hf : failed = true
        · simpa [hf] using h0
        · have hf' : failed = false := by simpa using hf
          subst hf'
          have hne : ¬ k = owner := by
            intro e
            subst e
            exact he rfl
          simpa [State.bucketAt_setBucket, hne] using h0
      · simp at hs

theorem remaining_run {y y' : Sys} (es : List Event) (k : String) (hi : Inv y)
    (he : Event.expiry k false ∉ es) (hr : run y es = some y')
    (h0 : (y.st.bucketAt k).remaining = 0) :
    Inv y' ∧ (y'.st.bucketAt k).remaining = 0 := by
  induction es generalizing y with
  | nil =>
    simp only [run, Option.some.injEq] at hr
    subst hr
    exact ⟨hi, h0⟩
  | cons e es ih =>
    simp only [run] at hr
    cases hs : step y e with
    | none => simp [hs] at hr
    | some y1 =>
      simp only [hs] at hr
      have he1 : e ≠ .expiry k false := fun h => he (by simp [h])
      have he2 : Event.expiry k false ∉ es := fun h => he (List.mem_cons_of_mem _ h)
      exact ih (inv_step hi e hs) he2 hr (remaining_step hi e k hs he1 h0)

/-! ## Reachability of the example states -/

theorem reachable_twoInFlight : Reachable twoInFlight :=
  ⟨5, 99, twoWritten, by decide, by rfl⟩

theorem reachable_firstReplied : Reachable firstReplied :=
  ⟨5, 99, twoWritten ++ [.read ⟨7, callA⟩ replyX], by decide, by rfl⟩

theorem reachable_exhaustedAndPending : Reachable (exhaustedAndPending 5) :=
  ⟨5, 99, oneRepliedOnePending, by decide, by rfl⟩

theorem reachable_exhaustedAndPending_neg : Reachable (exhaustedAndPending (-1)) :=
  ⟨-1, 99, oneRepliedOnePending, by decide, by rfl⟩

theorem reachable_oneInFlightOneQueued : Reachable oneInFlightOneQueued :=
  ⟨1, 99, [.submit callA, .submit callB, .pass, .write ⟨7, callA⟩, .pass], by decide, by rfl⟩

theorem reachable_gatewayExhausted : Reachable gatewayExhausted :=
  ⟨5, 99, [.submit callG, .pass, .write ⟨99, callG⟩, .read ⟨99, callG⟩ replyG, .submit callC],
    by decide, by rfl⟩

/-! ## The claims -/

/-- C1, at the failing input. After two calls on one route were written, a reply to the
first names bucket `X` with `remaining = 0` while the second is still in flight: the
state is reachable, bucket `X` has `remaining = 0` below its in-flight total `1`, and the
next pass stops on the assertion of line 70. -/
theorem C1_remaining_below_in_flight :
    Reachable firstReplied ∧
      (firstReplied.st.bucketAt "X").remaining = 0 ∧
      (firstReplied.st.bucketAt "X").transit.total = 1 ∧
      do_some_work firstReplied.st = .error .assertRemaining :=
  ⟨reachable_firstReplied, by rfl, by rfl, by rfl⟩

/-- C2. In every reachable state the calls held in the queues (all scopes together)
and the calls handed to the transport are, together, exactly the calls submitted, and no
call occurs twice among them: nothing is lost, duplicated or queued again. -/
theorem C2_no_call_lost_or_duplicated (y : Sys) (h : Reachable y) :
    List.Perm (y.st.allQueued ++ y.sent) y.submitted ∧
      y.submitted.Nodup ∧ (y.st.allQueued ++ y.sent).Nodup := by
  have hi := inv_of_reachable h
  exact ⟨hi.perm, hi.nodupSub, (List.Perm.nodup_iff hi.perm).2 hi.nodupSub⟩

/-- Witness of C2 on the state with one call answered and one call queued. -/
theorem C2_witness :
    Reachable (exhaustedAndPending 5) ∧
      List.Perm ((exhaustedAndPending 5).st.allQueued ++ (exhaustedAndPending 5).sent)
        (exhaustedAndPending 5).submitted ∧
      (exhaustedAndPending 5).submitted.Nodup ∧
      ((exhaustedAndPending 5).st.allQueued ++ (exhaustedAndPending 5).sent).Nodup :=
  ⟨reachable_exhaustedAndPending,
    C2_no_call_lost_or_duplicated _ reachable_exhaustedAndPending⟩

/-- C4. In every reachable state, if `a` was submitted before `b`, both have the same route
key and `b` has been handed to the transport, then `a` was handed to the transport before
`b` (whatever migrations the route went through). -/
theorem C4_fifo_per_route (y : Sys) (h : Reachable y) (a b : Call)
    (hr : a.route = b.route) (hab : Before a b y.submitted) (hb : b ∈ y.sent) :
    Before a b y.sent := by
  have hi := inv_of_reachable h
  have hf := hi.fifo b.route
  have hn : (onRoute b.route y.sent ++ y.st.queueOf b.route).Nodup := by
    rw [hf]
    exact hi.nodupSub.filter _
  have h1 : Before a b (onRoute b.route y.sent ++ y.st.queueOf b.route) := by
    rw [hf]
    exact before_filter _ hab (by simp [hr]) (by simp)
  have h2 : b ∈ onRoute b.route y.sent := List.mem_filter.2 ⟨hb, by simp⟩
  exact before_of_filter _ (before_initial hn h1 h2)

/-- Witness of C4: `callA` and `callB` share route 7 and were submitted and sent in
that order. -/
theorem C4_witness :
    Reachable twoInFlight ∧ callA.route = callB.route ∧
      Before callA callB twoInFlight.submitted ∧ callB ∈ twoInFlight.sent ∧
      Before callA callB twoInFlight.sent :=
  have hab : Before callA callB twoInFlight.submitted := ⟨[], [callB], rfl, by simp⟩
  have hb : callB ∈ twoInFlight.sent := by decide
  ⟨reachable_twoInFlight, rfl, hab, hb,
    C4_fifo_per_route twoInFlight reachable_twoInFlight callA callB rfl hab hb⟩

/-- The erase at the start of a read continuation succeeds when the route has a call in
flight in its scope. -/
theorem erase_ok_of_count (t : CountedSet) (r : route_t) (h : 1 ≤ t.count r) :
    ∃ t', t.erase r 1 = .ok t' := by
  unfold CountedSet.count at h
  unfold CountedSet.erase
  cases hf : Map.find? r t.map with
  | none => simp [hf] at h
  | some n =>
    simp only [hf] at h
    have : ¬ 1 > n := by omega
    simp only [one_ne_zero, if_false, this]
    split <;> exact ⟨_, rfl⟩

/-- C5. In a reachable state where route `r` is uncategorized and has a call in flight,
the read continuation for `r` with a reply naming bucket `X` runs to its end, and then
(i) `route_to_bucket` sends `r` to `X`, (ii) the uncategorized queue map has no entry
for `r`, (iii) the entry of `r` in the queue map of `X` is the entry `r` had in the
uncategorized queue map (same calls, same order), and (iv) a call for `r` submitted next
is appended to that queue of `X` while the uncategorized queue map stays as it is. -/
theorem C5_queue_migration (y : Sys) (h : Reachable y) (r : route_t) (msg : Reply)
    (hr : y.st.scopeOf r = none) (hin : 1 ≤ y.st.transit.count r) :
    ∃ s', onRead y.st r msg = .ok s' ∧
      Map.find? r s'.route_to_bucket = some msg.bucket ∧
      Map.find? r s'.queues = none ∧
      Map.find? r (s'.queuesOf (some msg.bucket)) = Map.find? r y.st.queues ∧
      ∀ c : Call, c.route = r →
        (call s' c).queues = s'.queues ∧
        Map.find? r ((call s' c).queuesOf (some msg.bucket)) =
          some ((Map.find? r y.st.queues).getD [] ++ [c]) := by
  have hi := (inv_of_reachable h).st
  obtain ⟨t, ht⟩ := erase_ok_of_count y.st.transit r hin
  have ht' : (y.st.transitOf (y.st.scopeOf r)).erase r 1 = .ok t := by
    rw [hr]
    exact ht
  have h1 : StInv (y.st.setTransit none t) := stInv_setTransit hi _ _ (by simp)
  have hs1 : (y.st.setTransit none t).scopeOf r = none := by
    simpa [State.scopeOf] using hr
  have hne : (y.st.setTransit none t).scopeOf r ≠ some msg.bucket := by simp [hs1]
  have hnew := migrate_target_free h1 msg.bucket r hne
  have hq := queuesOf_migrate (y.st.setTransit none t) none msg.bucket r (by simp) hnew
  have hq1 : ∀ sc, (y.st.setTransit none t).queuesOf sc = y.st.queuesOf sc :=
    fun sc => State.queuesOf_setTransit _ _ _ _
  refine ⟨refresh (migrate (y.st.setTransit none t) none msg.bucket r) msg.bucket msg,
    ?_, ?_, ?_, ?_, ?_⟩
  · rw [onRead_eq hi, ht']
    simp only [hr, reduceCtorEq, if_false]
  · simp [Map.find?_put]
  · have := hq none
    simp only [reduceCtorEq, if_false, if_true] at this
    have h2 : ∀ s2 : State, s2.queues = s2.queuesOf none := fun _ => rfl
    rw [queues_refresh, h2, this, Map.find?_erase]
    simp
  · have := hq (some msg.bucket)
    simp only [if_true, hq1] at this
    rw [queuesOf_refresh, this]
    simp only [hq1] at hnew
    cases hf : Map.find? r (y.st.queuesOf none) with
    | none =>
      simp only [State.queuesOf] at hf hnew ⊢
      simp [hf, hnew]
    | some q =>
      simp only [State.queuesOf] at hf ⊢
      simp [hf, Map.find?_put]
  · intro c hc
    subst hc
    have h3 := hq (some msg.bucket)
    simp only [if_true, hq1] at h3
    simp only [hq1] at hnew
    have hsc : (refresh (migrate (y.st.setTransit none t) none msg.bucket c.route) msg.bucket
        msg).scopeOf c.route = some msg.bucket := by
      simp [State.scopeOf, Map.find?_put]
    unfold call
    simp only [hsc, State.queuesOf_setQueues, if_true, queuesOf_refresh, h3]
    constructor
    · rfl
    · cases hf : Map.find? c.route (y.st.queuesOf none) with
      | none =>
        simp only [State.queuesOf] at hf hnew ⊢
        simp [hf, hnew, Map.find?_put]
      | some q =>
        simp only [State.queuesOf] at hf ⊢
        simp [hf, Map.find?_put]

/-- Witness of C5: with `callA` in flight and `callB` queued on the uncategorized route 7,
the reply `replyX` moves the queue `[callB]` to bucket `X`. -/
theorem C5_witness :
    oneInFlightOneQueued.st.scopeOf 7 = none ∧ 1 ≤ oneInFlightOneQueued.st.transit.count 7 ∧
    ∃ s', onRead oneInFlightOneQueued.st 7 replyX = .ok s' ∧
      Map.find? 7 s'.route_to_bucket = some replyX.bucket ∧
      Map.find? 7 s'.queues = none ∧
      Map.find? 7 (s'.queuesOf (some replyX.bucket)) =
        Map.find? 7 oneInFlightOneQueued.st.queues ∧
      ∀ c : Call, c.route = 7 →
        (call s' c).queues = s'.queues ∧
        Map.find? 7 ((call s' c).queuesOf (some replyX.bucket)) =
          some ((Map.find? 7 oneInFlightOneQueued.st.queues).getD [] ++ [c]) :=
  ⟨rfl, by decide,
    C5_queue_migration oneInFlightOneQueued reachable_oneInFlightOneQueued 7 replyX rfl
      (by decide)⟩

/-- C6, at the failing input. Route 7 is uncategorized with `k = 2` calls in flight; after
the read continuation with a reply naming bucket `X`, the uncategorized count of the
route is 0 but the uncategorized in-flight total went from 2 to 1 only (not to 0), while
the count and the total of `X` are 1: the sum of the totals is still 2, the call in
flight is counted in both totals. -/
theorem C6_total_left_behind :
    Reachable twoInFlight ∧ twoInFlight.st.scopeOf 7 = none ∧
      twoInFlight.st.transit.count 7 = 2 ∧ twoInFlight.st.transit.total = 2 ∧
      onRead twoInFlight.st 7 replyX = .ok firstReplied.st ∧
      firstReplied.st.transit.count 7 = 0 ∧ firstReplied.st.transit.total = 1 ∧
      (firstReplied.st.bucketAt "X").transit.count 7 = 1 ∧
      (firstReplied.st.bucketAt "X").transit.total = 1 :=
  ⟨reachable_twoInFlight, rfl, rfl, rfl, rfl, rfl, rfl, rfl, rfl⟩

/-- The outcome of a pass that dispatches: the call is the head of a queue of the scope
the loops selected, and only the queue map of that scope changes. -/
theorem do_some_work_some_scope {s s' : State} {d : Dispatch} (hi : StInv s)
    (h : do_some_work s = .ok (s', some d)) :
    ∃ sc rest, scan s = .ok sc ∧ PickedEligible s sc ∧
      ¬ (sc.next_bucket = none ∧
        (s.queues = [] ∨ toSizeT sc.min_remaining ≤ s.transit.total)) ∧
      Map.find? d.route (s.queuesOf sc.next_bucket) = some (d.call :: rest) ∧
      s' = (s.setWriting true).setQueues sc.next_bucket
        (if rest = [] then Map.erase d.route (s.queuesOf sc.next_bucket)
         else Map.put d.route rest (s.queuesOf sc.next_bucket)) := by
  have hw := (do_some_work_some h).1
  rcases do_some_work_cases hi hw with ⟨e, _, he⟩ | ⟨sc, _, _, he⟩ | ⟨sc, c, rest, hs, ha, hf, _, he⟩
  · rw [he] at h
    cases h
  · rw [he] at h
    cases h
  · rw [he] at h
    simp only [Except.ok.injEq, Prod.mk.injEq, Option.some.injEq] at h
    obtain ⟨h1, h2⟩ := h
    subst h2
    exact ⟨sc, rest, hs, (scan_spec hi hs).2.1, ha, hf, h1.symm⟩

/-- C3, at the counterexample. With `defaultLimit = -1` the state is reachable, the guard
is inactive, bucket `X` does not own the gateway route and has `remaining = 0` with
nothing in flight, and the pass takes `callC` from the uncategorized queues and hands it
to the transport: the test `min_remaining <= transit.total()` compares `-1`, converted
to `size_t`, with 0. -/
theorem C3_counterexample_negative_default :
    Reachable (exhaustedAndPending (-1)) ∧
      (exhaustedAndPending (-1)).st.writing = false ∧
      ownsGateway (exhaustedAndPending (-1)).st ((exhaustedAndPending (-1)).st.bucketAt "X")
        = false ∧
      ((exhaustedAndPending (-1)).st.bucketAt "X").remaining = 0 ∧
      ((exhaustedAndPending (-1)).st.bucketAt "X").transit.total = 0 ∧
      (exhaustedAndPending (-1)).st.queues = [(8, [callC])] ∧
      do_some_work (exhaustedAndPending (-1)).st =
        .ok (((exhaustedAndPending (-1)).st.setWriting true).setQueues none [],
          some { route := 8, call := callC }) :=
  ⟨reachable_exhaustedAndPending_neg, rfl, rfl, rfl, rfl, rfl, rfl⟩

/-- C3, amended. In a reachable state with the guard inactive, a `defaultLimit` that is
not negative, no bucket outside the gateway one with a negative `remaining`, and some
bucket not owning the gateway route whose `remaining` equals its in-flight total: a
pass never takes a call from the uncategorized queues (they are unchanged, and a
dispatched call was the head of a queue of a bucket), a pass that sends nothing leaves the
whole state as it was, and when the loops select no bucket the pass returns having sent
nothing, with the state (guard included) unchanged. -/
theorem C3_conservative_admission (y : Sys) (h : Reachable y) (hw : y.st.writing = false)
    (hdl : 0 ≤ y.st.defaultLimit)
    (hrem : ∀ k b, (k, b) ∈ y.st.buckets → ownsGateway y.st b = false → 0 ≤ b.remaining)
    (hex : ∃ k b, (k, b) ∈ y.st.buckets ∧ ownsGateway y.st b = false ∧
      b.remaining = b.transit.total) :
    (∀ s' out, do_some_work y.st = .ok (s', out) →
      s'.queues = y.st.queues ∧ (out = none → s' = y.st) ∧
      ∀ d, out = some d → ∃ k rest,
        Map.find? d.route (y.st.queuesOf (some k)) = some (d.call :: rest)) ∧
    (∀ sc, scan y.st = .ok sc → sc.next_bucket = none →
      do_some_work y.st = .ok (y.st, none)) := by
  have hi := (inv_of_reachable h).st
  -- whenever the loops end, `min_remaining` is 0
  have hmr : ∀ sc, scan y.st = .ok sc → sc.min_remaining = 0 := by
    intro sc hs
    obtain ⟨_, _, _, h5, h6, _, _⟩ := scan_spec hi hs
    have hint : ∀ k b, (k, b) ∈ y.st.buckets → IsInt32 b.remaining := by
      intro k b hm
      have := (hi.int32.2 k).1
      rwa [bucketAt_of_find? (Map.find?_of_mem hi.nodupB hm)] at this
    have hcap : ∀ k b, (k, b) ∈ y.st.buckets → ownsGateway y.st b = false →
        capacity b = b.remaining - b.transit.total :=
      fun k b hm hg => capacity_exact (hrem k b hm hg) (hint k b hm) (h5 k b hm hg).1
    obtain ⟨k, b, hm, hg, hb⟩ := hex
    have hle : sc.min_remaining ≤ 0 := by
      have := (h5 k b hm hg).2
      rw [hcap k b hm hg, hb] at this
      simpa using this
    have hge : 0 ≤ sc.min_remaining := by
      refine h6 0 hdl ?_
      intro k' b' hm' hg'
      rw [hcap k' b' hm' hg']
      have h1 := (h5 k' b' hm' hg').1
      have h2 := toSizeT_of_nonneg (hrem k' b' hm' hg') (hint k' b' hm')
      omega
    omega
  constructor
  · intro s' out hd
    cases out with
    | none =>
      have := do_some_work_none hd
      subst this
      exact ⟨rfl, fun _ => rfl, by simp⟩
    | some d =>
      obtain ⟨sc, rest, hs, _, ha, hf, hs'⟩ := do_some_work_some_scope hi hd
      have h0 := hmr sc hs
      cases hnb : sc.next_bucket with
      | none =>
        exfalso
        apply ha
        refine ⟨hnb, Or.inr ?_⟩
        rw [h0]
        exact toSizeT_zero_le _
      | some k =>
        rw [hnb] at hf hs'
        refine ⟨by rw [hs']; rfl, by simp, ?_⟩
        intro d' hd'
        cases hd'
        exact ⟨k, rest, hf⟩
  · intro sc hs hnb
    refine do_some_work_abort hw hs ⟨hnb, Or.inr ?_⟩
    rw [hmr sc hs]
    exact toSizeT_zero_le _

/-- Witness of C3: with `defaultLimit = 5`, bucket `X` exhausted and `callC` waiting in the
uncategorized queues, the pass sends nothing and leaves the state as it was. -/
theorem C3_witness :
    (exhaustedAndPending 5).st.writing = false ∧ 0 ≤ (exhaustedAndPending 5).st.defaultLimit ∧
      do_some_work (exhaustedAndPending 5).st = .ok ((exhaustedAndPending 5).st, none) :=
  ⟨rfl, by decide,
    (C3_conservative_admission (exhaustedAndPending 5) reachable_exhaustedAndPending rfl
      (by decide)
      (by
        intro k b hm _
        simp only [exhaustedAndPending, List.mem_singleton, Prod.mk.injEq] at hm
        rw [hm.2])
      ⟨"X", _, List.mem_singleton.2 rfl, rfl, rfl⟩).2
      { next_queues := some none, next_route := 8, min_remaining := 0, min := 102 } rfl rfl⟩

/-- C7. In a reachable state with the guard inactive, a call queued in the
uncategorized scope, a `defaultLimit` above the uncategorized in-flight total, and
`remaining - in-flight total` above the uncategorized in-flight total for every bucket
that does not own the gateway route, a pass hands a call to the transport, whatever
`remaining` and the in-flight counts of the bucket owning the gateway route are. -/
theorem C7_gateway_reservation (y : Sys) (h : Reachable y) (hw : y.st.writing = false)
    (hq : y.st.queues ≠ [])
    (hdl : (y.st.transit.total : Int) < y.st.defaultLimit)
    (hb : ∀ k b, (k, b) ∈ y.st.buckets → ownsGateway y.st b = false →
      (y.st.transit.total : Int) < b.remaining - b.transit.total) :
    ∃ s' d, do_some_work y.st = .ok (s', some d) := by
  have hi := (inv_of_reachable h).st
  have hint : ∀ k b, (k, b) ∈ y.st.buckets → IsInt32 b.remaining := by
    intro k b hm
    have := (hi.int32.2 k).1
    rwa [bucketAt_of_find? (Map.find?_of_mem hi.nodupB hm)] at this
  have hassert : ∀ k b, (k, b) ∈ y.st.buckets → ownsGateway y.st b = false →
      0 ≤ b.remaining ∧ toSizeT b.remaining ≥ b.transit.total := by
    intro k b hm hg
    have h1 := hb k b hm hg
    have h0 : 0 ≤ b.remaining := by omega
    have h2 := toSizeT_of_nonneg h0 (hint k b hm)
    exact ⟨h0, by omega⟩
  cases hs : scan y.st with
  | error e =>
    exfalso
    rcases scan_error hs with ⟨_, k, b, hm, hg, hn⟩ | ⟨_, k, b, hm, r, hr⟩ | ⟨_, r, hr⟩
    · exact hn (hassert k b hm hg).2
    · exact no_empty_bucket_queue hi hm hr
    · exact no_empty_queue hi hr
  | ok sc =>
    obtain ⟨_, _, _, _, h6, _, _⟩ := scan_spec hi hs
    have hge : (y.st.transit.total : Int) + 1 ≤ sc.min_remaining := by
      refine h6 _ (by omega) ?_
      intro k b hm hg
      rw [capacity_exact (hassert k b hm hg).1 (hint k b hm) (hassert k b hm hg).2]
      have := hb k b hm hg
      omega
    have hle : sc.min_remaining ≤ y.st.defaultLimit := (scan_spec hi hs).2.2.1
    have h32 : IsInt32 sc.min_remaining := by
      have := hi.int32.1
      unfold IsInt32 at *
      omega
    have hna : ¬ (sc.next_bucket = none ∧
        (y.st.queues = [] ∨ toSizeT sc.min_remaining ≤ y.st.transit.total)) := by
      rintro ⟨_, h1 | h1⟩
      · exact hq h1
      · have := toSizeT_of_nonneg (by omega) h32
        omega
    obtain ⟨c, rest, _, _, hd⟩ := do_some_work_send hi hw hs hna
    exact ⟨_, _, hd⟩

/-- Witness of C7: the bucket `G` owning the gateway route is exhausted, and the pass
hands the uncategorized `callC` to the transport. -/
theorem C7_witness :
    gatewayExhausted.st.writing = false ∧ gatewayExhausted.st.queues ≠ [] ∧
      (gatewayExhausted.st.bucketAt "G").remaining = 0 ∧
      ownsGateway gatewayExhausted.st (gatewayExhausted.st.bucketAt "G") = true ∧
      ∃ s' d, do_some_work gatewayExhausted.st = .ok (s', some d) :=
  ⟨rfl, by decide, rfl, rfl,
    C7_gateway_reservation gatewayExhausted reachable_gatewayExhausted rfl (by decide)
      (by decide)
      (by
        intro k b hm hg
        simp only [gatewayExhausted, List.mem_singleton, Prod.mk.injEq] at hm
        rw [hm.2] at hg
        cases hg)⟩

/-- C8. From a reachable state in which the bucket stored under `k` has `remaining = 0`,
along every run of tasks that contains no un-cancelled expiry of the timer of that
bucket: `remaining` of the bucket is still 0, a pass leaves the queue map of the bucket
as it is (no call of the bucket is dispatched), an un-cancelled expiry of the timer sets
`remaining` to `limit`, and an expiry reported as cancelled changes nothing. -/
theorem C8_reset_window (y : Sys) (h : Reachable y) (k : String)
    (h0 : (y.st.bucketAt k).remaining = 0) (es : List Event) (y' : Sys)
    (he : Event.expiry k false ∉ es) (hr : run y es = some y') :
    (y'.st.bucketAt k).remaining = 0 ∧
      (∀ s'' out, do_some_work y'.st = .ok (s'', out) →
        s''.queuesOf (some k) = y'.st.queuesOf (some k)) ∧
      ((onTimer y'.st k false).bucketAt k).remaining = (y'.st.bucketAt k).limit ∧
      onTimer y'.st k true = y'.st := by
  obtain ⟨hi, h1⟩ := remaining_run es k (inv_of_reachable h) he hr h0
  refine ⟨h1, ?_, ?_, rfl⟩
  · intro s'' out hd
    exact do_some_work_exhausted hi.st k h1 hd
  · simp [onTimer]

/-- Witness of C8: bucket `X` is exhausted; a pass, a submission on its route 7 and a
cancelled expiry later, `remaining` is still 0. -/
theorem C8_witness :
    ((exhaustedAndPending 5).st.bucketAt "X").remaining = 0 ∧
      (∃ y', run (exhaustedAndPending 5) [.pass, .submit callB, .expiry "X" true, .pass]
          = some y' ∧
        (y'.st.bucketAt "X").remaining = 0 ∧
        (∀ s'' out, do_some_work y'.st = .ok (s'', out) →
          s''.queuesOf (some "X") = y'.st.queuesOf (some "X")) ∧
        ((onTimer y'.st "X" false).bucketAt "X").remaining = (y'.st.bucketAt "X").limit ∧
        onTimer y'.st "X" true = y'.st) :=
  ⟨rfl, _, rfl,
    C8_reset_window (exhaustedAndPending 5) reachable_exhaustedAndPending "X" rfl
      [.pass, .submit callB, .expiry "X" true, .pass] _ (by decide) rfl⟩

/-- C10. In every reachable state no queue map holds an empty queue, neither the
uncategorized one nor the one of a bucket, and a pass fails on neither of the two
assertions about empty queues (lines 74 and 88). -/
theorem C10_no_empty_queue (y : Sys) (h : Reachable y) :
    (∀ r q, (r, q) ∈ y.st.queues → q ≠ []) ∧
      (∀ k b, (k, b) ∈ y.st.buckets → ∀ r q, (r, q) ∈ b.queues → q ≠ []) ∧
      do_some_work y.st ≠ .error .assertGlobalQueue ∧
      do_some_work y.st ≠ .error .assertBucketQueue := by
  have hi := (inv_of_reachable h).st
  have hnoerr : ∀ e, do_some_work y.st = .error e → scan y.st = .error e := by
    intro e he
    by_cases hw : y.st.writing = true
    · simp [do_some_work, hw] at he
    · have hw' : y.st.writing = false := by simpa using hw
      rcases do_some_work_cases hi hw' with ⟨e', hs, he'⟩ | ⟨sc, _, _, he'⟩ |
        ⟨sc, c, rest, _, _, _, _, he'⟩
      · rw [he'] at he
        cases he
        exact hs
      · rw [he'] at he
        cases he
      · rw [he'] at he
        cases he
  refine ⟨?_, ?_, ?_, ?_⟩
  · intro r q hm hq
    subst hq
    exact no_empty_queue hi hm
  · intro k b hm r q hm' hq
    subst hq
    exact no_empty_bucket_queue hi hm hm'
  · intro he
    rcases scan_error (hnoerr _ he) with ⟨h1, _⟩ | ⟨h1, _⟩ | ⟨_, r, hr⟩
    · cases h1
    · cases h1
    · exact no_empty_queue hi hr
  · intro he
    rcases scan_error (hnoerr _ he) with ⟨h1, _⟩ | ⟨_, k, b, hm, r, hr⟩ | ⟨h1, _⟩
    · cases h1
    · exact no_empty_bucket_queue hi hm hr
    · cases h1

/-- Witness of C10 on the state with `callA` in flight and `callB` queued. -/
theorem C10_witness :
    (∀ r q, (r, q) ∈ oneInFlightOneQueued.st.queues → q ≠ []) ∧
      (∀ k b, (k, b) ∈ oneInFlightOneQueued.st.buckets →
        ∀ r q, (r, q) ∈ b.queues → q ≠ []) ∧
      do_some_work oneInFlightOneQueued.st ≠ .error .assertGlobalQueue ∧
      do_some_work oneInFlightOneQueued.st ≠ .error .assertBucketQueue :=
  C10_no_empty_queue oneInFlightOneQueued reachable_oneInFlightOneQueued

/-! ## `getLimitedRoute` on paths with one numeric segment -/

theorem firstIndex_append_of_not_mem (c : Char) (a l : List Char) (h : c ∉ a) :
    firstIndex c (a ++ l) = (firstIndex c l).map (· + a.length) := by
  induction a with
  | nil => simp
  | cons x xs ih =>
    simp only [List.mem_cons, not_or] at h
    have hx : ¬ x = c := fun e => h.1 e.symm
    rw [List.cons_append]
    simp only [firstIndex, hx, if_false]
    rw [ih h.2]
    cases firstIndex c l <;> simp [Nat.add_assoc]

theorem slash_not_mem_digits (a : List Char) (h : ∀ c ∈ a, IsDigit c) : '/' ∉ a := by
  intro hm
  have := h _ hm
  unfold IsDigit at this
  revert this
  decide

theorem allAlpha_digits_append (a : List Char) (h : ∀ c ∈ a, IsDigit c) (ha : a ≠ [])
    (l : List Char) : allAlpha (a ++ l) = false := by
  cases a with
  | nil => exact absurd rfl ha
  | cons x xs =>
    have hx := h x (by simp)
    have : isalpha x = false := by
      unfold IsDigit at hx
      unfold isalpha
      simp only [decide_eq_false_iff_not]
      omega
    simp [allAlpha, this]

theorem findFrom_eq (s : List Char) (c : Char) (pos : Nat) :
    findFrom s c pos = match firstIndex c (s.drop pos) with
      | some i => pos + i
      | none => npos := rfl

/-- One round of the loop of `getLimitedRoute`. -/
theorem classifyLoop_round (route : List Char) (fuel last next : Nat)
    (lastItem out : List Char) (h : last ≠ npos) :
    classifyLoop route (fuel + 1) last next lastItem out =
      classifyLoop route fuel next (findFrom route '/' (addSizeT next 1))
        (substr route (last + 1) (next - 1))
        (if allAlpha (substr route (last + 1) (next - 1)) || isReserved lastItem then
          out ++ ['|'] ++ substr route (last + 1) (next - 1)
        else out ++ ['|']) := by
  rw [classifyLoop]
  simp only [h, if_false]

/-- The end of the loop of `getLimitedRoute`. -/
theorem classifyLoop_done (route : List Char) (fuel next : Nat) (lastItem out : List Char) :
    classifyLoop route fuel npos next lastItem out = some out := by
  cases fuel <;> simp [classifyLoop]

theorem canonical_channelMessages (a : List Char) (hd : ∀ c ∈ a, IsDigit c)
    (hl : a.length + 19 < npos) :
    canonical (channelMessages a) =
      some ("|channels|".data ++ a ++ "/messages|messages".data) := by
  have hs := slash_not_mem_digits a hd
  have e : channelMessages a = '/' :: 'c' :: 'h' :: 'a' :: 'n' :: 'n' :: 'e' :: 'l' :: 's' ::
      '/' :: (a ++ ['/', 'm', 'e', 's', 's', 'a', 'g', 'e', 's']) := by
    simp [channelMessages]
  have e3 : List.drop (10 + a.length + 1) (channelMessages a) = "messages".data := by
    have : channelMessages a = ("/channels/".data ++ a ++ ['/']) ++ "messages".data := by
      simp [channelMessages]
    rw [this]
    have hl : 10 + a.length + 1 = ("/channels/".data ++ a ++ ['/']).length := by
      simp; omega
    rw [hl, List.drop_left]
  have f0 : findFrom (channelMessages a) '/' 0 = 0 := by
    rw [e]; simp [findFrom, firstIndex]
  have f1 : findFrom (channelMessages a) '/' 1 = 9 := by
    rw [e]; simp [findFrom, firstIndex]
  have f2 : findFrom (channelMessages a) '/' 10 = 10 + a.length := by
    rw [e]
    simp [findFrom, firstIndex, firstIndex_append_of_not_mem _ _ _ hs]
  have f3 : findFrom (channelMessages a) '/' (10 + a.length + 1) = npos := by
    rw [findFrom_eq, e3]
    rfl
  have s1 : substr (channelMessages a) 1 8 = "channels".data := by
    rw [e]; simp [substr]
  have s2 : substr (channelMessages a) 10 (10 + a.length - 1) = a ++ "/messages".data := by
    rw [e]
    simp only [substr, List.drop_succ_cons, List.drop_zero]
    apply List.take_of_length_le
    simp
    omega
  have s3 : substr (channelMessages a) (10 + a.length + 1) (npos - 1) = "messages".data := by
    simp only [substr, e3]
    rfl
  have hfuel : (channelMessages a).length + 1 = (a.length + 17) + 1 + 1 + 1 := by
    simp [channelMessages]
  have a1 : addSizeT 0 1 = 1 := rfl
  have a2 : addSizeT 9 1 = 10 := rfl
  have hl' : a.length + 19 < 18446744073709551615 := hl
  have a3 : addSizeT (10 + a.length) 1 = 10 + a.length + 1 := by
    unfold addSizeT
    omega
  unfold canonical
  simp only [f0, a1, f1, hfuel]
  rw [classifyLoop_round _ _ _ _ _ _ (by decide)]
  simp only [a2, f2, s1]
  rw [classifyLoop_round _ _ _ _ _ _ (by decide)]
  simp only [a3, f3, s2]
  rw [classifyLoop_round _ _ _ _ _ _ (by unfold npos; omega), classifyLoop_done]
  simp only [s3]
  have r1 : (allAlpha "channels".data || isReserved []) = true := by decide
  have r2 : isReserved "channels".data = true := by decide
  have r3 : allAlpha "messages".data = true := by decide
  simp only [r1, r2, r3, Bool.or_true, Bool.true_or, if_true]
  simp

theorem canonical_userProfile (a : List Char) (hd : ∀ c ∈ a, IsDigit c) (ha : a ≠ [])
    (hl : a.length + 19 < npos) :
    canonical (userProfile a) = some "|users||profile".data := by
  have hs := slash_not_mem_digits a hd
  have e : userProfile a = '/' :: 'u' :: 's' :: 'e' :: 'r' :: 's' ::
      '/' :: (a ++ ['/', 'p', 'r', 'o', 'f', 'i', 'l', 'e']) := by
    simp [userProfile]
  have e3 : List.drop (7 + a.length + 1) (userProfile a) = "profile".data := by
    have : userProfile a = ("/users/".data ++ a ++ ['/']) ++ "profile".data := by
      simp [userProfile]
    rw [this]
    have hl : 7 + a.length + 1 = ("/users/".data ++ a ++ ['/']).length := by
      simp; omega
    rw [hl, List.drop_left]
  have f0 : findFrom (userProfile a) '/' 0 = 0 := by
    rw [e]; simp [findFrom, firstIndex]
  have f1 : findFrom (userProfile a) '/' 1 = 6 := by
    rw [e]; simp [findFrom, firstIndex]
  have f2 : findFrom (userProfile a) '/' 7 = 7 + a.length := by
    rw [e]
    simp [findFrom, firstIndex, firstIndex_append_of_not_mem _ _ _ hs]
  have f3 : findFrom (userProfile a) '/' (7 + a.length + 1) = npos := by
    rw [findFrom_eq, e3]
    rfl
  have s1 : substr (userProfile a) 1 5 = "users".data := by
    rw [e]; simp [substr]
  have s2 : substr (userProfile a) 7 (7 + a.length - 1) = a ++ "/profi".data := by
    rw [e]
    simp only [substr, List.drop_succ_cons, List.drop_zero]
    have h6 : 7 + a.length - 1 = a.length + 6 := by omega
    rw [h6, List.take_append]
    rfl
  have s3 : substr (userProfile a) (7 + a.length + 1) (npos - 1) = "profile".data := by
    simp only [substr, e3]
    rfl
  have hfuel : (userProfile a).length + 1 = (a.length + 13) + 1 + 1 + 1 := by
    simp [userProfile]
  have a1 : addSizeT 0 1 = 1 := rfl
  have a2 : addSizeT 6 1 = 7 := rfl
  have hl' : a.length + 19 < 18446744073709551615 := hl
  have a3 : addSizeT (7 + a.length) 1 = 7 + a.length + 1 := by
    unfold addSizeT
    omega
  unfold canonical
  simp only [f0, a1, f1, hfuel]
  rw [classifyLoop_round _ _ _ _ _ _ (by decide)]
  simp only [a2, f2, s1]
  rw [classifyLoop_round _ _ _ _ _ _ (by decide)]
  simp only [a3, f3, s2]
  rw [classifyLoop_round _ _ _ _ _ _ (by unfold npos; omega), classifyLoop_done]
  simp only [s3]
  have r1 : (allAlpha "users".data || isReserved []) = true := by decide
  have r2 : isReserved "users".data = false := by decide
  have r3 : allAlpha "profile".data = true := by decide
  have r4 : allAlpha (a ++ "/profi".data) = false := allAlpha_digits_append a hd ha _
  simp only [r1, r2, r3, r4, Bool.or_false, Bool.true_or, if_true, Bool.false_eq_true,
    if_false]
  rfl

/-- C9. For non-empty digit strings `a ≠ b` (paths being `std::string`s, shorter than
`npos`): `getLimitedRoute` hashes `|channels|a/messages|messages` for `/channels/a/messages`
and `|channels|b/messages|messages` for `/channels/b/messages`, two different canonical
strings, hence two different route keys when `hash` is injective; and it hashes
`|users||profile` for both `/users/a/profile` and `/users/b/profile`, hence one route key. -/
theorem C9_route_classification (hash : List Char → route_t) (a b : List Char)
    (ha : a ≠ []) (hb : b ≠ []) (hda : ∀ c ∈ a, IsDigit c) (hdb : ∀ c ∈ b, IsDigit c)
    (hab : a ≠ b) (hla : a.length + 19 < npos) (hlb : b.length + 19 < npos) :
    canonical (channelMessages a) =
        some ("|channels|".data ++ a ++ "/messages|messages".data) ∧
      canonical (channelMessages b) =
        some ("|channels|".data ++ b ++ "/messages|messages".data) ∧
      canonical (channelMessages a) ≠ canonical (channelMessages b) ∧
      (Function.Injective hash →
        getLimitedRoute hash (channelMessages a) ≠ getLimitedRoute hash (channelMessages b)) ∧
      canonical (userProfile a) = some "|users||profile".data ∧
      canonical (userProfile b) = some "|users||profile".data ∧
      getLimitedRoute hash (userProfile a) = getLimitedRoute hash (userProfile b) ∧
      (getLimitedRoute hash (userProfile a)).isSome = true := by
  have ca := canonical_channelMessages a hda hla
  have cb := canonical_channelMessages b hdb hlb
  have ua := canonical_userProfile a hda ha hla
  have ub := canonical_userProfile b hdb hb hlb
  have hne : "|channels|".data ++ a ++ "/messages|messages".data ≠
      "|channels|".data ++ b ++ "/messages|messages".data := by
    intro e
    exact hab (List.append_cancel_left (List.append_cancel_right e))
  refine ⟨ca, cb, ?_, ?_, ua, ub, ?_, ?_⟩
  · rw [ca, cb]
    intro e
    exact hne (Option.some.inj e)
  · intro hinj
    unfold getLimitedRoute
    rw [ca, cb]
    intro e
    exact hne (hinj (Option.some.inj e))
  · unfold getLimitedRoute
    rw [ua, ub]
  · unfold getLimitedRoute
    rw [ua]
    rfl

/-- Witness of C9 at `a = 123` and `b = 456`, with the length of the canonical string
standing for its hash in the last two parts. -/
theorem C9_witness :
    canonical (channelMessages "123".data) = some "|channels|123/messages|messages".data ∧
      canonical (channelMessages "456".data) = some "|channels|456/messages|messages".data ∧
      canonical (channelMessages "123".data) ≠ canonical (channelMessages "456".data) ∧
      (Function.Injective (fun l : List Char => l.length) →
        getLimitedRoute (fun l => l.length) (channelMessages "123".data) ≠
          getLimitedRoute (fun l => l.length) (channelMessages "456".data)) ∧
      canonical (userProfile "123".data) = some "|users||profile".data ∧
      canonical (userProfile "456".data) = some "|users||profile".data ∧
      getLimitedRoute (fun l => l.length) (userProfile "123".data) =
        getLimitedRoute (fun l => l.length) (userProfile "456".data) ∧
      (getLimitedRoute (fun l => l.length) (userProfile "123".data)).isSome = true :=
  C9_route_classification (fun l => l.length) "123".data "456".data (by decide) (by decide)
    (by unfold IsDigit; decide) (by unfold IsDigit; decide) (by decide) (by decide)
    (by decide)

/-! ## The claims on the pass -/

/-- C14. A pass that finds the guard active returns the state it found and sends nothing;
a pass that sends found the guard inactive and leaves it active; a pass that sends
nothing leaves the whole state, guard included, as it found it (so an abort leaves the
guard inactive); a pass adds at most one call to the calls handed to the transport; after
a pass that returned, a second pass sends nothing and changes nothing; and two passes in
succession give the same outcome as one. -/
theorem C14_pass_guard (y : Sys) :
    (y.st.writing = true → do_some_work y.st = .ok (y.st, none)) ∧
      (∀ s' d, do_some_work y.st = .ok (s', some d) →
        y.st.writing = false ∧ s'.writing = true) ∧
      (∀ s', do_some_work y.st = .ok (s', none) → s' = y.st) ∧
      (∀ y', step y .pass = some y' → y'.sent = y.sent ∨ ∃ c, y'.sent = y.sent ++ [c]) ∧
      (∀ s1 o1, do_some_work y.st = .ok (s1, o1) → do_some_work s1 = .ok (s1, none)) ∧
      run y [.pass, .pass] = run y [.pass] := by
  have h1 : ∀ s : State, s.writing = true → do_some_work s = .ok (s, none) := by
    intro s hw
    simp [do_some_work, hw]
  have h2 : ∀ (s s' : State) (d : Dispatch), do_some_work s = .ok (s', some d) →
      s.writing = false ∧ s'.writing = true := by
    intro s s' d hd
    obtain ⟨hw, scope, rest, _, hs⟩ := do_some_work_some hd
    refine ⟨hw, ?_⟩
    rw [hs]
    simp
  have h5 : ∀ (s s1 : State) (o1 : Option Dispatch), do_some_work s = .ok (s1, o1) →
      do_some_work s1 = .ok (s1, none) := by
    intro s s1 o1 hd
    cases o1 with
    | none =>
      have := do_some_work_none hd
      subst this
      exact hd
    | some d => exact h1 s1 (h2 s s1 d hd).2
  refine ⟨h1 y.st, h2 y.st, fun s' hd => do_some_work_none hd, ?_, h5 y.st, ?_⟩
  · intro y' hs
    simp only [step] at hs
    split at hs
    · simp at hs
    · simp only [Option.some.injEq] at hs
      subst hs
      exact Or.inl rfl
    · rename_i s d _
      simp only [Option.some.injEq] at hs
      subst hs
      exact Or.inr ⟨d.call, rfl⟩
  · simp only [run]
    cases hd : do_some_work y.st with
    | error e => simp [step, hd]
    | ok p =>
      obtain ⟨s1, o1⟩ := p
      have h6 := h5 y.st s1 o1 hd
      cases o1 with
      | none => simp [step, hd, h6]
      | some d => simp [step, hd, h6]

/-! ## The bucket of the gateway route -/

theorem reachable_gatewayIdle : Reachable gatewayIdle :=
  ⟨5, 99, [.submit callG, .pass, .write ⟨99, callG⟩, .read ⟨99, callG⟩ replyG3,
    .submit callG2], by decide, by rfl⟩

/-- A pass changes neither `route_to_bucket` nor `gateway_route`. -/
theorem do_some_work_rtb {s s' : State} {out : Option Dispatch}
    (h : do_some_work s = .ok (s', out)) :
    s'.route_to_bucket = s.route_to_bucket ∧ s'.gateway_route = s.gateway_route := by
  cases out with
  | none =>
    rw [do_some_work_none h]
    exact ⟨rfl, rfl⟩
  | some d =>
    obtain ⟨_, scope, rest, _, hs⟩ := do_some_work_some h
    rw [hs]
    simp

/-- A pass takes nothing from the queues of the bucket the gateway route is mapped to. -/
theorem do_some_work_gateway {s s' : State} {out : Option Dispatch} (hi : StInv s)
    {G : String} (hg : Map.find? s.gateway_route s.route_to_bucket = some G)
    (h : do_some_work s = .ok (s', out)) : s'.queuesOf (some G) = s.queuesOf (some G) := by
  cases out with
  | none => rw [do_some_work_none h]
  | some d =>
    obtain ⟨sc, rest, _, he, _, _, hs⟩ := do_some_work_some_scope hi h
    rw [hs, State.queuesOf_setQueues, State.queuesOf_setWriting]
    have hne : ¬ some G = sc.next_bucket := by
      intro e
      have hel := (he G e.symm).2.1
      have hid := hi.idKey G (hi.rtbKey _ _ hg)
      simp [ownsGateway, hg, hid] at hel
    simp [hne]

theorem gateway_passes {y y' : Sys} (n : Nat) (hi : Inv y) {G : String}
    (hg : Map.find? y.st.gateway_route y.st.route_to_bucket = some G)
    (hr : run y (List.replicate n .pass) = some y') :
    y'.st.queuesOf (some G) = y.st.queuesOf (some G) ∧
      Map.find? y'.st.gateway_route y'.st.route_to_bucket = some G := by
  induction n generalizing y with
  | zero =>
    simp only [List.replicate, run, Option.some.injEq] at hr
    subst hr
    exact ⟨rfl, hg⟩
  | succ n ih =>
    simp only [List.replicate, run] at hr
    cases hs : step y .pass with
    | none => simp [hs] at hr
    | some y1 =>
      simp only [hs] at hr
      have hi1 := inv_step hi _ hs
      have h1 : y1.st.queuesOf (some G) = y.st.queuesOf (some G) ∧
          y1.st.route_to_bucket = y.st.route_to_bucket ∧
          y1.st.gateway_route = y.st.gateway_route := by
        simp only [step] at hs
        split at hs
        · simp at hs
        · rename_i s hw
          simp only [Option.some.injEq] at hs
          subst hs
          exact ⟨do_some_work_gateway hi.st hg hw, do_some_work_rtb hw⟩
        · rename_i s d hw
          simp only [Option.some.injEq] at hs
          subst hs
          exact ⟨do_some_work_gateway hi.st hg hw, do_some_work_rtb hw⟩
      have hg1 : Map.find? y1.st.gateway_route y1.st.route_to_bucket = some G := by
        rw [h1.2.1, h1.2.2]
        exact hg
      obtain ⟨h2, h3⟩ := ih hi1 hg1 hr
      exact ⟨h2.trans h1.1, h3⟩

/-- C19. In a reachable state in which `route_to_bucket` maps the gateway route to `G`, a
pass leaves the queue map of `G` as it is, whatever `remaining` and the in-flight counts
of `G` are; and after any number of passes the queue map of `G` is still the same (and
the gateway route still mapped to `G`): the calls queued in `G` stay queued. -/
theorem C19_gateway_bucket_never_served (y : Sys) (h : Reachable y) (G : String)
    (hg : Map.find? y.st.gateway_route y.st.route_to_bucket = some G) :
    (∀ s' out, do_some_work y.st = .ok (s', out) →
      s'.queuesOf (some G) = y.st.queuesOf (some G)) ∧
    (∀ n y', run y (List.replicate n .pass) = some y' →
      y'.st.queuesOf (some G) = y.st.queuesOf (some G) ∧
      Map.find? y'.st.gateway_route y'.st.route_to_bucket = some G) := by
  have hi := inv_of_reachable h
  exact ⟨fun s' out hd => do_some_work_gateway hi.st hg hd,
    fun n y' hr => gateway_passes n hi hg hr⟩

/-- Witness of C19: bucket `G` owns the gateway route, has 3 calls remaining and nothing
in flight, and `callG2` stays in its queue through three passes. -/
theorem C19_witness :
    Map.find? gatewayIdle.st.gateway_route gatewayIdle.st.route_to_bucket = some "G" ∧
      (gatewayIdle.st.bucketAt "G").remaining = 3 ∧
      gatewayIdle.st.queuesOf (some "G") = [(99, [callG2])] ∧
      run gatewayIdle (List.replicate 3 .pass) = some gatewayIdle ∧
      gatewayIdle.st.queuesOf (some "G") = gatewayIdle.st.queuesOf (some "G") ∧
      Map.find? gatewayIdle.st.gateway_route gatewayIdle.st.route_to_bucket = some "G" :=
  ⟨rfl, rfl, rfl, rfl,
    (C19_gateway_bucket_never_served gatewayIdle reachable_gatewayIdle "G" rfl).2 3
      gatewayIdle rfl⟩

/-! ## The call a pass dispatches -/

/-- A bucket whose `remaining` exceeds its in-flight total, as integers, passes the test
of line 72. -/
theorem eligible_of_lt {s : State} {b : Bucket} (hg : ownsGateway s b = false)
    (h32 : IsInt32 b.remaining) (h : (b.transit.total : Int) < b.remaining) :
    Eligible s b := by
  refine ⟨hg, ?_⟩
  have := toSizeT_of_nonneg (by omega) h32
  omega

theorem int32_of_mem {s : State} (hi : StInv s) {k : String} {b : Bucket}
    (hm : (k, b) ∈ s.buckets) : IsInt32 b.remaining := by
  have := (hi.int32.2 k).1
  rwa [bucketAt_of_find? (Map.find?_of_mem hi.nodupB hm)] at this

/-- C16. When a pass of a reachable state hands a call to the transport: the call was
the head of the queue of its route, it has the route of that queue, afterwards that
queue is its tail and every other queue is as before (the map entry is gone when the
tail is empty), the queued calls before the pass are those after it plus the call, and
the call was created no later than the head of any uncategorized queue and than the
head of any queue of a bucket that does not own the gateway route and has `remaining`
above its in-flight total. -/
theorem C16_oldest_eligible_wins (y : Sys) (h : Reachable y) (s' : State) (d : Dispatch)
    (hd : do_some_work y.st = .ok (s', some d)) :
    ∃ rest, y.st.queueOf d.route = d.call :: rest ∧ d.call.route = d.route ∧
      (∀ r, s'.queueOf r = if r = d.route then rest else y.st.queueOf r) ∧
      (rest = [] → Map.find? d.route (s'.queuesOf (s'.scopeOf d.route)) = none) ∧
      List.Perm y.st.allQueued (d.call :: s'.allQueued) ∧
      (∀ r c q, (r, c :: q) ∈ y.st.queues → d.call.created ≤ c.created) ∧
      (∀ k b, (k, b) ∈ y.st.buckets → ownsGateway y.st b = false →
        (b.transit.total : Int) < b.remaining →
        ∀ r c q, (r, c :: q) ∈ b.queues → d.call.created ≤ c.created) := by
  have hi := (inv_of_reachable h).st
  have hw := (do_some_work_some hd).1
  rcases do_some_work_cases hi hw with ⟨e, _, he⟩ | ⟨sc, _, _, he⟩ |
    ⟨sc, c, rest, hs, _, hf, hc, he⟩
  · rw [he] at hd
    cases hd
  · rw [he] at hd
    cases hd
  · rw [he] at hd
    simp only [Except.ok.injEq, Prod.mk.injEq, Option.some.injEq] at hd
    obtain ⟨h1, h2⟩ := hd
    subst h2
    simp only at hf hc h1 ⊢
    have hi1 : StInv (y.st.setWriting true) := stInv_setWriting hi true
    have hf1 : Map.find? sc.next_route ((y.st.setWriting true).queuesOf sc.next_bucket) =
        some (c :: rest) := by simpa using hf
    have hs1 : s' = (y.st.setWriting true).setQueues sc.next_bucket
        (if rest = [] then
          Map.erase sc.next_route ((y.st.setWriting true).queuesOf sc.next_bucket)
         else Map.put sc.next_route rest
          ((y.st.setWriting true).queuesOf sc.next_bucket)) := by
      simpa using h1.symm
    have hscope := dispatch_scope hi hf
    have hq : ∀ r, s'.queueOf r = if r = sc.next_route then rest else y.st.queueOf r := by
      intro r
      rw [hs1, queueOf_dequeue hi1 hf1 r]
      rfl
    obtain ⟨_, _, _, _, _, hb, hu⟩ := scan_spec hi hs
    refine ⟨rest, ?_, hscope.2.1, hq, ?_, ?_, ?_, ?_⟩
    · simp [State.queueOf, hscope.1, hf]
    · intro hr
      have := hq sc.next_route
      simp only [if_true, hr] at this
      have hsc : s'.scopeOf sc.next_route = sc.next_bucket := by
        rw [hs1]
        simpa [State.scopeOf] using hscope.1
      rw [hsc, hs1, State.queuesOf_setQueues]
      simp [hr, Map.find?_erase]
    · rw [List.perm_iff_count]
      intro c'
      have h3 := count_allQueued_dequeue c' (hi1.good sc.next_bucket).1 hf1
      rw [← hs1] at h3
      have h4 : (y.st.setWriting true).allQueued = y.st.allQueued := rfl
      rw [h4] at h3
      have h5 : (c :: s'.allQueued).count c' = [c].count c' + s'.allQueued.count c' := by
        rw [← List.count_append]
        rfl
      omega
    · intro r c0 q hm
      rw [hc]
      exact hu r c0 q hm
    · intro k b hm hg hlt r c0 q hm'
      rw [hc]
      exact hb k b hm (eligible_of_lt hg (int32_of_mem hi hm) hlt) r c0 q hm'

/-- Witness of C16: with the gateway bucket exhausted, the pass hands `callC`, the head
of the only uncategorized queue, to the transport and removes that queue. -/
theorem C16_witness :
    do_some_work gatewayExhausted.st =
        .ok ((gatewayExhausted.st.setWriting true).setQueues none [], some ⟨8, callC⟩) ∧
      ∃ rest, gatewayExhausted.st.queueOf 8 = callC :: rest ∧ callC.route = 8 ∧
        (∀ r, ((gatewayExhausted.st.setWriting true).setQueues none []).queueOf r =
          if r = 8 then rest else gatewayExhausted.st.queueOf r) ∧
        (rest = [] → Map.find? 8
          (((gatewayExhausted.st.setWriting true).setQueues none []).queuesOf
            (((gatewayExhausted.st.setWriting true).setQueues none []).scopeOf 8)) = none) ∧
        List.Perm gatewayExhausted.st.allQueued
          (callC :: ((gatewayExhausted.st.setWriting true).setQueues none []).allQueued) ∧
        (∀ r c q, (r, c :: q) ∈ gatewayExhausted.st.queues → callC.created ≤ c.created) ∧
        (∀ k b, (k, b) ∈ gatewayExhausted.st.buckets →
          ownsGateway gatewayExhausted.st b = false →
          (b.transit.total : Int) < b.remaining →
          ∀ r c q, (r, c :: q) ∈ b.queues → callC.created ≤ c.created) :=
  ⟨rfl, C16_oldest_eligible_wins gatewayExhausted reachable_gatewayExhausted _ ⟨8, callC⟩ rfl⟩

/-! ## The admission decision -/

theorem reachable_olderUncategorized : Reachable olderUncategorized :=
  ⟨5, 99, olderUncategorizedRun, by decide, by rfl⟩

/-- A loop over a queue map either selects nothing new, or selects a head of this map
that is older than what was selected before. -/
theorem scanQueues_change {owner : Scope} {e : Err} {qs : QueueByRoute} {sc sc' : Scan}
    (h : scanQueues owner e qs sc = .ok sc') :
    sc' = sc ∨ (sc'.next_bucket = owner ∧ sc'.min < sc.min) := by
  induction qs generalizing sc with
  | nil =>
    simp only [scanQueues, Except.ok.injEq] at h
    exact Or.inl h.symm
  | cons x rest ih =>
    obtain ⟨r, q⟩ := x
    cases q with
    | nil => simp [scanQueues] at h
    | cons c q =>
      simp only [scanQueues] at h
      by_cases hc : c.created < sc.min
      · simp only [hc, if_true] at h
        rcases ih h with h1 | ⟨h1, h2⟩
        · rw [h1]
          exact Or.inr ⟨rfl, hc⟩
        · exact Or.inr ⟨h1, lt_trans h2 hc⟩
      · simp only [hc, if_false] at h
        exact ih h

/-- A loop over a queue map without an empty queue and without a head older than the
selected call changes nothing. -/
theorem scanQueues_noop {owner : Scope} {e : Err} {qs : QueueByRoute} {sc : Scan}
    (hne : ∀ r, (r, []) ∉ qs) (h : ∀ r c q, (r, c :: q) ∈ qs → sc.min ≤ c.created) :
    scanQueues owner e qs sc = .ok sc := by
  induction qs with
  | nil => rfl
  | cons x rest ih =>
    obtain ⟨r, q⟩ := x
    cases q with
    | nil => exact absurd (List.mem_cons_self _ _) (hne r)
    | cons c q =>
      have hc : ¬ c.created < sc.min := not_lt.2 (h r c q (List.mem_cons_self _ _))
      simp only [scanQueues, hc, if_false]
      exact ih (fun r' hm => hne r' (List.mem_cons_of_mem _ hm))
        (fun r' c' q' hm => h r' c' q' (List.mem_cons_of_mem _ hm))

/-- What the loop over the buckets selects is a bucket. -/
theorem scanBuckets_bucket {s : State} {bs : Map String Bucket} {sc sc' : Scan}
    (h : scanBuckets s bs sc = .ok sc')
    (h0 : sc.min < TIME_MAX → sc.next_bucket ≠ none) :
    sc'.min < TIME_MAX → sc'.next_bucket ≠ none := by
  induction bs generalizing sc with
  | nil =>
    simp only [scanBuckets, Except.ok.injEq] at h
    subst h
    exact h0
  | cons x rest ih =>
    obtain ⟨k, b⟩ := x
    simp only [scanBuckets] at h
    split at h
    · exact ih h h0
    · split at h
      · simp at h
      · split at h
        · exact ih h h0
        · split at h
          · simp at h
          · rename_i sc2 hsc2
            refine ih h ?_
            rcases scanQueues_change hsc2 with h1 | ⟨h1, _⟩
            · rw [h1]
              exact h0
            · intro _
              rw [h1]
              simp

theorem scan_phases {s : State} {sc : Scan} (h : scan s = .ok sc) :
    ∃ sc1, scanBuckets s s.buckets { min_remaining := s.defaultLimit } = .ok sc1 ∧
      scanQueues none .assertGlobalQueue s.queues sc1 = .ok sc := by
  unfold scan at h
  split at h
  · simp at h
  · rename_i sc1 hsc1
    exact ⟨sc1, hsc1, h⟩

theorem minRemainingOver_le (s : State) (bs : Map String Bucket) (m : Int) :
    minRemainingOver s bs m ≤ m ∧
      ∀ k b, (k, b) ∈ bs → ownsGateway s b = false →
        minRemainingOver s bs m ≤ b.remaining - b.transit.total := by
  induction bs generalizing m with
  | nil => simp [minRemainingOver]
  | cons x rest ih =>
    obtain ⟨k, b⟩ := x
    simp only [minRemainingOver]
    by_cases hg : ownsGateway s b = true
    · simp only [hg, if_true]
      refine ⟨(ih m).1, ?_⟩
      intro k' b' hm hg'
      rcases List.mem_cons.1 hm with hm | hm
      · cases hm
        rw [hg] at hg'
        cases hg'
      · exact (ih m).2 k' b' hm hg'
    · simp only [hg, Bool.false_eq_true, if_false]
      have h1 := ih (min m (b.remaining - b.transit.total))
      refine ⟨le_trans h1.1 (min_le_left _ _), ?_⟩
      intro k' b' hm hg'
      rcases List.mem_cons.1 hm with hm | hm
      · cases hm
        exact le_trans h1.1 (min_le_right _ _)
      · exact h1.2 k' b' hm hg'

theorem le_minRemainingOver (s : State) (bs : Map String Bucket) (m L : Int) (hL : L ≤ m)
    (h : ∀ k b, (k, b) ∈ bs → ownsGateway s b = false → L ≤ b.remaining - b.transit.total) :
    L ≤ minRemainingOver s bs m := by
  induction bs generalizing m with
  | nil => simpa [minRemainingOver] using hL
  | cons x rest ih =>
    obtain ⟨k, b⟩ := x
    simp only [minRemainingOver]
    have h' : ∀ k' b', (k', b') ∈ rest → ownsGateway s b' = false →
        L ≤ b'.remaining - b'.transit.total :=
      fun k' b' hm => h k' b' (List.mem_cons_of_mem _ hm)
    by_cases hg : ownsGateway s b = true
    · simp only [hg, if_true]
      exact ih m hL h'
    · simp only [hg, Bool.false_eq_true, if_false]
      exact ih _ (le_min hL (h k b (List.mem_cons_self _ _) (by simpa using hg))) h'

/-- In a reachable state whose inspected buckets have `remaining` at least their
in-flight total and whose `defaultLimit` is not negative, the loops end without a failed
assertion, with `min_remaining` equal to `minRemaining` of the spec, and with a bucket
selected exactly when a bucket candidate survives the override. -/
theorem scan_admission {s : State} (hi : StInv s) (hdl : 0 ≤ s.defaultLimit)
    (hrem : ∀ k b, (k, b) ∈ s.buckets → ownsGateway s b = false →
      (b.transit.total : Int) ≤ b.remaining) :
    ∃ sc, scan s = .ok sc ∧ sc.min_remaining = minRemaining s ∧ 0 ≤ sc.min_remaining ∧
      IsInt32 sc.min_remaining ∧ (sc.next_bucket ≠ none ↔ BucketCandidateWins s) := by
  have hint : ∀ k b, (k, b) ∈ s.buckets → IsInt32 b.remaining :=
    fun k b hm => int32_of_mem hi hm
  have hassert : ∀ k b, (k, b) ∈ s.buckets → ownsGateway s b = false →
      0 ≤ b.remaining ∧ toSizeT b.remaining ≥ b.transit.total := by
    intro k b hm hg
    have h1 := hrem k b hm hg
    have h0 : 0 ≤ b.remaining := by omega
    have h2 := toSizeT_of_nonneg h0 (hint k b hm)
    exact ⟨h0, by omega⟩
  have hcap : ∀ k b, (k, b) ∈ s.buckets → ownsGateway s b = false →
      capacity b = b.remaining - b.transit.total :=
    fun k b hm hg => capacity_exact (hassert k b hm hg).1 (hint k b hm) (hassert k b hm hg).2
  cases hs : scan s with
  | error e =>
    exfalso
    rcases scan_error hs with ⟨_, k, b, hm, hg, hn⟩ | ⟨_, k, b, hm, r, hr⟩ | ⟨_, r, hr⟩
    · exact hn (hassert k b hm hg).2
    · exact no_empty_bucket_queue hi hm hr
    · exact no_empty_queue hi hr
  | ok sc =>
    obtain ⟨hp, he, hle, h5, h6, hb, hu⟩ := scan_spec hi hs
    have hmr : sc.min_remaining = minRemaining s := by
      apply le_antisymm
      · refine le_minRemainingOver s s.buckets s.defaultLimit _ hle ?_
        intro k b hm hg
        rw [← hcap k b hm hg]
        exact (h5 k b hm hg).2
      · refine h6 _ (minRemainingOver_le s s.buckets s.defaultLimit).1 ?_
        intro k b hm hg
        rw [hcap k b hm hg]
        exact (minRemainingOver_le s s.buckets s.defaultLimit).2 k b hm hg
    have hge : 0 ≤ sc.min_remaining := by
      refine h6 0 hdl ?_
      intro k b hm hg
      rw [hcap k b hm hg]
      have := hrem k b hm hg
      omega
    have h32 : IsInt32 sc.min_remaining := by
      have := hi.int32.1
      unfold IsInt32 at *
      omega
    refine ⟨sc, rfl, hmr, hge, h32, ?_, ?_⟩
    · -- a bucket is selected: its head is a candidate that no uncategorized head beats
      intro hnb
      cases hk : sc.next_bucket with
      | none => exact absurd hk hnb
      | some k =>
        obtain ⟨hc, hel⟩ := he k hk
        rcases hp with ⟨_, hn, _⟩ | ⟨_, _, c, rest, hf, hcm⟩
        · rw [hk] at hn
          cases hn
        · rw [hk] at hf
          cases hfb : Map.find? k s.buckets with
          | none => simp [Map.contains, hfb] at hc
          | some b =>
            have hbk := bucketAt_of_find? hfb
            have hm := Map.mem_of_find? hfb
            rw [hbk] at hel
            simp only [State.queuesOf, hbk] at hf
            refine ⟨k, b, sc.next_route, c, rest, hm, hel.1, ?_, Map.mem_of_find? hf, ?_⟩
            · have h1 := hassert k b hm hel.1
              have h2 := toSizeT_of_nonneg h1.1 (hint k b hm)
              have h3 := hel.2
              omega
            · intro r' u rest' hm'
              rw [hcm]
              exact hu r' u rest' hm'
    · -- a candidate survives: the loop over the buckets selects a bucket and the loop
      -- over the uncategorized queues changes nothing
      rintro ⟨k, b, r, c, rest, hm, hg, hlt, hmq, hall⟩
      obtain ⟨sc1, hs1, hs2⟩ := scan_phases hs
      have hbf : ∀ k b, (k, b) ∈ s.buckets → Map.find? k s.buckets = some b :=
        fun k b hm => Map.find?_of_mem hi.nodupB hm
      have hn : ∀ k b, (k, b) ∈ s.buckets → (Map.keys b.queues).Nodup := by
        intro k b hm
        have := (hi.good (some k)).1
        simpa [State.queuesOf, bucketAt_of_find? (hbf k b hm)] using this
      obtain ⟨_, _, _, _, _, _, h7⟩ :=
        scanBuckets_spec hbf hn (picked_init s) (pickedEligible_init s) hs1
      have hmin : sc1.min ≤ c.created :=
        h7 k b hm (eligible_of_lt hg (hint k b hm) hlt) r c rest hmq
      have hct : c.created < TIME_MAX := by
        have hg2 := hi.good (some k)
        simp only [State.queuesOf, bucketAt_of_find? (hbf k b hm)] at hg2
        exact ((hg2.2 r _ (Map.find?_of_mem hg2.1 hmq)).2.2 c (by simp)).2
      have hsome : sc1.next_bucket ≠ none :=
        scanBuckets_bucket hs1 (fun hlt' => absurd hlt' (lt_irrefl _))
          (lt_of_le_of_lt hmin hct)
      have hnoop : scanQueues none .assertGlobalQueue s.queues sc1 = .ok sc1 :=
        scanQueues_noop (fun r' hm' => no_empty_queue hi hm')
          (fun r' u rest' hm' => le_trans hmin (hall r' u rest' hm'))
      rw [hnoop] at hs2
      cases hs2
      exact hsome

/-- C15, at the counterexamples. First state: it is reachable, the guard is inactive,
every bucket has `remaining` at least its in-flight total, and step 2 finds a bucket
candidate (bucket `X` has 3 calls remaining, nothing in flight, and `callD` queued); but
the uncategorized `callC` is older than `callD`, the override of lines 90-95 resets
`next_bucket` to null, `min_remaining` is 0 because bucket `Y` is exhausted, and the
pass aborts without sending. Second state: it is reachable with `defaultLimit = -1`, the
guard is inactive, there is no bucket (so no bucket candidate) and `minRemaining = -1` is
not greater than the uncategorized in-flight total 0; but the comparison of line 102
converts -1 to a `size_t`, and the pass sends `callC`. -/
theorem C15_counterexample_older_uncategorized :
    (Reachable olderUncategorized ∧ olderUncategorized.st.writing = false ∧
      (∀ k b, (k, b) ∈ olderUncategorized.st.buckets →
        (b.transit.total : Int) ≤ b.remaining) ∧
      BucketCandidate olderUncategorized.st ∧
      do_some_work olderUncategorized.st = .ok (olderUncategorized.st, none)) ∧
    (Reachable negativeDefaultPending ∧ negativeDefaultPending.st.writing = false ∧
      negativeDefaultPending.st.buckets = [] ∧
      ¬ BucketCandidate negativeDefaultPending.st ∧
      minRemaining negativeDefaultPending.st = -1 ∧
      ¬ ((negativeDefaultPending.st.transit.total : Int) <
        minRemaining negativeDefaultPending.st) ∧
      do_some_work negativeDefaultPending.st =
        .ok ((negativeDefaultPending.st.setWriting true).setQueues none [],
          some { route := 8, call := callC })) := by
  refine ⟨⟨reachable_olderUncategorized, rfl, ?_, ?_, rfl⟩,
    ⟨⟨-1, 99, [.submit callC], by decide, by rfl⟩, rfl, rfl, ?_, by rfl, by decide, rfl⟩⟩
  · intro k b hm
    simp only [olderUncategorized, List.mem_cons, Prod.mk.injEq, List.mem_singleton,
      List.not_mem_nil, or_false] at hm
    rcases hm with ⟨_, hb⟩ | ⟨_, hb⟩ <;> subst hb <;> decide
  · exact ⟨"X", _, List.mem_cons_self _ _, rfl, by decide, by decide⟩
  · rintro ⟨k, b, hm, _⟩
    cases hm

/-- C15, amended. In a reachable state with the guard inactive, a `defaultLimit` that is
not negative and `remaining` at least the in-flight total for every bucket not owning
the gateway route: a pass sends a call if and only if a bucket candidate survives the
override (some bucket not owning the gateway route has `remaining` above its in-flight
total and a queue whose head is not younger than the head of any uncategorized queue),
or the uncategorized scope has a queued call and `minRemaining` is greater than the
uncategorized in-flight total; otherwise it aborts: it returns having sent nothing, with
the state unchanged. -/
theorem C15_admission_decision (y : Sys) (h : Reachable y) (hw : y.st.writing = false)
    (hdl : 0 ≤ y.st.defaultLimit)
    (hrem : ∀ k b, (k, b) ∈ y.st.buckets → ownsGateway y.st b = false →
      (b.transit.total : Int) ≤ b.remaining) :
    ((∃ s' d, do_some_work y.st = .ok (s', some d)) ↔
      (BucketCandidateWins y.st ∨
        (y.st.queues ≠ [] ∧ (y.st.transit.total : Int) < minRemaining y.st))) ∧
    (¬ (BucketCandidateWins y.st ∨
        (y.st.queues ≠ [] ∧ (y.st.transit.total : Int) < minRemaining y.st)) →
      do_some_work y.st = .ok (y.st, none)) := by
  have hi := (inv_of_reachable h).st
  obtain ⟨sc, hs, hmr, hge, h32, hnb⟩ := scan_admission hi hdl hrem
  have hconv := toSizeT_of_nonneg hge h32
  have hiff : ¬ (sc.next_bucket = none ∧
      (y.st.queues = [] ∨ toSizeT sc.min_remaining ≤ y.st.transit.total)) ↔
      (BucketCandidateWins y.st ∨
        (y.st.queues ≠ [] ∧ (y.st.transit.total : Int) < minRemaining y.st)) := by
    rw [← hmr, ← hnb]
    constructor
    · intro hna
      by_cases hn : sc.next_bucket = none
      · right
        refine ⟨fun hq => hna ⟨hn, Or.inl hq⟩, ?_⟩
        by_contra hlt
        exact hna ⟨hn, Or.inr (by omega)⟩
      · exact Or.inl hn
    · rintro (h1 | ⟨h1, h2⟩) ⟨hn, h3⟩
      · exact h1 hn
      · rcases h3 with h3 | h3
        · exact h1 h3
        · omega
  constructor
  · rw [← hiff]
    constructor
    · rintro ⟨s', d, hd⟩ ha
      rw [do_some_work_abort hw hs ha] at hd
      cases hd
    · intro hna
      obtain ⟨c, rest, _, _, hd⟩ := do_some_work_send hi hw hs hna
      exact ⟨_, _, hd⟩
  · intro hn
    rw [← hiff, not_not] at hn
    exact do_some_work_abort hw hs hn

/-- Witness of C15 in the state of the counterexample: no bucket candidate survives the
override (`callD` is younger than `callC`) and `minRemaining = 0`, so the pass aborts. -/
theorem C15_witness :
    olderUncategorized.st.writing = false ∧ 0 ≤ olderUncategorized.st.defaultLimit ∧
      minRemaining olderUncategorized.st = 0 ∧
      ((∃ s' d, do_some_work olderUncategorized.st = .ok (s', some d)) ↔
        (BucketCandidateWins olderUncategorized.st ∨
          (olderUncategorized.st.queues ≠ [] ∧
            (olderUncategorized.st.transit.total : Int) <
              minRemaining olderUncategorized.st))) ∧
      (¬ (BucketCandidateWins olderUncategorized.st ∨
          (olderUncategorized.st.queues ≠ [] ∧
            (olderUncategorized.st.transit.total : Int) <
              minRemaining olderUncategorized.st)) →
        do_some_work olderUncategorized.st = .ok (olderUncategorized.st, none)) :=
  ⟨rfl, by decide, by rfl,
    C15_admission_decision olderUncategorized reachable_olderUncategorized rfl (by decide)
      (by
        intro k b hm _
        simp only [olderUncategorized, List.mem_cons, Prod.mk.injEq, List.mem_singleton,
          List.not_mem_nil, or_false] at hm
        rcases hm with ⟨_, hb⟩ | ⟨_, hb⟩ <;> subst hb <;> decide)⟩

/-! ## The claims on `CountedSet` -/

/-- C11, at the failing input. From the empty set, `insert(7)` gives a set whose total
is the sum of its counts (1 and 1); after `clear(7)`, and likewise after `move(other, 7)`
with the set as source, every count is 0 and the sum of the counts is 0, but `total()`
is still 1. -/
theorem C11_total_after_clear :
    (({} : CountedSet).insert 7 1).total = 1 ∧
      (({} : CountedSet).insert 7 1).sumCounts = 1 ∧
      ((({} : CountedSet).insert 7 1).clear 7).1.total = 1 ∧
      ((({} : CountedSet).insert 7 1).clear 7).1.sumCounts = 0 ∧
      (∀ k, ((({} : CountedSet).insert 7 1).clear 7).1.count k = 0) ∧
      ((({} : CountedSet).insert 7 1).move {} 7).1.total = 1 ∧
      ((({} : CountedSet).insert 7 1).move {} 7).1.sumCounts = 0 :=
  ⟨rfl, rfl, rfl, rfl, fun _ => rfl, rfl, rfl⟩

/-- C12, at the failing input. `S` holds the key 7 once (`c = 1`) and `O` is empty; after
`S.move(O, 7)` the count of 7 is 0 in `S` and 1 in `O` and the total of `O` is 1, but
the total of `S` is still 1 (it has not decreased by `c`), so the two totals add up to 2
where they added up to 1 before. -/
theorem C12_move_keeps_source_total :
    (({} : CountedSet).insert 7 1).count 7 = 1 ∧
      (({} : CountedSet).insert 7 1).total + ({} : CountedSet).total = 1 ∧
      ((({} : CountedSet).insert 7 1).move {} 7).1.count 7 = 0 ∧
      ((({} : CountedSet).insert 7 1).move {} 7).2.count 7 = 1 ∧
      ((({} : CountedSet).insert 7 1).move {} 7).2.total = 1 ∧
      ((({} : CountedSet).insert 7 1).move {} 7).1.total = 1 ∧
      ((({} : CountedSet).insert 7 1).move {} 7).1.total +
        ((({} : CountedSet).insert 7 1).move {} 7).2.total = 2 :=
  ⟨rfl, rfl, rfl, rfl, rfl, rfl, rfl⟩

/-- C13, at the counterexample. The key 7 is absent from the empty set, and `erase(7, 0)`
does not fail: the guard of line 244 returns before the key is looked up. -/
theorem C13_counterexample_erase_zero :
    Map.find? 7 ({} : CountedSet).map = none ∧
      ({} : CountedSet).erase 7 0 = .ok {} :=
  ⟨rfl, rfl⟩

/-- C13, amended. For every set, key `k` and amount `n` of at least 1: `erase(k, n)`
fails exactly when `k` is absent or `n` exceeds `count(k)`; when it does not fail it
subtracts `n` from `count(k)` and from `total()` (as a `size_t`, and exactly when `n`
is at most the total) and leaves the counts of all other keys unchanged. For `n = 0`,
`erase(k, 0)` does not fail and returns the set as it was. (A failing `erase` has
assigned nothing: both `throw`s come before the first assignment.) -/
theorem C13_erase (t : CountedSet) (k n : Nat) (hn : 1 ≤ n) :
    ((∃ e, t.erase k n = .error e) ↔ (Map.find? k t.map = none ∨ n > t.count k)) ∧
      (∀ t', t.erase k n = .ok t' →
        t'.count k = t.count k - n ∧ t'.total = subSizeT t.total n ∧
        (n ≤ t.total → t.total < 18446744073709551616 → t'.total = t.total - n) ∧
        ∀ k', k' ≠ k → t'.count k' = t.count k') ∧
      t.erase k 0 = .ok t := by
  have hn0 : ¬ n = 0 := by omega
  have hsub : n ≤ t.sum → t.sum < 18446744073709551616 → subSizeT t.sum n = t.sum - n := by
    intro h1 h2
    unfold subSizeT
    omega
  refine ⟨?_, ?_, by simp [CountedSet.erase]⟩
  · unfold CountedSet.erase CountedSet.count
    cases hf : Map.find? k t.map with
    | none => simp [hn0]
    | some c =>
      simp only [hn0, if_false, reduceCtorEq, false_or]
      by_cases hc : n > c
      · simp [hc]
      · simp only [hc, if_false, iff_false, not_exists]
        intro e
        split <;> simp
  · intro t' ht
    unfold CountedSet.erase at ht
    simp only [hn0, if_false] at ht
    cases hf : Map.find? k t.map with
    | none => simp [hf] at ht
    | some c =>
      simp only [hf] at ht
      by_cases hc : n > c
      · simp [hc] at ht
      · simp only [hc, if_false] at ht
        by_cases hz : c - n = 0
        · simp only [hz, if_true, Except.ok.injEq] at ht
          subst ht
          refine ⟨?_, rfl, hsub, ?_⟩
          · simp only [CountedSet.count, Map.find?_erase, if_true, hf]
            omega
          · intro k' hk'
            simp [CountedSet.count, Map.find?_erase, hk']
        · simp only [hz, if_false, Except.ok.injEq] at ht
          subst ht
          refine ⟨?_, rfl, hsub, ?_⟩
          · simp [CountedSet.count, Map.find?_put, hf]
          · intro k' hk'
            simp [CountedSet.count, Map.find?_put, hk']

/-- Witness of C13: erasing one of the two occurrences of the key 7. -/
theorem C13_witness :
    ((∃ e, (({} : CountedSet).insert 7 2).erase 7 1 = .error e) ↔
        (Map.find? 7 (({} : CountedSet).insert 7 2).map = none ∨
          1 > (({} : CountedSet).insert 7 2).count 7)) ∧
      (∀ t', (({} : CountedSet).insert 7 2).erase 7 1 = .ok t' →
        t'.count 7 = (({} : CountedSet).insert 7 2).count 7 - 1 ∧
        t'.total = subSizeT (({} : CountedSet).insert 7 2).total 1 ∧
        (1 ≤ (({} : CountedSet).insert 7 2).total →
          (({} : CountedSet).insert 7 2).total < 18446744073709551616 →
          t'.total = (({} : CountedSet).insert 7 2).total - 1) ∧
        ∀ k', k' ≠ 7 → t'.count k' = (({} : CountedSet).insert 7 2).count k') ∧
      (({} : CountedSet).insert 7 2).erase 7 0 = .ok (({} : CountedSet).insert 7 2) :=
  C13_erase (({} : CountedSet).insert 7 2) 7 1 (by decide)

/-! ## The classifier against the segment-wise algorithm -/

/-- C17, at the failing inputs. On `/a/b/c/d` the code hashes `|a|||d` where the
segment-wise algorithm gives `|a|b|c|d`; on `/guilds/1/members/2` the code hashes
`|guilds|1/member||` where the algorithm gives `|guilds|1|members|`. The item of the
second round on `/a/b/c/d` is `substr(3, 3)`, that is `b/c` and not the segment `b`: the
second argument of `substr` is a length, and `next - 1` is the length of the segment only
in the first round, where `last` is 0. -/
theorem C17_items_are_not_segments :
    canonical "/a/b/c/d".data = some "|a|||d".data ∧
      segmentwise "/a/b/c/d".data = "|a|b|c|d".data ∧
      substr "/a/b/c/d".data (2 + 1) (4 - 1) = "b/c".data ∧
      canonical "/guilds/1/members/2".data = some "|guilds|1/member||".data ∧
      segmentwise "/guilds/1/members/2".data = "|guilds|1|members|".data :=
  ⟨by decide, by decide, by decide, by decide, by decide⟩

/-! ## The in-flight sets through the operations -/

namespace State

theorem transitOf_setQueues (s : State) (sc sc' : Scope) (qs : QueueByRoute) :
    (s.setQueues sc qs).transitOf sc' = s.transitOf sc' := by
  cases sc with
  | none =>
    cases sc' with
    | none => rfl
    | some k' => rfl
  | some k =>
    simp only [setQueues, transitOf_setBucket]
    by_cases h : sc' = some k
    · subst h
      simp [transitOf]
    · simp [h]

theorem transitOf_setTransit (s : State) (sc sc' : Scope) (t : CountedSet) :
    (s.setTransit sc t).transitOf sc' = if sc' = sc then t else s.transitOf sc' := by
  cases sc with
  | none =>
    cases sc' with
    | none => simp [transitOf, setTransit]
    | some k' => simp [transitOf, setTransit, bucketAt]
  | some k =>
    simp only [setTransit, transitOf_setBucket]

@[simp] theorem transitOf_setWriting (s : State) (w : Bool) (sc : Scope) :
    (s.setWriting w).transitOf sc = s.transitOf sc := by
  cases sc <;> rfl

@[simp] theorem transitOf_mapRoute (s : State) (r : route_t) (id : String) (sc : Scope) :
    (s.mapRoute r id).transitOf sc = s.transitOf sc := by
  cases sc <;> rfl

theorem transitOf_emplaceBucket (s : State) (id : String) (sc : Scope) :
    (s.emplaceBucket id).transitOf sc = s.transitOf sc := by
  unfold emplaceBucket
  by_cases hc : Map.contains id s.buckets = true
  · simp [hc]
  · simp only [hc, Bool.false_eq_true, if_false, transitOf_setBucket]
    by_cases e : sc = some id
    · subst e
      have : s.bucketAt id = Bucket.fresh :=
        bucketAt_of_not_contains s id (by simpa using hc)
      simp [transitOf, this, Bucket.fresh]
    · simp [e]

end State

theorem transitOf_migrateQueue (s : State) (src : Scope) (dst : String) (r : route_t)
    (sc : Scope) : (migrateQueue s src dst r).transitOf sc = s.transitOf sc := by
  unfold migrateQueue
  split
  · rfl
  · simp only
    split
    · rw [State.transitOf_setQueues]
    · rw [State.transitOf_setQueues, State.transitOf_setQueues]

theorem transitOf_refresh (s : State) (k : String) (msg : Reply) (sc : Scope) :
    (refresh s k msg).transitOf sc = s.transitOf sc := by
  unfold refresh
  simp only [State.transitOf_setBucket]
  by_cases e : sc = some k
  · subst e
    simp [State.transitOf]
  · simp [e]

theorem transitOf_call (s : State) (c : Call) (sc : Scope) :
    (call s c).transitOf sc = s.transitOf sc := by
  unfold call
  exact State.transitOf_setQueues _ _ _ _

theorem transitOf_onTimer (s : State) (owner : String) (failed : Bool) (sc : Scope) :
    (onTimer s owner failed).transitOf sc = s.transitOf sc := by
  unfold onTimer
  by_cases hf : failed = true
  · simp [hf]
  · simp only [hf, Bool.false_eq_true, if_false, State.transitOf_setBucket]
    by_cases e : sc = some owner
    · subst e
      simp [State.transitOf]
    · simp [e]

theorem transitOf_do_some_work {s s' : State} {out : Option Dispatch}
    (h : do_some_work s = .ok (s', out)) (sc : Scope) : s'.transitOf sc = s.transitOf sc := by
  cases out with
  | none => rw [do_some_work_none h]
  | some d =>
    obtain ⟨_, scope, rest, _, hs⟩ := do_some_work_some h
    rw [hs, State.transitOf_setQueues, State.transitOf_setWriting]

/-- The in-flight sets after a migration from a scope that is not the new bucket. -/
theorem transitOf_migrate (s : State) (old : Scope) (new_id : String) (r : route_t)
    (hold : old ≠ some new_id) (sc : Scope) :
    (migrate s old new_id r).transitOf sc =
      if sc = some new_id then
        (s.transitOf (some new_id)).insert r ((s.transitOf old).count r)
      else if sc = old then ((s.transitOf old).clear r).1
      else s.transitOf sc := by
  have hne : ¬ some new_id = old := fun e => hold e.symm
  unfold migrate migrateTransit
  simp only [State.transitOf_setTransit, transitOf_migrateQueue, State.transitOf_emplaceBucket,
    State.transitOf_mapRoute, hne, if_false, CountedSet.clear]

/-! ## Counts of a `CountedSet` after its operations -/

theorem count_insert (t : CountedSet) (r r' c : Nat) (hc : c < 18446744073709551616)
    (ht : t.count r < 18446744073709551616) :
    (t.insert r c).count r' =
      if r' = r then (t.count r + c) % 18446744073709551616 else t.count r' := by
  unfold CountedSet.insert
  by_cases h0 : c = 0
  · subst h0
    by_cases e : r' = r
    · subst e
      simp only [if_true, Nat.add_zero]
      omega
    · simp [e]
  · simp only [h0, if_false]
    unfold CountedSet.count at ht ⊢
    cases hf : Map.find? r t.map with
    | none =>
      simp only [hf, Map.find?_put] at ht ⊢
      by_cases e : r' = r
      · simp only [e, if_true, Nat.zero_add]
        omega
      · simp [e]
    | some n =>
      simp only [hf, Map.find?_put, addSizeT] at ht ⊢
      by_cases e : r' = r
      · simp [e]
      · simp [e]

theorem count_erase_one {t t' : CountedSet} {r : Nat} (h : t.erase r 1 = .ok t') (r' : Nat) :
    1 ≤ t.count r ∧ t'.count r' = if r' = r then t.count r - 1 else t.count r' := by
  unfold CountedSet.erase at h
  simp only [one_ne_zero, if_false] at h
  unfold CountedSet.count
  cases hf : Map.find? r t.map with
  | none => simp [hf] at h
  | some c =>
    simp only [hf] at h
    by_cases hc : 1 > c
    · simp [hc] at h
    · simp only [hc, if_false] at h
      refine ⟨show 1 ≤ c by omega, ?_⟩
      by_cases hz : c - 1 = 0
      · simp only [hz, if_true, Except.ok.injEq] at h
        subst h
        simp only [Map.find?_erase]
        by_cases e : r' = r
        · simp only [e, if_true]
          omega
        · simp [e]
      · simp only [hz, if_false, Except.ok.injEq] at h
        subst h
        simp only [Map.find?_put]
        by_cases e : r' = r
        · simp [e]
        · simp [e]

theorem count_clear (t : CountedSet) (r r' : Nat) :
    (t.clear r).1.count r' = if r' = r then 0 else t.count r' := by
  unfold CountedSet.clear CountedSet.count
  simp only [Map.find?_erase]
  by_cases e : r' = r
  · simp [e]
  · simp [e]

theorem inFlight_append (r : route_t) (l : List Dispatch) (d : Dispatch) :
    inFlight r (l ++ [d]) = inFlight r l + if d.route = r then 1 else 0 := by
  unfold inFlight
  by_cases e : d.route = r <;> simp [List.filter_append, e]

theorem inFlight_erase (r : route_t) (l : List Dispatch) (d : Dispatch) (hd : d ∈ l) :
    inFlight r (l.erase d) + (if d.route = r then 1 else 0) = inFlight r l := by
  induction l with
  | nil => simp at hd
  | cons x xs ih =>
    by_cases e : x = d
    · subst e
      simp only [List.erase_cons_head]
      unfold inFlight
      by_cases e2 : x.route = r <;> simp [List.filter_cons, e2]
    · have hx : (x == d) = false := by simpa using e
      have hd' : d ∈ xs := by
        rcases List.mem_cons.1 hd with h | h
        · exact absurd h.symm e
        · exact h
      have := ih hd'
      simp only [List.erase_cons, hx]
      unfold inFlight at this ⊢
      by_cases e2 : x.route = r
      · simp only [Bool.false_eq_true, if_false, List.filter_cons, e2, decide_True, if_true,
          List.length_cons]
        omega
      · simp only [Bool.false_eq_true, if_false, List.filter_cons, e2, decide_False]
        exact this

theorem inFlight_pos (r : route_t) (l : List Dispatch) (d : Dispatch) (hd : d ∈ l)
    (hr : d.route = r) : 1 ≤ inFlight r l ∧ inFlight r l ≤ l.length := by
  unfold inFlight
  constructor
  · apply List.length_pos_of_mem
    exact List.mem_filter.2 ⟨hd, by simpa using hr⟩
  · exact List.length_filter_le _ _

/-! ## The in-flight counts follow the pending read continuations -/

theorem transitOf_onWrite (s : State) (r : route_t) (sc : Scope) :
    (onWrite s r).transitOf sc =
      if sc = s.scopeOf r then (s.transitOf (s.scopeOf r)).insert r 1 else s.transitOf sc := by
  unfold onWrite
  simp only [State.transitOf_setWriting, State.transitOf_setTransit]

theorem scopeOf_onWrite (s : State) (r r' : route_t) :
    (onWrite s r).scopeOf r' = s.scopeOf r' := by
  simp [State.scopeOf, onWrite]

theorem tinv_init (dl : Int) (gw : route_t) : TransitInv (Sys.init dl gw) := by
  intro r sc
  cases sc with
  | none => simp [Sys.init, State.transitOf, State.scopeOf, CountedSet.count, Map.find?, inFlight]
  | some k =>
    simp [Sys.init, State.transitOf, State.scopeOf, State.bucketAt, Bucket.fresh,
      CountedSet.count, Map.find?, inFlight]

/-- A task that changes neither an in-flight set, nor `route_to_bucket`, nor the pending
read continuations keeps the counts. -/
theorem tinv_frame {y y' : Sys} (h : TransitInv y)
    (ht : ∀ sc, y'.st.transitOf sc = y.st.transitOf sc)
    (hr : y'.st.route_to_bucket = y.st.route_to_bucket)
    (ha : y'.awaitingRead = y.awaitingRead) : TransitInv y' := by
  intro r sc
  rw [ht, ha]
  simp only [State.scopeOf, hr]
  exact h r sc

theorem tinv_count_lt {y : Sys} (h : TransitInv y) (r : route_t) (sc : Scope) :
    (y.st.transitOf sc).count r < 18446744073709551616 := by
  rw [h r sc]
  split
  · omega
  · omega

theorem tinv_write {y : Sys} (h : TransitInv y) (d : Dispatch) :
    TransitInv ⟨onWrite y.st d.route, y.submitted, y.sent, y.awaitingWrite.erase d,
      y.awaitingRead ++ [d]⟩ := by
  intro r sc
  simp only [scopeOf_onWrite, transitOf_onWrite, inFlight_append]
  have hlt := tinv_count_lt h d.route (y.st.scopeOf d.route)
  have hd := h d.route (y.st.scopeOf d.route)
  simp only [if_true] at hd
  by_cases e : sc = y.st.scopeOf d.route
  · subst e
    simp only [if_true]
    rw [count_insert _ _ _ _ (by omega) hlt]
    by_cases e2 : r = d.route
    · subst e2
      simp only [if_true]
      omega
    · have e3 : ¬ d.route = r := fun e' => e2 e'.symm
      simp only [e2, e3, if_false, Nat.add_zero]
      exact h r _
  · simp only [e, if_false]
    by_cases e2 : r = d.route
    · subst e2
      rw [h]
      simp [e]
    · have e3 : ¬ d.route = r := fun e' => e2 e'.symm
      simp only [e3, if_false, Nat.add_zero]
      exact h r sc

theorem scopeOf_migrate (s : State) (old : Scope) (new_id : String) (r r' : route_t) :
    (migrate s old new_id r).scopeOf r' = if r' = r then some new_id else s.scopeOf r' := by
  simp only [State.scopeOf, rtb_migrate, Map.find?_put]

theorem tinv_read {y : Sys} (hi : StInv y.st) (h : TransitInv y) (d : Dispatch)
    (hd : d ∈ y.awaitingRead) (msg : Reply) {s' : State}
    (ho : onRead y.st d.route msg = .ok s') :
    TransitInv ⟨s', y.submitted, y.sent, y.awaitingWrite, y.awaitingRead.erase d⟩ := by
  rw [onRead_eq hi] at ho
  cases ht : (y.st.transitOf (y.st.scopeOf d.route)).erase d.route 1 with
  | error e => simp [ht] at ho
  | ok t =>
    simp only [ht, Except.ok.injEq] at ho
    subst ho
    intro r sc
    have hsr : ∀ s0 : State, (refresh s0 msg.bucket msg).scopeOf r = s0.scopeOf r := by
      intro s0
      simp [State.scopeOf]
    simp only [transitOf_refresh, hsr]
    have hcr := count_erase_one ht r
    have hfl := inFlight_erase r y.awaitingRead d hd
    have hold := h r sc
    have hdd := h d.route (y.st.scopeOf d.route)
    simp only [if_true] at hdd
    have hs1 : (y.st.setTransit (y.st.scopeOf d.route) t).scopeOf r = y.st.scopeOf r := by
      simp [State.scopeOf]
    by_cases e : y.st.scopeOf d.route = some msg.bucket
    · simp only [e, if_true, State.transitOf_setTransit]
      rw [e] at hcr hdd
      have hs1' : (y.st.setTransit (some msg.bucket) t).scopeOf r = y.st.scopeOf r := by
        simp [State.scopeOf]
      rw [hs1']
      by_cases e1 : sc = some msg.bucket
      · subst e1
        simp only [if_true]
        rw [hcr.2]
        by_cases e2 : r = d.route
        · subst e2
          have h1 := hcr.1
          simp only [e, if_true] at hfl ⊢
          omega
        · have e3 : ¬ d.route = r := fun e' => e2 e'.symm
          simp only [e2, e3, if_false, Nat.add_zero] at hfl ⊢
          rw [hfl]
          exact hold
      · simp only [e1, if_false]
        by_cases e2 : r = d.route
        · subst e2
          rw [hold, e]
          simp [e1]
        · have e3 : ¬ d.route = r := fun e' => e2 e'.symm
          simp only [e3, if_false, Nat.add_zero] at hfl
          rw [hfl]
          exact hold
    · simp only [e, if_false]
      rw [transitOf_migrate _ _ _ _ e, scopeOf_migrate, hs1]
      simp only [State.transitOf_setTransit, if_true]
      have hne : ¬ some msg.bucket = y.st.scopeOf d.route := fun e' => e e'.symm
      simp only [hne, if_false]
      have hnew := h d.route (some msg.bucket)
      simp only [hne, if_false] at hnew
      have hnewr := h r (some msg.bucket)
      have hcd := count_erase_one ht d.route
      simp only [if_true] at hcd
      by_cases e1 : sc = some msg.bucket
      · subst e1
        simp only [if_true]
        rw [count_insert _ _ _ _ (by omega) (by omega)]
        by_cases e2 : r = d.route
        · subst e2
          simp only [if_true] at hfl ⊢
          omega
        · have e3 : ¬ d.route = r := fun e' => e2 e'.symm
          simp only [e2, e3, if_false, Nat.add_zero] at hfl ⊢
          rw [hfl]
          exact hnewr
      · simp only [e1, if_false]
        by_cases e4 : sc = y.st.scopeOf d.route
        · subst e4
          simp only [if_true]
          rw [count_clear]
          by_cases e2 : r = d.route
          · subst e2
            simp [e]
          · have e3 : ¬ d.route = r := fun e' => e2 e'.symm
            simp only [e2, e3, if_false, Nat.add_zero] at hfl hcr ⊢
            rw [hcr.2, hfl]
            exact hold
        · simp only [e4, if_false]
          by_cases e2 : r = d.route
          · subst e2
            rw [hold]
            simp [e1, e4]
          · have e3 : ¬ d.route = r := fun e' => e2 e'.symm
            simp only [e2, e3, if_false, Nat.add_zero] at hfl ⊢
            rw [hfl]
            exact hold

theorem tinv_step {y y' : Sys} (hi : Inv y) (h : TransitInv y) (e : Event)
    (hs : step y e = some y') : TransitInv y' := by
  cases e with
  | submit c =>
    simp only [step] at hs
    split at hs
    · simp only [Option.some.injEq] at hs
      subst hs
      exact tinv_frame h (fun sc => transitOf_call _ _ sc) (by simp [call]) rfl
    · simp at hs
  | pass =>
    simp only [step] at hs
    split at hs
    · simp at hs
    · rename_i s hw
      simp only [Option.some.injEq] at hs
      subst hs
      exact tinv_frame h (fun sc => transitOf_do_some_work hw sc) (do_some_work_rtb hw).1 rfl
    · rename_i s d hw
      simp only [Option.some.injEq] at hs
      subst hs
      exact tinv_frame h (fun sc => transitOf_do_some_work hw sc) (do_some_work_rtb hw).1 rfl
  | write d =>
    simp only [step] at hs
    split at hs
    · simp only [Option.some.injEq] at hs
      subst hs
      exact tinv_write h d
    · simp at hs
  | read d msg =>
    simp only [step] at hs
    split at hs
    · rename_i hc
      split at hs
      · simp at hs
      · rename_i s ho
        simp only [Option.some.injEq] at hs
        subst hs
        exact tinv_read hi.st h d hc.1 msg ho
    · simp at hs
  | expiry owner failed =>
    simp only [step] at hs
    split at hs
    · simp at hs
    · split at hs
      · simp only [Option.some.injEq] at hs
        subst hs
        refine tinv_frame h (fun sc => transitOf_onTimer _ _ _ sc) ?_ rfl
        unfold onTimer
        split <;> simp
      · simp at hs

theorem tinv_run {y y' : Sys} (es : List Event) (hi : Inv y) (h : TransitInv y)
    (hr : run y es = some y') : TransitInv y' := by
  induction es generalizing y with
  | nil =>
    simp only [run, Option.some.injEq] at hr
    subst hr
    exact h
  | cons e es ih =>
    simp only [run] at hr
    cases hs : step y e with
    | none => simp [hs] at hr
    | some y1 =>
      simp only [hs] at hr
      exact ih (inv_step hi e hs) (tinv_step hi h e hs) hr

theorem tinv_of_reachable {y : Sys} (h : Reachable y) : TransitInv y := by
  obtain ⟨dl, gw, es, hdl, hr⟩ := h
  exact tinv_run es (inv_init dl gw hdl) (tinv_init dl gw) hr

theorem erase_one_ok (t : CountedSet) (r : Nat) (h : 1 ≤ t.count r) :
    ∃ t', t.erase r 1 = .ok t' := by
  unfold CountedSet.count at h
  unfold CountedSet.erase
  simp only [one_ne_zero, if_false]
  cases hf : Map.find? r t.map with
  | none => simp [hf] at h
  | some n =>
    simp only [hf] at h
    have hn : ¬ 1 > n := by omega
    simp only [hn, if_false]
    split
    · exact ⟨_, rfl⟩
    · exact ⟨_, rfl⟩

/-- C18: in every state of an execution (the write continuation of a dispatch runs once,
its read continuation at most once and after it) that holds fewer than 2^64 dispatches
awaiting their read continuation, for every such dispatch `d` the scope the route key
`d.route` is mapped to now (its bucket if mapped, else the uncategorized scope) counts for
that key exactly the dispatches of the key that await their read continuation, which is
at least 1; so the `erase(route)` at the start of the read continuation does not fail,
the read continuation runs to its end without error, and the task `read d msg` can occur
for every reply with 32 bit values and a `remaining` that is not negative. The route key
may have migrated since the write continuation ran. -/
theorem C18_read_erase_never_fails (y : Sys) (h : Reachable y) (d : Dispatch)
    (hd : d ∈ y.awaitingRead) (hlen : y.awaitingRead.length < 18446744073709551616) :
    (y.st.transitOf (y.st.scopeOf d.route)).count d.route = inFlight d.route y.awaitingRead ∧
    1 ≤ (y.st.transitOf (y.st.scopeOf d.route)).count d.route ∧
    (∃ t, (y.st.transitOf (y.st.scopeOf d.route)).erase d.route 1 = .ok t) ∧
    (∀ msg, ∃ s', onRead y.st d.route msg = .ok s') ∧
    ∀ msg, 0 ≤ msg.remaining → IsInt32 msg.remaining → IsInt32 msg.limit →
      ∃ y', step y (.read d msg) = some y' := by
  have hi := inv_of_reachable h
  have ht := tinv_of_reachable h d.route (y.st.scopeOf d.route)
  simp only [if_true] at ht
  have hp := inFlight_pos d.route y.awaitingRead d hd rfl
  have hc : (y.st.transitOf (y.st.scopeOf d.route)).count d.route =
      inFlight d.route y.awaitingRead := by
    rw [ht]
    exact Nat.mod_eq_of_lt (by omega)
  have h1 : 1 ≤ (y.st.transitOf (y.st.scopeOf d.route)).count d.route := by
    rw [hc]
    exact hp.1
  obtain ⟨t, het⟩ := erase_one_ok _ _ h1
  have hor : ∀ msg, ∃ s', onRead y.st d.route msg = .ok s' := by
    intro msg
    rw [onRead_eq hi.st, het]
    exact ⟨_, rfl⟩
  refine ⟨hc, h1, ⟨t, het⟩, hor, ?_⟩
  intro msg h0 hr hl
  obtain ⟨s', hs'⟩ := hor msg
  refine ⟨⟨s', y.submitted, y.sent, y.awaitingWrite, y.awaitingRead.erase d⟩, ?_⟩
  simp only [step, hd, h0, hr, hl, and_self, if_true, hs']

theorem C18_witness :
    (⟨7, callB⟩ : Dispatch) ∈ firstReplied.awaitingRead ∧
    1 ≤ (firstReplied.st.transitOf (firstReplied.st.scopeOf 7)).count 7 ∧
    ∃ s', onRead firstReplied.st 7 replyX = .ok s' :=
  have h := C18_read_erase_never_fails firstReplied reachable_firstReplied ⟨7, callB⟩
    (by decide) (by decide)
  ⟨by decide, h.2.1, h.2.2.2.1 replyX⟩

/-! ## The member `sum` and the sum of the counts -/

theorem sumCounts_put (k v : Nat) (m : Map Nat Nat) :
    ((Map.put k v m).map Prod.snd).sum + (Map.find? k m).elim 0 id =
      v + (m.map Prod.snd).sum :=
  weight_put (fun m => (m.map Prod.snd).sum) id rfl (fun _ _ _ => by simp) k v m

theorem sumCounts_erase (k : Nat) (m : Map Nat Nat) (hn : (Map.keys m).Nodup) :
    ((Map.erase k m).map Prod.snd).sum + (Map.find? k m).elim 0 id =
      (m.map Prod.snd).sum :=
  weight_erase (fun m => (m.map Prod.snd).sum) id (fun _ _ _ => by simp) k m hn

/-- After `insert(t)`: `sum` went up by one (as a `size_t`), the sum of the counts by at
most one. -/
theorem insert_one_spec (t : CountedSet) (r : Nat) (hn : (Map.keys t.map).Nodup) :
    (t.insert r 1).sum = addSizeT t.sum 1 ∧ (t.insert r 1).sumCounts ≤ t.sumCounts + 1 ∧
      (Map.keys (t.insert r 1).map).Nodup := by
  unfold CountedSet.insert CountedSet.sumCounts
  simp only [one_ne_zero, if_false]
  cases hf : Map.find? r t.map with
  | none =>
    have := sumCounts_put r 1 t.map
    simp only [hf, Option.elim] at this
    exact ⟨rfl, by simp only; omega, Map.nodup_put r 1 hn⟩
  | some n =>
    have := sumCounts_put r (addSizeT n 1) t.map
    simp only [hf, Option.elim, id] at this
    have h2 : addSizeT n 1 ≤ n + 1 := by
      unfold addSizeT
      exact Nat.mod_le _ _
    exact ⟨rfl, by simp only; omega, Map.nodup_put r _ hn⟩

/-- After a successful `erase(t)`: `sum` went down by one (as a `size_t`), and so did the
sum of the counts. -/
theorem erase_one_spec {t t' : CountedSet} {r : Nat} (h : t.erase r 1 = .ok t')
    (hn : (Map.keys t.map).Nodup) :
    t'.sum = subSizeT t.sum 1 ∧ t'.sumCounts + 1 = t.sumCounts ∧
      (Map.keys t'.map).Nodup := by
  unfold CountedSet.erase at h
  simp only [one_ne_zero, if_false] at h
  unfold CountedSet.sumCounts
  cases hf : Map.find? r t.map with
  | none => simp [hf] at h
  | some c =>
    simp only [hf] at h
    by_cases hc : 1 > c
    · simp [hc] at h
    · simp only [hc, if_false] at h
      by_cases hz : c - 1 = 0
      · simp only [hz, if_true, Except.ok.injEq] at h
        subst h
        have := sumCounts_erase r t.map hn
        simp only [hf, Option.elim, id] at this
        exact ⟨rfl, by simp only; omega, Map.nodup_erase r hn⟩
      · simp only [hz, if_false, Except.ok.injEq] at h
        subst h
        have := sumCounts_put r (c - 1) t.map
        simp only [hf, Option.elim, id] at this
        exact ⟨rfl, by simp only; omega, Map.nodup_put r _ hn⟩

/-- After `clear(t)`: `sum` is what it was, the sum of the counts did not go up. -/
theorem clear_spec (t : CountedSet) (r : Nat) (hn : (Map.keys t.map).Nodup) :
    (t.clear r).1.sum = t.sum ∧ (t.clear r).1.sumCounts ≤ t.sumCounts ∧
      (Map.keys (t.clear r).1.map).Nodup := by
  unfold CountedSet.clear CountedSet.sumCounts
  have := sumCounts_erase r t.map hn
  exact ⟨rfl, by simp only; omega, Map.nodup_erase r hn⟩

/-! ## The `limit` and `remaining` of the buckets through the operations -/

theorem limits_setQueues (s : State) (sc : Scope) (qs : QueueByRoute) (k : String) :
    ((s.setQueues sc qs).bucketAt k).remaining = (s.bucketAt k).remaining ∧
    ((s.setQueues sc qs).bucketAt k).limit = (s.bucketAt k).limit := by
  cases sc with
  | none => exact ⟨rfl, rfl⟩
  | some k0 =>
    simp only [State.setQueues, State.bucketAt_setBucket]
    by_cases e : k = k0
    · subst e
      simp
    · simp [e]

theorem limits_setTransit (s : State) (sc : Scope) (t : CountedSet) (k : String) :
    ((s.setTransit sc t).bucketAt k).remaining = (s.bucketAt k).remaining ∧
    ((s.setTransit sc t).bucketAt k).limit = (s.bucketAt k).limit := by
  cases sc with
  | none => exact ⟨rfl, rfl⟩
  | some k0 =>
    simp only [State.setTransit, State.bucketAt_setBucket]
    by_cases e : k = k0
    · subst e
      simp
    · simp [e]

theorem limits_emplaceBucket (s : State) (id k : String) :
    ((s.emplaceBucket id).bucketAt k).remaining = (s.bucketAt k).remaining ∧
    ((s.emplaceBucket id).bucketAt k).limit = (s.bucketAt k).limit := by
  unfold State.emplaceBucket
  by_cases hc : Map.contains id s.buckets = true
  · simp [hc]
  · simp only [hc, Bool.false_eq_true, if_false, State.bucketAt_setBucket]
    by_cases e : k = id
    · subst e
      have : s.bucketAt k = Bucket.fresh :=
        State.bucketAt_of_not_contains s k (by simpa using hc)
      simp [this, Bucket.fresh]
    · simp [e]

theorem limits_migrateQueue (s : State) (src : Scope) (dst : String) (r : route_t)
    (k : String) :
    ((migrateQueue s src dst r).bucketAt k).remaining = (s.bucketAt k).remaining ∧
    ((migrateQueue s src dst r).bucketAt k).limit = (s.bucketAt k).limit := by
  unfold migrateQueue
  split
  · exact ⟨rfl, rfl⟩
  · simp only
    split
    · exact limits_setQueues _ _ _ _
    · have h1 := limits_setQueues s src (Map.erase r (s.queuesOf src)) k
      have h2 := limits_setQueues (s.setQueues src (Map.erase r (s.queuesOf src))) (some dst)
        (Map.put r ‹_› ((s.setQueues src (Map.erase r (s.queuesOf src))).queuesOf (some dst))) k
      exact ⟨h2.1.trans h1.1, h2.2.trans h1.2⟩

theorem limits_migrate (s : State) (old : Scope) (new_id : String) (r : route_t)
    (k : String) :
    ((migrate s old new_id r).bucketAt k).remaining = (s.bucketAt k).remaining ∧
    ((migrate s old new_id r).bucketAt k).limit = (s.bucketAt k).limit := by
  unfold migrate migrateTransit
  simp only
  have h1 := limits_emplaceBucket (s.mapRoute r new_id) new_id k
  simp only [State.bucketAt_mapRoute] at h1
  have h2 := limits_migrateQueue ((s.mapRoute r new_id).emplaceBucket new_id) old new_id r k
  constructor
  · rw [(limits_setTransit _ _ _ _).1, (limits_setTransit _ _ _ _).1, h2.1, h1.1]
  · rw [(limits_setTransit _ _ _ _).2, (limits_setTransit _ _ _ _).2, h2.2, h1.2]

/-! ## The bound on the uncategorized in-flight total -/

theorem fixed_migrateQueue (s : State) (src : Scope) (dst : String) (r : route_t) :
    (migrateQueue s src dst r).defaultLimit = s.defaultLimit ∧
    (migrateQueue s src dst r).writing = s.writing := by
  unfold migrateQueue
  split
  · exact ⟨rfl, rfl⟩
  · simp only
    split <;> simp

theorem fixed_migrate (s : State) (old : Scope) (new_id : String) (r : route_t) :
    (migrate s old new_id r).defaultLimit = s.defaultLimit ∧
    (migrate s old new_id r).writing = s.writing := by
  unfold migrate migrateTransit
  simp only [State.defaultLimit_setTransit, State.writing_setTransit]
  rw [(fixed_migrateQueue _ _ _ _).1, (fixed_migrateQueue _ _ _ _).2]
  unfold State.emplaceBucket
  split <;> simp

theorem fixed_refresh (s : State) (k : String) (msg : Reply) :
    (refresh s k msg).defaultLimit = s.defaultLimit ∧ (refresh s k msg).writing = s.writing :=
  ⟨rfl, rfl⟩

theorem fixed_onTimer (s : State) (owner : String) (failed : Bool) :
    (onTimer s owner failed).defaultLimit = s.defaultLimit ∧
    (onTimer s owner failed).writing = s.writing ∧
    (onTimer s owner failed).route_to_bucket = s.route_to_bucket := by
  unfold onTimer
  split <;> simp

theorem fixed_call (s : State) (c : Call) :
    (call s c).defaultLimit = s.defaultLimit ∧ (call s c).writing = s.writing ∧
    (call s c).route_to_bucket = s.route_to_bucket := by
  simp [call]

theorem uinv_init (dl : Int) (gw : route_t) (h0 : 0 ≤ dl) : UInv (Sys.init dl gw) where
  nonneg := by
    refine ⟨h0, ?_⟩
    intro k
    simp [Sys.init, State.bucketAt, Map.find?, Bucket.fresh]
  guard := by simp [Sys.init]
  nodupT := by simp [Sys.init, Map.keys]
  counts := by simp [Sys.init, CountedSet.sumCounts]
  bound := by
    simp only [Sys.init, pendingUncategorized, List.filter_nil, List.length_nil]
    exact h0

/-- A task that touches neither the uncategorized in-flight set, nor `route_to_bucket`,
nor the guard, nor the pending write continuations keeps the bound. -/
theorem uinv_frame {y y' : Sys} (h : UInv y)
    (hd : y'.st.defaultLimit = y.st.defaultLimit)
    (hb : ∀ k, 0 ≤ (y'.st.bucketAt k).remaining ∧ 0 ≤ (y'.st.bucketAt k).limit)
    (hw : y'.st.writing = y.st.writing) (ha : y'.awaitingWrite = y.awaitingWrite)
    (ht : y'.st.transit = y.st.transit)
    (hr : y'.st.route_to_bucket = y.st.route_to_bucket) : UInv y' where
  nonneg := ⟨by rw [hd]; exact h.nonneg.1, hb⟩
  guard := by
    rw [ha, hw]
    exact h.guard
  nodupT := by
    rw [ht]
    exact h.nodupT
  counts := by
    rw [ht]
    exact h.counts
  bound := by
    have : pendingUncategorized y' = pendingUncategorized y := by
      simp only [pendingUncategorized, State.scopeOf, ha, hr]
    rw [ht, hd, this]
    exact h.bound

theorem uinv_submit {y : Sys} (h : UInv y) (c : Call) :
    UInv ⟨call y.st c, y.submitted ++ [c], y.sent, y.awaitingWrite, y.awaitingRead⟩ := by
  refine uinv_frame h (fixed_call _ _).1 ?_ (fixed_call _ _).2.1 rfl ?_ (fixed_call _ _).2.2
  · intro k
    have := limits_setQueues y.st (y.st.scopeOf c.route)
      ((call y.st c).queuesOf (y.st.scopeOf c.route)) k
    have e : (call y.st c) = y.st.setQueues (y.st.scopeOf c.route)
        ((call y.st c).queuesOf (y.st.scopeOf c.route)) := by
      unfold call
      simp only [State.queuesOf_setQueues, if_true]
    rw [e, this.1, this.2]
    exact h.nonneg.2 k
  · exact transitOf_call y.st c none

theorem uinv_expiry {y : Sys} (h : UInv y) (owner : String) (failed : Bool) :
    UInv ⟨onTimer y.st owner failed, y.submitted, y.sent, y.awaitingWrite,
      y.awaitingRead⟩ := by
  refine uinv_frame h (fixed_onTimer _ _ _).1 ?_ (fixed_onTimer _ _ _).2.1 rfl ?_
    (fixed_onTimer _ _ _).2.2
  · intro k
    unfold onTimer
    by_cases hf : failed = true
    · simp only [hf, if_true]
      exact h.nonneg.2 k
    · simp only [hf, Bool.false_eq_true, if_false, State.bucketAt_setBucket]
      by_cases e : k = owner
      · subst e
        simp only [if_true]
        exact ⟨(h.nonneg.2 k).2, (h.nonneg.2 k).2⟩
      · simp only [e, if_false]
        exact h.nonneg.2 k
  · exact transitOf_onTimer y.st owner failed none

/-! ## The bound through a pass, a write continuation and a read continuation -/

/-- With no negative `remaining` and no negative `defaultLimit`, the loops of the pass
end with a `min_remaining` that is not negative. -/
theorem min_remaining_nonneg {s : State} (hi : StInv s) (h0 : 0 ≤ s.defaultLimit)
    (hb : ∀ k, 0 ≤ (s.bucketAt k).remaining) {sc : Scan} (h : scan s = .ok sc) :
    0 ≤ sc.min_remaining ∧ sc.min_remaining ≤ s.defaultLimit := by
  obtain ⟨_, _, hle, hcap, hglb, _, _⟩ := scan_spec hi h
  refine ⟨hglb 0 h0 ?_, hle⟩
  intro k b hm hg
  have hbk := bucketAt_of_find? (Map.find?_of_mem hi.nodupB hm)
  have h1 := hb k
  have h2 := (hi.int32.2 k).1
  rw [hbk] at h1 h2
  have h3 := (hcap k b hm hg).1
  rw [capacity_exact h1 h2 h3]
  have := toSizeT_of_nonneg h1 h2
  omega

theorem uinv_pass {y : Sys} (hi : Inv y) (h : UInv y) {s' : State} {d : Dispatch}
    (hw : do_some_work y.st = .ok (s', some d)) :
    UInv ⟨s', y.submitted, y.sent ++ [d.call], y.awaitingWrite ++ [d], y.awaitingRead⟩ := by
  obtain ⟨sc, rest, hs, _, ha, hf, he⟩ := do_some_work_some_scope hi.st hw
  have hwr := (do_some_work_some hw).1
  have haw := h.guard.2 hwr
  have hsc := (dispatch_scope hi.st hf).1
  have hsr : ∀ r, s'.scopeOf r = y.st.scopeOf r := by
    intro r
    simp [he, State.scopeOf]
  have htr : s'.transit = y.st.transit := by
    rw [he]
    exact State.transitOf_setQueues (y.st.setWriting true) sc.next_bucket none _
  have hdl : s'.defaultLimit = y.st.defaultLimit := by
    simp [he]
  have hwt : s'.writing = true := by
    simp [he]
  have hlim : ∀ k, (s'.bucketAt k).remaining = (y.st.bucketAt k).remaining ∧
      (s'.bucketAt k).limit = (y.st.bucketAt k).limit := by
    intro k
    rw [he]
    have := limits_setQueues (y.st.setWriting true) sc.next_bucket
      (if rest = [] then Map.erase d.route (y.st.queuesOf sc.next_bucket)
       else Map.put d.route rest (y.st.queuesOf sc.next_bucket)) k
    simpa only [State.bucketAt_setWriting] using this
  refine { nonneg := ⟨?_, ?_⟩, guard := ?_, nodupT := ?_, counts := ?_, bound := ?_ }
  · show 0 ≤ s'.defaultLimit
    rw [hdl]
    exact h.nonneg.1
  · intro k
    show 0 ≤ (s'.bucketAt k).remaining ∧ 0 ≤ (s'.bucketAt k).limit
    rw [(hlim k).1, (hlim k).2]
    exact h.nonneg.2 k
  · show (y.awaitingWrite ++ [d]).length ≤ 1 ∧ (s'.writing = false → y.awaitingWrite ++ [d] = [])
    simp [haw, hwt]
  · show (Map.keys s'.transit.map).Nodup
    rw [htr]
    exact h.nodupT
  · show s'.transit.sumCounts ≤ s'.transit.sum
    rw [htr]
    exact h.counts
  · simp only [pendingUncategorized, hsr, htr, hdl, haw, List.nil_append]
    have hb := h.bound
    simp only [pendingUncategorized, haw, List.filter_nil, List.length_nil,
      Nat.add_zero] at hb
    cases hnb : sc.next_bucket with
    | some k =>
      rw [hnb] at hsc
      simp only [List.filter_cons, hsc, Option.isNone_some, Bool.false_eq_true, if_false,
        List.filter_nil, List.length_nil, Nat.add_zero]
      exact hb
    | none =>
      rw [hnb] at hsc
      simp only [List.filter_cons, hsc, Option.isNone_none, if_true, List.filter_nil,
        List.length_cons, List.length_nil]
      obtain ⟨hm0, hm1⟩ := min_remaining_nonneg hi.st h.nonneg.1
        (fun k => (h.nonneg.2 k).1) hs
      have h32 : IsInt32 sc.min_remaining := by
        have := hi.st.int32.1
        unfold IsInt32 at *
        omega
      have hts := toSizeT_of_nonneg hm0 h32
      have hlt : y.st.transit.total < toSizeT sc.min_remaining := by
        by_contra hc
        exact ha ⟨hnb, Or.inr (by omega)⟩
      unfold CountedSet.total at hlt
      push_cast
      omega

theorem uinv_write {y : Sys} (hi : Inv y) (h : UInv y) (d : Dispatch)
    (hd : d ∈ y.awaitingWrite) :
    UInv ⟨onWrite y.st d.route, y.submitted, y.sent, y.awaitingWrite.erase d,
      y.awaitingRead ++ [d]⟩ := by
  have haw : y.awaitingWrite = [d] := by
    have hl := h.guard.1
    cases hq : y.awaitingWrite with
    | nil => simp [hq] at hd
    | cons x xs =>
      rw [hq] at hd hl
      cases xs with
      | nil =>
        simp only [List.mem_singleton] at hd
        rw [hd]
      | cons x2 xs2 =>
        simp only [List.length_cons] at hl
        omega
  have her : y.awaitingWrite.erase d = [] := by
    rw [haw]
    simp
  have hdl : (onWrite y.st d.route).defaultLimit = y.st.defaultLimit := by
    simp [onWrite]
  have hlim : ∀ k, ((onWrite y.st d.route).bucketAt k).remaining = (y.st.bucketAt k).remaining ∧
      ((onWrite y.st d.route).bucketAt k).limit = (y.st.bucketAt k).limit := by
    intro k
    unfold onWrite
    simp only [State.bucketAt_setWriting]
    exact limits_setTransit _ _ _ _
  have htr := transitOf_onWrite y.st d.route none
  have hb := h.bound
  simp only [pendingUncategorized, haw, List.filter_cons, List.filter_nil] at hb
  have h32 := hi.st.int32.1
  unfold IsInt32 at h32
  have hT : (Map.keys (onWrite y.st d.route).transit.map).Nodup ∧
      (onWrite y.st d.route).transit.sumCounts ≤ (onWrite y.st d.route).transit.sum ∧
      (((onWrite y.st d.route).transit.sum : Nat) : Int) ≤ y.st.defaultLimit := by
    have e0 : (onWrite y.st d.route).transit = (onWrite y.st d.route).transitOf none := rfl
    rw [e0, htr]
    cases hsc : y.st.scopeOf d.route with
    | none =>
      simp only [if_true, State.transitOf]
      simp only [hsc, Option.isNone_none, if_true, List.length_cons, List.length_nil] at hb
      obtain ⟨i1, i2, i3⟩ := insert_one_spec y.st.transit d.route h.nodupT
      have hc := h.counts
      rw [i1]
      unfold addSizeT
      refine ⟨i3, ?_, ?_⟩
      · rw [Nat.mod_eq_of_lt (by omega)]
        omega
      · rw [Nat.mod_eq_of_lt (by omega)]
        push_cast at hb ⊢
        omega
    | some k =>
      simp only [reduceCtorEq, if_false, State.transitOf]
      refine ⟨h.nodupT, h.counts, ?_⟩
      push_cast at hb
      omega
  refine { nonneg := ⟨?_, ?_⟩, guard := ?_, nodupT := hT.1, counts := hT.2.1, bound := ?_ }
  · show 0 ≤ (onWrite y.st d.route).defaultLimit
    rw [hdl]
    exact h.nonneg.1
  · intro k
    show 0 ≤ ((onWrite y.st d.route).bucketAt k).remaining ∧
      0 ≤ ((onWrite y.st d.route).bucketAt k).limit
    rw [(hlim k).1, (hlim k).2]
    exact h.nonneg.2 k
  · show (y.awaitingWrite.erase d).length ≤ 1 ∧
      ((onWrite y.st d.route).writing = false → y.awaitingWrite.erase d = [])
    simp [her]
  · simp only [pendingUncategorized, her, List.filter_nil, List.length_nil, Nat.add_zero, hdl]
    exact hT.2.2

theorem length_filter_mono {α : Type} (p q : α → Bool) (l : List α)
    (h : ∀ a, p a = true → q a = true) : (l.filter p).length ≤ (l.filter q).length := by
  induction l with
  | nil => simp
  | cons x xs ih =>
    by_cases hp : p x = true
    · simp only [List.filter_cons, hp, h x hp, if_true, List.length_cons]
      omega
    · by_cases hq : q x = true
      · simp only [List.filter_cons, hp, hq, if_true, Bool.false_eq_true, if_false,
          List.length_cons]
        omega
      · simp only [List.filter_cons, hp, hq, if_false]
        exact ih

/-- What lines 145-170 of the read continuation leave of the members the bound speaks
about. `S` is the state before the bucket is refreshed from the reply. -/
theorem read_core {s S : State} (r : route_t) (mb : String) {t : CountedSet}
    (hS : S = if s.scopeOf r = some mb then s.setTransit (s.scopeOf r) t
      else migrate (s.setTransit (s.scopeOf r) t) (s.scopeOf r) mb r) :
    S.defaultLimit = s.defaultLimit ∧ S.writing = s.writing ∧
    (∀ k, (S.bucketAt k).remaining = (s.bucketAt k).remaining ∧
      (S.bucketAt k).limit = (s.bucketAt k).limit) ∧
    (∀ r', (S.scopeOf r').isNone = true → (s.scopeOf r').isNone = true) ∧
    (S.transit = s.transit ∨ (s.scopeOf r = none ∧ S.transit = (t.clear r).1)) := by
  subst hS
  by_cases e : s.scopeOf r = some mb
  · simp only [e, if_true]
    refine ⟨by simp, by simp, fun k => limits_setTransit _ _ _ _, ?_, Or.inl rfl⟩
    intro r' hr'
    simpa [State.scopeOf] using hr'
  · simp only [e, if_false]
    refine ⟨?_, ?_, ?_, ?_, ?_⟩
    · rw [(fixed_migrate _ _ _ _).1]
      simp
    · rw [(fixed_migrate _ _ _ _).2]
      simp
    · intro k
      have h1 := limits_migrate (s.setTransit (s.scopeOf r) t) (s.scopeOf r) mb r k
      have h2 := limits_setTransit s (s.scopeOf r) t k
      exact ⟨h1.1.trans h2.1, h1.2.trans h2.2⟩
    · intro r' hr'
      rw [scopeOf_migrate] at hr'
      by_cases e2 : r' = r
      · simp [e2] at hr'
      · simpa [e2, State.scopeOf] using hr'
    · have hm := transitOf_migrate (s.setTransit (s.scopeOf r) t) (s.scopeOf r) mb r e none
      simp only [reduceCtorEq, if_false, State.transitOf_setTransit] at hm
      cases hsc : s.scopeOf r with
      | none =>
        right
        simp only [hsc, if_true] at hm
        exact ⟨rfl, hm⟩
      | some k =>
        left
        simp only [hsc, reduceCtorEq, if_false] at hm
        exact hm

/-- The uncategorized in-flight set after lines 145-170 of the read continuation: its
`sum` did not go up and still bounds the sum of its counts. -/
theorem read_transit {y : Sys} (hi : Inv y) (h : UInv y) (r : route_t) {t : CountedSet}
    (ht : (y.st.transitOf (y.st.scopeOf r)).erase r 1 = .ok t) {S : State}
    (c5 : S.transit = y.st.transit ∨ (y.st.scopeOf r = none ∧ S.transit = (t.clear r).1)) :
    (Map.keys S.transit.map).Nodup ∧ S.transit.sumCounts ≤ S.transit.sum ∧
      S.transit.sum ≤ y.st.transit.sum := by
  have h32 := hi.st.int32.1
  unfold IsInt32 at h32
  have hb := h.bound
  rcases c5 with c5 | ⟨hsc, c5⟩
  · rw [c5]
    exact ⟨h.nodupT, h.counts, le_refl _⟩
  · rw [c5]
    rw [hsc] at ht
    obtain ⟨e1, e2, e3⟩ := erase_one_spec ht h.nodupT
    obtain ⟨k1, k2, k3⟩ := clear_spec t r e3
    have hc := h.counts
    simp only [State.transitOf] at e1 e2
    rw [k1, e1]
    unfold subSizeT
    have hlt : y.st.transit.sum < 18446744073709551616 := by
      push_cast at hb
      omega
    refine ⟨k3, ?_, ?_⟩
    · omega
    · omega

theorem uinv_read {y : Sys} (hi : Inv y) (h : UInv y) (d : Dispatch) (msg : Reply)
    (hl : 0 ≤ msg.limit) (hr : 0 ≤ msg.remaining) {s' : State}
    (ho : onRead y.st d.route msg = .ok s') :
    UInv ⟨s', y.submitted, y.sent, y.awaitingWrite, y.awaitingRead.erase d⟩ := by
  rw [onRead_eq hi.st] at ho
  cases ht : (y.st.transitOf (y.st.scopeOf d.route)).erase d.route 1 with
  | error e => simp [ht] at ho
  | ok t =>
    simp only [ht, Except.ok.injEq] at ho
    obtain ⟨c1, c2, c3, c4, c5⟩ := read_core (s := y.st) d.route msg.bucket (t := t) rfl
    generalize (if y.st.scopeOf d.route = some msg.bucket then
        y.st.setTransit (y.st.scopeOf d.route) t
      else migrate (y.st.setTransit (y.st.scopeOf d.route) t) (y.st.scopeOf d.route)
        msg.bucket d.route) = S at ho c1 c2 c3 c4 c5
    subst ho
    have htr : (refresh S msg.bucket msg).transit = S.transit :=
      transitOf_refresh S msg.bucket msg none
    have hsr : ∀ r, (refresh S msg.bucket msg).scopeOf r = S.scopeOf r := by
      intro r
      simp [State.scopeOf]
    have h32 := hi.st.int32.1
    unfold IsInt32 at h32
    have hb := h.bound
    have hpend : (y.awaitingWrite.filter
        (fun d => ((refresh S msg.bucket msg).scopeOf d.route).isNone)).length ≤
        pendingUncategorized y := by
      unfold pendingUncategorized
      apply length_filter_mono
      intro a ha
      rw [hsr] at ha
      exact c4 a.route ha
    have hT := read_transit hi h d.route ht c5
    refine { nonneg := ⟨?_, ?_⟩, guard := ?_, nodupT := ?_, counts := ?_, bound := ?_ }
    · show 0 ≤ (refresh S msg.bucket msg).defaultLimit
      rw [(fixed_refresh _ _ _).1, c1]
      exact h.nonneg.1
    · intro k
      show 0 ≤ ((refresh S msg.bucket msg).bucketAt k).remaining ∧
        0 ≤ ((refresh S msg.bucket msg).bucketAt k).limit
      unfold refresh
      simp only [State.bucketAt_setBucket]
      have hk := h.nonneg.2 k
      rw [← (c3 k).1, ← (c3 k).2] at hk
      by_cases e : k = msg.bucket
      · subst e
        simp only [if_true]
        exact ⟨le_min hk.1 hr, hl⟩
      · simp only [e, if_false]
        exact hk
    · show y.awaitingWrite.length ≤ 1 ∧
        ((refresh S msg.bucket msg).writing = false → y.awaitingWrite = [])
      rw [(fixed_refresh _ _ _).2, c2]
      exact h.guard
    · show (Map.keys (refresh S msg.bucket msg).transit.map).Nodup
      rw [htr]
      exact hT.1
    · show (refresh S msg.bucket msg).transit.sumCounts ≤ (refresh S msg.bucket msg).transit.sum
      rw [htr]
      exact hT.2.1
    · show (((refresh S msg.bucket msg).transit.sum + (y.awaitingWrite.filter
        (fun d => ((refresh S msg.bucket msg).scopeOf d.route).isNone)).length : Nat) : Int) ≤
        (refresh S msg.bucket msg).defaultLimit
      rw [htr, (fixed_refresh _ _ _).1, c1]
      have := hT.2.2
      push_cast at hb ⊢
      omega

theorem uinv_step {y y' : Sys} (hi : Inv y) (h : UInv y) (e : Event)
    (hl : ∀ d msg, e = .read d msg → 0 ≤ msg.limit)
    (hs : step y e = some y') : UInv y' := by
  cases e with
  | submit c =>
    simp only [step] at hs
    split at hs
    · simp only [Option.some.injEq] at hs
      subst hs
      exact uinv_submit h c
    · simp at hs
  | pass =>
    simp only [step] at hs
    split at hs
    · simp at hs
    · rename_i s hw
      simp only [Option.some.injEq] at hs
      subst hs
      have := do_some_work_none hw
      subst this
      exact h
    · rename_i s d hw
      simp only [Option.some.injEq] at hs
      subst hs
      exact uinv_pass hi h hw
  | write d =>
    simp only [step] at hs
    split at hs
    · rename_i hd
      simp only [Option.some.injEq] at hs
      subst hs
      exact uinv_write hi h d hd
    · simp at hs
  | read d msg =>
    simp only [step] at hs
    split at hs
    · rename_i hc
      split at hs
      · simp at hs
      · rename_i s ho
        simp only [Option.some.injEq] at hs
        subst hs
        exact uinv_read hi h d msg (hl d msg rfl) hc.2.1 ho
    · simp at hs
  | expiry owner failed =>
    simp only [step] at hs
    split at hs
    · simp at hs
    · split at hs
      · simp only [Option.some.injEq] at hs
        subst hs
        exact uinv_expiry h owner failed
      · simp at hs

/-- No task assigns to `defaultLimit`. -/
theorem defaultLimit_step {y y' : Sys} (hi : Inv y) (e : Event) (hs : step y e = some y') :
    y'.st.defaultLimit = y.st.defaultLimit := by
  cases e with
  | submit c =>
    simp only [step] at hs
    split at hs
    · simp only [Option.some.injEq] at hs
      subst hs
      exact (fixed_call _ _).1
    · simp at hs
  | pass =>
    simp only [step] at hs
    split at hs
    · simp at hs
    · rename_i s hw
      simp only [Option.some.injEq] at hs
      subst hs
      rw [do_some_work_none hw]
    · rename_i s d hw
      simp only [Option.some.injEq] at hs
      subst hs
      obtain ⟨_, scope, rest, _, he⟩ := do_some_work_some hw
      simp [he]
  | write d =>
    simp only [step] at hs
    split at hs
    · simp only [Option.some.injEq] at hs
      subst hs
      simp [onWrite]
    · simp at hs
  | read d msg =>
    simp only [step] at hs
    split at hs
    · split at hs
      · simp at hs
      · rename_i s ho
        simp only [Option.some.injEq] at hs
        subst hs
        rw [onRead_eq hi.st] at ho
        cases ht : (y.st.transitOf (y.st.scopeOf d.route)).erase d.route 1 with
        | error e => simp [ht] at ho
        | ok t =>
          simp only [ht, Except.ok.injEq] at ho
          rw [← ho]
          exact (read_core (s := y.st) d.route msg.bucket (t := t) rfl).1
    · simp at hs
  | expiry owner failed =>
    simp only [step] at hs
    split at hs
    · simp at hs
    · split at hs
      · simp only [Option.some.injEq] at hs
        subst hs
        exact (fixed_onTimer _ _ _).1
      · simp at hs

theorem uinv_run {y y' : Sys} (es : List Event) (hi : Inv y) (h : UInv y)
    (hl : LimitsNonNeg es) (hr : run y es = some y') :
    UInv y' ∧ y'.st.defaultLimit = y.st.defaultLimit := by
  induction es generalizing y with
  | nil =>
    simp only [run, Option.some.injEq] at hr
    subst hr
    exact ⟨h, rfl⟩
  | cons e es ih =>
    simp only [run] at hr
    cases hs : step y e with
    | none => simp [hs] at hr
    | some y1 =>
      simp only [hs] at hr
      have h1 := uinv_step hi h e
        (fun d msg he => hl d msg (by rw [he]; exact List.mem_cons_self _ _)) hs
      have hd : y1.st.defaultLimit = y.st.defaultLimit := defaultLimit_step hi e hs
      have := ih (inv_step hi e hs) h1
        (fun d msg hm => hl d msg (List.mem_cons_of_mem _ hm)) hr
      exact ⟨this.1, this.2.trans hd⟩

/-- A pass selects an uncategorized call only when the uncategorized in-flight total is
below `minRemaining`, which is at most `defaultLimit`. -/
theorem pass_uncategorized {y : Sys} (hi : Inv y) (h : UInv y) {s' : State} {d : Dispatch}
    (hw : do_some_work y.st = .ok (s', some d)) (hu : y.st.scopeOf d.route = none) :
    (y.st.transit.total : Int) < minRemaining y.st ∧
      minRemaining y.st ≤ y.st.defaultLimit := by
  obtain ⟨sc, rest, hs, _, ha, hf, he⟩ := do_some_work_some_scope hi.st hw
  have hsc := (dispatch_scope hi.st hf).1
  rw [hu] at hsc
  obtain ⟨_, _, _, hcap, _, _, _⟩ := scan_spec hi.st hs
  have hrem : ∀ k b, (k, b) ∈ y.st.buckets → ownsGateway y.st b = false →
      (b.transit.total : Int) ≤ b.remaining := by
    intro k b hm hg
    have hbk := bucketAt_of_find? (Map.find?_of_mem hi.st.nodupB hm)
    have h1 := (h.nonneg.2 k).1
    have h2 := (hi.st.int32.2 k).1
    rw [hbk] at h1 h2
    have h3 := (hcap k b hm hg).1
    have := toSizeT_of_nonneg h1 h2
    omega
  obtain ⟨sc', hs', hmr, hm0, h32, _⟩ := scan_admission hi.st h.nonneg.1 hrem
  rw [hs] at hs'
  simp only [Except.ok.injEq] at hs'
  subst hs'
  have hts := toSizeT_of_nonneg hm0 h32
  have hlt : y.st.transit.total < toSizeT sc.min_remaining := by
    by_contra hc
    exact ha ⟨hsc.symm, Or.inr (by omega)⟩
  rw [← hmr]
  refine ⟨by omega, ?_⟩
  rw [hmr]
  exact (minRemainingOver_le y.st y.st.buckets y.st.defaultLimit).1

/-- No task other than the write continuation of a call on an unmapped route increases
the uncategorized in-flight total, and that one increases it by one. -/
theorem total_step {y y' : Sys} (hi : Inv y) (h : UInv y) (e : Event)
    (hs : step y e = some y') :
    y'.st.transit.total ≤ y.st.transit.total ∨
      ∃ d, e = .write d ∧ y.st.scopeOf d.route = none ∧
        y'.st.transit.total = y.st.transit.total + 1 := by
  unfold CountedSet.total
  cases e with
  | submit c =>
    simp only [step] at hs
    split at hs
    · simp only [Option.some.injEq] at hs
      subst hs
      left
      exact le_of_eq (congrArg CountedSet.sum (transitOf_call y.st c none))
    · simp at hs
  | pass =>
    simp only [step] at hs
    split at hs
    · simp at hs
    · rename_i s hw
      simp only [Option.some.injEq] at hs
      subst hs
      left
      exact le_of_eq (congrArg CountedSet.sum (transitOf_do_some_work hw none))
    · rename_i s d hw
      simp only [Option.some.injEq] at hs
      subst hs
      left
      exact le_of_eq (congrArg CountedSet.sum (transitOf_do_some_work hw none))
  | write d =>
    simp only [step] at hs
    split at hs
    · simp only [Option.some.injEq] at hs
      subst hs
      have htr := transitOf_onWrite y.st d.route none
      have e0 : (onWrite y.st d.route).transit = (onWrite y.st d.route).transitOf none := rfl
      cases hsc : y.st.scopeOf d.route with
      | none =>
        right
        refine ⟨d, rfl, hsc, ?_⟩
        show (onWrite y.st d.route).transit.sum = y.st.transit.sum + 1
        rw [e0, htr]
        simp only [hsc, if_true, State.transitOf]
        rw [(insert_one_spec y.st.transit d.route h.nodupT).1]
        have h32 := hi.st.int32.1
        unfold IsInt32 at h32
        have hb := h.bound
        push_cast at hb
        unfold addSizeT
        exact Nat.mod_eq_of_lt (by omega)
      | some k =>
        left
        show (onWrite y.st d.route).transit.sum ≤ y.st.transit.sum
        rw [e0, htr]
        simp [hsc, State.transitOf]
    · simp at hs
  | read d msg =>
    simp only [step] at hs
    split at hs
    · split at hs
      · simp at hs
      · rename_i s ho
        simp only [Option.some.injEq] at hs
        subst hs
        left
        rw [onRead_eq hi.st] at ho
        cases ht : (y.st.transitOf (y.st.scopeOf d.route)).erase d.route 1 with
        | error e => simp [ht] at ho
        | ok t =>
          simp only [ht, Except.ok.injEq] at ho
          have c5 := (read_core (s := y.st) d.route msg.bucket (t := t) rfl).2.2.2.2
          have hT := (read_transit hi h d.route ht c5).2.2
          rw [← ho]
          show (refresh _ msg.bucket msg).transit.sum ≤ y.st.transit.sum
          have htr := transitOf_refresh (if y.st.scopeOf d.route = some msg.bucket then
              y.st.setTransit (y.st.scopeOf d.route) t
            else migrate (y.st.setTransit (y.st.scopeOf d.route) t) (y.st.scopeOf d.route)
              msg.bucket d.route) msg.bucket msg none
          simp only [State.transitOf] at htr
          rw [htr]
          exact hT
    · simp at hs
  | expiry owner failed =>
    simp only [step] at hs
    split at hs
    · simp at hs
    · split at hs
      · simp only [Option.some.injEq] at hs
        subst hs
        left
        exact le_of_eq (congrArg CountedSet.sum (transitOf_onTimer y.st owner failed none))
      · simp at hs

/-! ## The uncategorized in-flight total -/

/-- C20 (counterexample): with `defaultLimit` 5, the run `negativeLimitRun` ends in the
state `overfilled`, whose uncategorized in-flight total is 6. The reply to the first call
reports the limit -1 for the bucket `Y`; when the reset timer of `Y` expires, `remaining`
becomes -1, `min_remaining` of every later pass is -1, and the comparison of line 102
converts it to a `size_t` that no in-flight total reaches. Six calls on the unmapped
route 7 are then sent and written, none of them answered. -/
theorem C20_counterexample_negative_limit :
    run (Sys.init 5 99) negativeLimitRun = some overfilled ∧
    0 ≤ overfilled.st.defaultLimit ∧
    overfilled.st.transit.total = 6 ∧
    overfilled.st.transit.count 7 = 6 ∧
    inFlight 7 overfilled.awaitingRead = 6 ∧
    ¬ ((overfilled.st.transit.total : Int) ≤ overfilled.st.defaultLimit) :=
  ⟨by rfl, by decide, by decide, by decide, by decide, by decide⟩

/-- C20 (amended): with a fixed `defaultLimit >= 0`, in every state reached from the
initial state by an execution in which no reply reports a negative limit, `defaultLimit`
has its initial value and the uncategorized in-flight total is at most `defaultLimit`; at
most one dispatched call awaits its write continuation; a pass selects an uncategorized
call only when that total is strictly below `minRemaining`, which is at most
`defaultLimit`; and no task increases the uncategorized total except the write
continuation of a call whose route is unmapped, which increases it by one. -/
theorem C20_uncategorized_bound (dl : Int) (gw : route_t) (es : List Event) (y : Sys)
    (h32 : IsInt32 dl) (h0 : 0 ≤ dl) (hl : LimitsNonNeg es)
    (hr : run (Sys.init dl gw) es = some y) :
    y.st.defaultLimit = dl ∧ (y.st.transit.total : Int) ≤ dl ∧
    y.awaitingWrite.length ≤ 1 ∧
    (∀ s' d, do_some_work y.st = .ok (s', some d) → y.st.scopeOf d.route = none →
      (y.st.transit.total : Int) < minRemaining y.st ∧ minRemaining y.st ≤ dl) ∧
    (∀ e y', step y e = some y' →
      y'.st.transit.total ≤ y.st.transit.total ∨
        ∃ d, e = .write d ∧ y.st.scopeOf d.route = none ∧
          y'.st.transit.total = y.st.transit.total + 1) := by
  have hi := inv_run es (inv_init dl gw h32) hr
  obtain ⟨hu, hd⟩ := uinv_run es (inv_init dl gw h32) (uinv_init dl gw h0) hl hr
  have hd' : y.st.defaultLimit = dl := hd
  have hb := hu.bound
  rw [hd'] at hb
  refine ⟨hd', ?_, hu.guard.1, ?_, ?_⟩
  · unfold CountedSet.total
    push_cast at hb
    omega
  · intro s' d hw hsc
    have := pass_uncategorized hi hu hw hsc
    rw [hd'] at this
    exact this
  · intro e y' hs
    exact total_step hi hu e hs

theorem C20_witness :
    LimitsNonNeg plainRun ∧ run (Sys.init 5 99) plainRun = some plainState ∧
    plainState.st.defaultLimit = 5 ∧ (plainState.st.transit.total : Int) ≤ 5 ∧
    plainState.awaitingWrite.length ≤ 1 :=
  have hl : LimitsNonNeg plainRun := by
    intro d msg hm
    simp only [plainRun, List.mem_cons, List.mem_singleton, Event.read.injEq, reduceCtorEq,
      false_or, or_false, List.not_mem_nil] at hm
    rw [hm.2]
    decide
  have h := C20_uncategorized_bound 5 99 plainRun plainState (by decide) (by decide) hl
    (by rfl)
  ⟨hl, by rfl, h.1, h.2.1, h.2.2.1⟩

end RateLimit
